import Mathlib

/-!
Verification of the multi-variant move generator (`src/movegen.cpp`) of a
Stockfish-derived chess engine.

The file embeds `movegen.cpp` shallowly: every generator function of the
source is translated to a Lean function over a `Position` record that
mirrors the Position contract the generator consumes (spec §3).  Bitboards
are 64-bit masks represented as `Nat` (all operations are masked to
64 bits where the C++ `Bitboard` arithmetic could overflow).  The bitboard
primitives (`shift`, attack tables, `between_bb`, …) live in `bitboard.h`
/ `position.h`, which are not part of the sources; they are modelled from
the spec (§2 "Bitboard primitives", §3 "Bitboard") with their standard
meaning.
-/

namespace Movegen

/-! ## Basic types (spec §3; C++ `types.h`, modelled from the spec) -/

/-- A bitboard: a set of squares as a 64-bit mask (spec §3). -/
abbrev Bitboard := Nat

/-- A square, 0..63; 64 is the sentinel `SQ_NONE` (spec §3). -/
abbrev Square := Nat

/-- Modelled from the spec: `SQ_NONE` sentinel square. -/
def SQ_NONE : Square := 64

/-- The full 64-bit mask: every square. -/
def FULLBB : Bitboard := 2 ^ 64 - 1

/-- Side to move (spec §3). -/
inductive Color where
  | WHITE
  | BLACK
deriving DecidableEq, Repr, Fintype

/-- `Them = ¬Us` (spec §3). -/
def Color.opp : Color → Color
  | .WHITE => .BLACK
  | .BLACK => .WHITE

/-- Piece types (spec §3); `ALL_PIECES` is handled by dedicated fields. -/
inductive PieceType where
  | PAWN
  | KNIGHT
  | BISHOP
  | ROOK
  | QUEEN
  | KING
deriving DecidableEq, Repr, Fintype

/-- The eight rule sets (spec §3 "Variant tag"). -/
inductive Variant where
  | CHESS
  | ANTI
  | ATOMIC
  | CRAZYHOUSE
  | HORDE
  | LOSERS
  | RACE
  | RELAY
deriving DecidableEq, Repr, Fintype

/-- Generation kinds (spec §3 `GenType`). -/
inductive GenType where
  | CAPTURES
  | QUIETS
  | QUIET_CHECKS
  | EVASIONS
  | NON_EVASIONS
  | LEGAL
deriving DecidableEq, Repr, Fintype

/-- Move kinds (spec §3 "Move"). -/
inductive MoveType where
  | NORMAL
  | PROMOTION
  | ENPASSANT
  | CASTLING
  | DROP
deriving DecidableEq, Repr, Fintype

/-- Castling rights, one per side and wing (C++ `CastlingRight`). -/
inductive CastlingRight where
  | WHITE_OO
  | WHITE_OOO
  | BLACK_OO
  | BLACK_OOO
deriving DecidableEq, Repr, Fintype

/-- `MakeCastling<Us, KING_SIDE>::right` (C++ `types.h`). -/
def mkCastlingRight (us : Color) (kingSide : Bool) : CastlingRight :=
  match us, kingSide with
  | .WHITE, true => .WHITE_OO
  | .WHITE, false => .WHITE_OOO
  | .BLACK, true => .BLACK_OO
  | .BLACK, false => .BLACK_OOO

/-- A move: the packed value of the C++ `Move` carries (kind, from, to,
promotion piece, and for Crazyhouse drops the dropped piece type); the
packing is injective on these fields, so a structure is a faithful model.
`make_move` packs promotion bits as `KNIGHT` (value 0), which the default
fields reproduce. -/
structure Move where
  mtype : MoveType
  fromSq : Square
  toSq : Square
  promo : PieceType := .KNIGHT
  dropPt : PieceType := .PAWN
deriving DecidableEq, Repr

/-- C++ `make_move(from, to)`: a `NORMAL` move. -/
def make_move (f t : Square) : Move := ⟨.NORMAL, f, t, .KNIGHT, .PAWN⟩

/-- C++ `make<PROMOTION>(from, to, pt)`. -/
def makePromotion (f t : Square) (pt : PieceType) : Move := ⟨.PROMOTION, f, t, pt, .PAWN⟩

/-- C++ `make<ENPASSANT>(from, to)`. -/
def makeEnpassant (f t : Square) : Move := ⟨.ENPASSANT, f, t, .KNIGHT, .PAWN⟩

/-- C++ `make<CASTLING>(kfrom, rfrom)`. -/
def makeCastlingMove (kfrom rfrom : Square) : Move := ⟨.CASTLING, kfrom, rfrom, .KNIGHT, .PAWN⟩

/-- C++ `make_drop(to, make_piece(Us, Pt))`: within one generator call the
color of the dropped piece is always the side to move, so only the piece
type is recorded. -/
def make_drop (t : Square) (pt : PieceType) : Move := ⟨.DROP, SQ_NONE, t, .KNIGHT, pt⟩

/-- C++ `from_sq`. -/
def from_sq (m : Move) : Square := m.fromSq

/-- C++ `to_sq`. -/
def to_sq (m : Move) : Square := m.toSq

/-! ## Bitboard primitives (modelled from the spec §2/§3: `bitboard.h` is
not among the sources; shifts move the set one square, masking wrap-around;
`pop_lsb` iterates set bits from the least significant upward). -/

/-- Directions are square-index deltas (C++ `Square` deltas). -/
abbrev Direction := Int

def NORTH : Direction := 8
def SOUTH : Direction := -8
def EAST : Direction := 1
def WEST : Direction := -1
def NORTH_EAST : Direction := 9
def NORTH_WEST : Direction := 7
def SOUTH_EAST : Direction := -7
def SOUTH_WEST : Direction := -9

/-- File of a square, 0..7. -/
def file_of (s : Square) : Nat := s % 8

/-- Rank of a square, 0..7 (`RANK_1` = 0). -/
def rank_of (s : Square) : Nat := s / 8

/-- Modelled from the spec: the bitboard of a single square (`SquareBB`);
empty for the `SQ_NONE` sentinel. -/
def sqbb (s : Square) : Bitboard := if s < 64 then (1 <<< s) else 0

def FileABB : Bitboard := 0x0101010101010101
def FileHBB : Bitboard := 0x8080808080808080
def Rank1BB : Bitboard := 0xFF
def Rank2BB : Bitboard := 0xFF00
def Rank3BB : Bitboard := 0xFF0000
def Rank6BB : Bitboard := 0xFF0000000000
def Rank7BB : Bitboard := 0xFF000000000000
def Rank8BB : Bitboard := 0xFF00000000000000

/-- Bitboard complement (`~b` on a 64-bit mask). -/
def compl (b : Bitboard) : Bitboard := FULLBB ^^^ b

/-- Modelled from the spec: `file_bb(s)`, the file holding square `s`. -/
def file_bb (s : Square) : Bitboard := FileABB <<< file_of s

/-- Modelled from the spec: `rank_bb`-style mask for a 0-based rank. -/
def rank_bb (r : Nat) : Bitboard := Rank1BB <<< (8 * r)

/-- Modelled from the spec: the directional shift operators of
`bitboard.h`; one-square shift of the set, masking off wrap-around. -/
def shiftBB (D : Direction) (b : Bitboard) : Bitboard :=
  if D = NORTH then (b <<< 8) &&& FULLBB
  else if D = SOUTH then b >>> 8
  else if D = NORTH_EAST then ((b &&& compl FileHBB) <<< 9) &&& FULLBB
  else if D = NORTH_WEST then ((b &&& compl FileABB) <<< 7) &&& FULLBB
  else if D = SOUTH_EAST then (b &&& compl FileHBB) >>> 7
  else if D = SOUTH_WEST then (b &&& compl FileABB) >>> 9
  else 0

/-- C++ square arithmetic `s - D` (`Square` plus/minus a `Direction`). -/
def sqSub (s : Square) (D : Direction) : Square := ((s : Int) - D).toNat

/-- The set bits of a bitboard in increasing order: exactly the order in
which the C++ `while (b) pop_lsb(&b)` loops visit them. -/
def bits (b : Bitboard) : List Square := (List.range 64).filter (fun i => b.testBit i)

/-- C++ `lsb(b)` (the code only calls it on nonzero bitboards). -/
def lsb (b : Bitboard) : Square := (bits b).headD SQ_NONE

/-- C++ `more_than_one(b)`: `b & (b - 1)` is nonzero. -/
def more_than_one (b : Bitboard) : Prop := b &&& (b - 1) ≠ 0

instance (b : Bitboard) : Decidable (more_than_one b) := by
  unfold more_than_one; infer_instance

/-- `relative_square(c, s)` (C++ `types.h`): vertical flip for Black. -/
def relative_square (c : Color) (s : Square) : Square :=
  if c = .WHITE then s else s ^^^ 56

/-- `relative_rank(c, r)` for a 0-based rank. -/
def relative_rank (c : Color) (r : Nat) : Nat :=
  if c = .WHITE then r else 7 - r

def SQ_G1 : Square := 6
def SQ_C1 : Square := 2
def RANK_6 : Nat := 5

end Movegen

namespace Movegen

/-! ## Attack tables (modelled from the spec §2: pseudo-attack tables,
`LineBB`, `between_bb`, magic-bitboard slider attacks are collaborators
assumed available; they are given their standard chess meaning here). -/

/-- Union of single-square steps from `s`, dropping steps that leave the
board. -/
def stepsBB (deltas : List (Int × Int)) (s : Square) : Bitboard :=
  deltas.foldl
    (fun a d =>
      let f : Int := Int.ofNat (file_of s) + d.1
      let r : Int := Int.ofNat (rank_of s) + d.2
      if 0 ≤ f ∧ f < 8 ∧ 0 ≤ r ∧ r < 8 then a ||| (1 <<< (8 * r.toNat + f.toNat)) else a)
    0

/-- Modelled from the spec: `PseudoAttacks[KNIGHT][s]`. -/
def knightAttacksBB (s : Square) : Bitboard :=
  stepsBB [(1, 2), (2, 1), (2, -1), (1, -2), (-1, -2), (-2, -1), (-2, 1), (-1, 2)] s

/-- Modelled from the spec: `PseudoAttacks[KING][s]`. -/
def kingAttacksBB (s : Square) : Bitboard :=
  stepsBB [(1, 0), (1, 1), (0, 1), (-1, 1), (-1, 0), (-1, -1), (0, -1), (1, -1)] s

/-- Modelled from the spec: pawn attacks of a pawn of color `c` sitting on
`s` (`StepAttacksBB[make_piece(c, PAWN)][s]`). -/
def pawnAttacksBB (c : Color) (s : Square) : Bitboard :=
  if c = .WHITE then stepsBB [(1, 1), (-1, 1)] s else stepsBB [(1, -1), (-1, -1)] s

/-- One sliding ray from `s` in direction `(df, dr)`: squares are added
until (and including) the first occupied one, as magic attack tables do. -/
def rayBB (s : Square) (df dr : Int) (occ : Bitboard) : Bitboard :=
  go 8 (Int.ofNat (file_of s)) (Int.ofNat (rank_of s)) where
  go : Nat → Int → Int → Bitboard
    | 0, _, _ => 0
    | fuel + 1, f, r =>
      let f' := f + df
      let r' := r + dr
      if 0 ≤ f' ∧ f' < 8 ∧ 0 ≤ r' ∧ r' < 8 then
        let t := 8 * r'.toNat + f'.toNat
        if occ.testBit t then (1 <<< t) else (1 <<< t) ||| go fuel f' r'
      else 0

/-- Modelled from the spec: `attacks_bb<BISHOP>(s, occ)`. -/
def bishopAttacksBB (s : Square) (occ : Bitboard) : Bitboard :=
  rayBB s 1 1 occ ||| rayBB s 1 (-1) occ ||| rayBB s (-1) 1 occ ||| rayBB s (-1) (-1) occ

/-- Modelled from the spec: `attacks_bb<ROOK>(s, occ)`. -/
def rookAttacksBB (s : Square) (occ : Bitboard) : Bitboard :=
  rayBB s 1 0 occ ||| rayBB s (-1) 0 occ ||| rayBB s 0 1 occ ||| rayBB s 0 (-1) occ

/-- Modelled from the spec: `PseudoAttacks[pt][s]` (empty-board attacks);
the generator uses it for `KNIGHT`, `BISHOP`, `ROOK`, `QUEEN` and `KING`. -/
def pseudoAttacks (pt : PieceType) (s : Square) : Bitboard :=
  match pt with
  | .PAWN => 0
  | .KNIGHT => knightAttacksBB s
  | .BISHOP => bishopAttacksBB s 0
  | .ROOK => rookAttacksBB s 0
  | .QUEEN => bishopAttacksBB s 0 ||| rookAttacksBB s 0
  | .KING => kingAttacksBB s

/-- Whether `s2` lies on one of the eight queen rays from `s1`, together
with the (file, rank) step of that ray. -/
def rayDir (s1 s2 : Square) : Option (Int × Int) :=
  let df : Int := Int.ofNat (file_of s2) - Int.ofNat (file_of s1)
  let dr : Int := Int.ofNat (rank_of s2) - Int.ofNat (rank_of s1)
  if s1 = s2 ∨ s1 ≥ 64 ∨ s2 ≥ 64 then none
  else if df = 0 then some (0, if 0 < dr then 1 else -1)
  else if dr = 0 then some (if 0 < df then 1 else -1, 0)
  else if df = dr then some (if 0 < df then 1 else -1, if 0 < dr then 1 else -1)
  else if df = -dr then some (if 0 < df then 1 else -1, if 0 < dr then 1 else -1)
  else none

/-- Modelled from the spec: `between_bb(s1, s2)`, the squares strictly
between two aligned squares (empty when they are not aligned). -/
def between_bb (s1 s2 : Square) : Bitboard :=
  match rayDir s1 s2 with
  | none => 0
  | some d => rayBB s1 d.1 d.2 (sqbb s2) &&& compl (sqbb s2)

/-- Modelled from the spec: `LineBB[s1][s2]`, the full line (both ends
included, extended to the board edges) through two aligned squares. -/
def line_bb (s1 s2 : Square) : Bitboard :=
  match rayDir s1 s2 with
  | none => 0
  | some d => rayBB s1 d.1 d.2 0 ||| rayBB s1 (-d.1) (-d.2) 0 ||| sqbb s1

/-- Modelled from the spec: `passed_pawn_mask(WHITE, s)` — the squares in
front of `s` (White's view) on its file and the adjacent files; the Racing
Kings king filter reuses it as the forward cone. -/
def passed_pawn_mask (c : Color) (s : Square) : Bitboard :=
  let files := file_bb s ||| shiftBB EAST (file_bb s) ||| shiftBB WEST (file_bb s)
  let ahead : Bitboard :=
    if c = .WHITE then FULLBB <<< (8 * (rank_of s + 1)) &&& FULLBB
    else FULLBB >>> (8 * (8 - rank_of s))
  files &&& ahead

end Movegen

namespace Movegen

/-! ## The Position contract (spec §3 "Position contract"): the generator
reads the position only through these queries, each pure.  They become
fields of a record; the variant-dependent ones (`can_capture`,
`count_in_hand`, …) are plain data here. -/

structure Position where
  variant : Variant
  sideToMove : Color
  /-- `pieces(c)`: all pieces of a color. -/
  byColor : Color → Bitboard
  /-- `pieces(pt)`: all pieces of a type, both colors. -/
  byType : PieceType → Bitboard
  /-- `ep_square()`; `SQ_NONE` when unset. -/
  epSq : Square
  /-- `can_castle(cr)` for a single right. -/
  castleRight : CastlingRight → Bool
  /-- `castling_impeded(cr)`. -/
  castlingImpeded : CastlingRight → Bool
  /-- `castling_rook_square(cr)`. -/
  castlingRookSq : CastlingRight → Square
  /-- `castling_king_square(cr)` (Antichess only). -/
  castlingKingSq : CastlingRight → Square
  /-- `is_chess960()`. -/
  chess960 : Bool
  /-- `is_variant_end()`. -/
  variantEnd : Bool
  /-- Antichess `can_capture()`. -/
  canCaptureAnti : Bool
  /-- Losers `can_capture_losers()`. -/
  canCaptureLosersF : Bool
  /-- Crazyhouse `count_in_hand<Pt>(c)`. -/
  handCount : Color → PieceType → Nat
  /-- Crazyhouse `count_in_hand<ALL_PIECES>(c)`. -/
  handAll : Color → Nat
  /-- `gives_check(m)`. -/
  givesCheck : Move → Bool
  /-- `legal(m)`. -/
  legalM : Move → Bool
  /-- `capture(m)`. -/
  captureM : Move → Bool
  /-- `checkers()`. -/
  checkersBB : Bitboard
  /-- `check_squares(pt)`. -/
  checkSquares : PieceType → Bitboard
  /-- `discovered_check_candidates()`. -/
  dcCandidates : Bitboard
  /-- `pinned_pieces(c)`. -/
  pinnedBB : Color → Bitboard
  /-- `attackers_to(s)` (under the current occupancy). -/
  attackersTo : Square → Bitboard
  /-- `attackers_to(s, occupied)`. -/
  attackersToOcc : Square → Bitboard → Bitboard
  /-- `attacks_from<Pt>(s)` / `attacks_from(pt, s)` (current occupancy). -/
  attacksFromF : PieceType → Square → Bitboard
  /-- `attacks_from<PAWN>(s, c)`. -/
  pawnAttacksFrom : Square → Color → Bitboard
  /-- `type_of(piece_on(s))`. -/
  pieceOnF : Square → PieceType
  /-- `square<KING>(c)` (`SQ_NONE` when the side has no king, e.g. Horde
  White). -/
  kingSq : Color → Square

namespace Position

/-- `pieces()`: full occupancy. -/
def pieces (P : Position) : Bitboard := P.byColor .WHITE ||| P.byColor .BLACK

/-- `pieces(c)`. -/
def piecesC (P : Position) (c : Color) : Bitboard := P.byColor c

/-- `pieces(c, pt)`. -/
def piecesCT (P : Position) (c : Color) (pt : PieceType) : Bitboard :=
  P.byColor c &&& P.byType pt

/-- `pieces(c, pt1, pt2)`. -/
def piecesCT2 (P : Position) (c : Color) (pt1 pt2 : PieceType) : Bitboard :=
  P.byColor c &&& (P.byType pt1 ||| P.byType pt2)

/-- `pieces(pt1, pt2)`. -/
def piecesT2 (P : Position) (pt1 pt2 : PieceType) : Bitboard :=
  P.byType pt1 ||| P.byType pt2

/-- `can_castle(c)`: any castling right of the color. -/
def canCastleC (P : Position) (c : Color) : Bool :=
  P.castleRight (mkCastlingRight c true) || P.castleRight (mkCastlingRight c false)

end Position

end Movegen

namespace Movegen

/-! ## The move generator (`src/movegen.cpp`), embedded function by
function.  The `while (b) ... pop_lsb(&b)` emission loops become maps over
`bits b` (ascending bit order, exactly the `pop_lsb` order); the
`squares<Pt>(us)` piece-list iteration of `generate_moves` is modelled by
the ascending enumeration of `pieces(us, Pt)`, which visits the same set
of squares. -/

/-- C++ square arithmetic `s + D`. -/
def sqAdd (s : Square) (D : Direction) : Square := ((s : Int) + D).toNat

/-- The safety-scan loop `for (Square s = kto; s != kfrom; s += K)` of
`generate_castling` (movegen.cpp:56): the squares visited, in visit
order.  Fuel 64 is enough for every call the generator makes. -/
def castleScanSquares : Nat → Square → Square → Direction → List Square
  | 0, _, _, _ => []
  | fuel + 1, s, kfrom, K =>
    if s = kfrom then [] else s :: castleScanSquares fuel (sqAdd s K) kfrom K

/-- movegen.cpp:49-50: the step direction `K` of the castling safety
scan. -/
def castleStepDir (Chess960 : Bool) (KingSide : Prop) [Decidable KingSide]
    (kto kfrom : Square) : Direction :=
  if Chess960 then (if kto > kfrom then WEST else EAST)
  else (if KingSide then WEST else EAST)

/-- movegen.cpp:28-90 `generate_castling<V, Cr, Checks, Chess960>`. -/
def generate_castling (V : Variant) (Cr : CastlingRight) (Checks Chess960 : Bool)
    (pos : Position) (us : Color) : List Move :=
  let KingSide := Cr = .WHITE_OO ∨ Cr = .BLACK_OO
  if pos.castlingImpeded Cr ∨ ¬ pos.castleRight Cr then []
  else
    let kfrom := if V = .ANTI then pos.castlingKingSq Cr else pos.kingSq us
    let rfrom := pos.castlingRookSq Cr
    let kto := relative_square us (if KingSide then SQ_G1 else SQ_C1)
    let enemies := pos.piecesC us.opp
    let K : Direction := castleStepDir Chess960 KingSide kto kfrom
    let scanAttacked :=
      (castleScanSquares 64 kto kfrom K).any (fun s =>
        if V = .ATOMIC then
          decide (pos.attacksFromF .KING (pos.kingSq us.opp) &&& sqbb s = 0) &&
            decide (pos.attackersToOcc s (pos.pieces ^^^ sqbb kfrom) &&& enemies ≠ 0)
        else decide (pos.attackersTo s &&& enemies ≠ 0))
    let hiddenChecker :=
      Chess960 = true ∧
        rookAttacksBB kto (pos.pieces ^^^ sqbb rfrom) &&& pos.piecesCT2 us.opp .ROOK .QUEEN ≠ 0 ∧
        ¬ (V = .ATOMIC ∧ pos.attacksFromF .KING (pos.kingSq us.opp) &&& sqbb kto ≠ 0)
    if V ≠ .ANTI ∧ (scanAttacked = true ∨ hiddenChecker) then []
    else
      let m := makeCastlingMove kfrom rfrom
      if Checks = true ∧ ¬ (pos.givesCheck m = true) then [] else [m]

/-- movegen.cpp:93-128 `make_promotions<V, Type, D>`. -/
def make_promotions (V : Variant) (T : GenType) (D : Direction) (t ksq : Square) : List Move :=
  if V = .ANTI then
    if T = .QUIETS ∨ T = .CAPTURES ∨ T = .NON_EVASIONS then
      [makePromotion (sqSub t D) t .QUEEN, makePromotion (sqSub t D) t .ROOK,
       makePromotion (sqSub t D) t .BISHOP, makePromotion (sqSub t D) t .KNIGHT,
       makePromotion (sqSub t D) t .KING]
    else []
  else
    (if T = .CAPTURES ∨ T = .EVASIONS ∨ T = .NON_EVASIONS then
      [makePromotion (sqSub t D) t .QUEEN] else [])
    ++ (if T = .QUIETS ∨ T = .EVASIONS ∨ T = .NON_EVASIONS then
      [makePromotion (sqSub t D) t .ROOK, makePromotion (sqSub t D) t .BISHOP,
       makePromotion (sqSub t D) t .KNIGHT] else [])
    ++ (if T = .QUIET_CHECKS ∧ pseudoAttacks .KNIGHT t &&& sqbb ksq ≠ 0 then
      [makePromotion (sqSub t D) t .KNIGHT] else [])

/-- movegen.cpp:130-143 `generate_drops<Us, Pt, Checks>` (Crazyhouse). -/
def generate_drops (Us : Color) (Pt : PieceType) (Checks : Bool) (pos : Position)
    (b : Bitboard) : List Move :=
  if 0 < pos.handCount Us Pt then
    let b := if Checks then b &&& pos.checkSquares Pt else b
    (bits b).map (fun t => make_drop t Pt)
  else []

/-- The Us-relative constants of `generate_pawn_moves` (movegen.cpp:150-159). -/
def pawnUp (Us : Color) : Direction := if Us = .WHITE then NORTH else SOUTH

def pawnRight (Us : Color) : Direction := if Us = .WHITE then NORTH_EAST else SOUTH_WEST

def pawnLeft (Us : Color) : Direction := if Us = .WHITE then NORTH_WEST else SOUTH_EAST

def tRank8 (Us : Color) : Bitboard := if Us = .WHITE then Rank8BB else Rank1BB

def tRank7 (Us : Color) : Bitboard := if Us = .WHITE then Rank7BB else Rank2BB

def tRank2 (Us : Color) : Bitboard := if Us = .WHITE then Rank2BB else Rank7BB

def tRank3 (Us : Color) : Bitboard := if Us = .WHITE then Rank3BB else Rank6BB

/-- movegen.cpp:163 `pawnsOn7`. -/
def pawnsOn7bb (pos : Position) (Us : Color) : Bitboard := pos.piecesCT Us .PAWN &&& tRank7 Us

/-- movegen.cpp:164 `pawnsNotOn7`. -/
def pawnsNotOn7bb (pos : Position) (Us : Color) : Bitboard :=
  pos.piecesCT Us .PAWN &&& compl (tRank7 Us)

/-- movegen.cpp:166-167 `enemies`. -/
def pawnEnemies (Us : Color) (T : GenType) (pos : Position) (target : Bitboard) : Bitboard :=
  if T = .EVASIONS then pos.piecesC Us.opp &&& target
  else if T = .CAPTURES then target else pos.piecesC Us.opp

/-- movegen.cpp:172-176: the `emptySquares` mask set up by the push
section; the promotion section reuses it for non-CAPTURES kinds. -/
def pawnPushEmpty (V : Variant) (Us : Color) (T : GenType) (pos : Position)
    (target : Bitboard) : Bitboard :=
  let e := if T = .QUIETS ∨ T = .QUIET_CHECKS then target else compl pos.pieces
  if V = .ANTI then e &&& target else e

/-- movegen.cpp:221-223: the discovered-check single-push set `dc1` of the
`QUIET_CHECKS` push refinement. -/
def pawnPushDc1 (V : Variant) (Us : Color) (T : GenType) (pos : Position)
    (target : Bitboard) : Bitboard :=
  shiftBB (pawnUp Us) (pawnsNotOn7bb pos Us &&& pos.dcCandidates) &&&
    pawnPushEmpty V Us T pos target &&& compl (file_bb (pos.kingSq Us.opp))

/-- movegen.cpp:170-227: the single-push destination set `b1` as it stands
when the push emission loop runs. -/
def pawnPushB1 (V : Variant) (Us : Color) (T : GenType) (pos : Position)
    (target : Bitboard) : Bitboard :=
  let emptySquares := pawnPushEmpty V Us T pos target
  let b1 := shiftBB (pawnUp Us) (pawnsNotOn7bb pos Us) &&& emptySquares
  let b1 := if V = .LOSERS then b1 &&& target else b1
  let b1 := if T = .EVASIONS then b1 &&& target else b1
  if T = .QUIET_CHECKS then
    let b1 := b1 &&& pos.pawnAttacksFrom (pos.kingSq Us.opp) Us.opp
    if pawnsNotOn7bb pos Us &&& pos.dcCandidates ≠ 0 then
      b1 ||| pawnPushDc1 V Us T pos target
    else b1
  else b1

/-- movegen.cpp:170-227: the double-push destination set `b2` as it stands
when the push emission loop runs. -/
def pawnPushB2 (V : Variant) (Us : Color) (T : GenType) (pos : Position)
    (target : Bitboard) : Bitboard :=
  let emptySquares := pawnPushEmpty V Us T pos target
  let b1 := shiftBB (pawnUp Us) (pawnsNotOn7bb pos Us) &&& emptySquares
  let b2 := shiftBB (pawnUp Us) (b1 &&& tRank3 Us) &&& emptySquares
  let b2 := if V = .HORDE then
    shiftBB (pawnUp Us) (b1 &&& (tRank2 Us ||| tRank3 Us)) &&& emptySquares else b2
  let b2 := if V = .LOSERS then b2 &&& target else b2
  let b2 := if T = .EVASIONS then b2 &&& target else b2
  if T = .QUIET_CHECKS then
    let b2 := b2 &&& pos.pawnAttacksFrom (pos.kingSq Us.opp) Us.opp
    if pawnsNotOn7bb pos Us &&& pos.dcCandidates ≠ 0 then
      b2 ||| (shiftBB (pawnUp Us) (pawnPushDc1 V Us T pos target &&& tRank3 Us) &&&
        emptySquares)
    else b2
  else b2

/-- movegen.cpp:170-231: single and double pawn pushes (no promotions). -/
def pawnPushList (V : Variant) (Us : Color) (T : GenType) (pos : Position)
    (target : Bitboard) : List Move :=
  if T ≠ .CAPTURES then
    (bits (pawnPushB1 V Us T pos target)).map (fun t => make_move (sqSub t (pawnUp Us)) t)
      ++ (bits (pawnPushB2 V Us T pos target)).map
        (fun t => make_move (sqSub (sqSub t (pawnUp Us)) (pawnUp Us)) t)
  else []

/-- movegen.cpp:236-255: the `emptySquares` mask in force at the promotion
section. -/
def pawnPromoEmpty (V : Variant) (Us : Color) (T : GenType) (pos : Position)
    (target : Bitboard) : Bitboard :=
  let e := if T = .CAPTURES then compl pos.pieces else pawnPushEmpty V Us T pos target
  let e := if T = .CAPTURES ∧ V = .ATOMIC ∧ pos.checkersBB ≠ 0 then e &&& target else e
  let e := if V = .ANTI then e &&& target else e
  let e := if V = .LOSERS then e &&& target else e
  if T = .EVASIONS then e &&& target else e

/-- movegen.cpp:234-271: promotions and underpromotions. -/
def pawnPromoList (V : Variant) (Us : Color) (T : GenType) (pos : Position)
    (target : Bitboard) : List Move :=
  if pawnsOn7bb pos Us ≠ 0 ∧ (T ≠ .EVASIONS ∨ target &&& tRank8 Us ≠ 0) then
    let enemies := pawnEnemies Us T pos target
    let emptySquares := pawnPromoEmpty V Us T pos target
    let b1 := shiftBB (pawnRight Us) (pawnsOn7bb pos Us) &&& enemies
    let b2 := shiftBB (pawnLeft Us) (pawnsOn7bb pos Us) &&& enemies
    let b3 := shiftBB (pawnUp Us) (pawnsOn7bb pos Us) &&& emptySquares
    let ksq := pos.kingSq Us.opp
    (bits b1).flatMap (fun t => make_promotions V T (pawnRight Us) t ksq)
      ++ (bits b2).flatMap (fun t => make_promotions V T (pawnLeft Us) t ksq)
      ++ (bits b3).flatMap (fun t => make_promotions V T (pawnUp Us) t ksq)
  else []

/-- movegen.cpp:274-308: standard and en-passant captures. -/
def pawnCapList (Us : Color) (T : GenType) (pos : Position) (target : Bitboard) : List Move :=
  if T = .CAPTURES ∨ T = .EVASIONS ∨ T = .NON_EVASIONS then
    let enemies := pawnEnemies Us T pos target
    let b1 := shiftBB (pawnRight Us) (pawnsNotOn7bb pos Us) &&& enemies
    let b2 := shiftBB (pawnLeft Us) (pawnsNotOn7bb pos Us) &&& enemies
    let caps := (bits b1).map (fun t => make_move (sqSub t (pawnRight Us)) t)
      ++ (bits b2).map (fun t => make_move (sqSub t (pawnLeft Us)) t)
    let eps :=
      if pos.epSq ≠ SQ_NONE then
        if T = .EVASIONS ∧ target &&& sqbb (sqSub pos.epSq (pawnUp Us)) = 0 then []
        else (bits (pawnsNotOn7bb pos Us &&& pos.pawnAttacksFrom pos.epSq Us.opp)).map
          (fun f => makeEnpassant f pos.epSq)
      else []
    caps ++ eps
  else []

/-- movegen.cpp:145-311 `generate_pawn_moves<V, Us, Type>`. -/
def generate_pawn_moves (V : Variant) (Us : Color) (T : GenType) (pos : Position)
    (target : Bitboard) : List Move :=
  pawnPushList V Us T pos target ++ pawnPromoList V Us T pos target ++ pawnCapList Us T pos target

/-- The assertions in the en-passant block of `generate_pawn_moves`
(movegen.cpp:293 `rank_of(ep_square()) == relative_rank(Us, RANK_6)` and
movegen.cpp:303 `assert(b1)`): `True` iff every assertion encountered on
this call holds. -/
def pawnEpAssertsOK (Us : Color) (T : GenType) (pos : Position) (target : Bitboard) : Prop :=
  (T = .CAPTURES ∨ T = .EVASIONS ∨ T = .NON_EVASIONS) → pos.epSq ≠ SQ_NONE →
    rank_of pos.epSq = relative_rank Us RANK_6 ∧
      (¬ (T = .EVASIONS ∧ target &&& sqbb (sqSub pos.epSq (pawnUp Us)) = 0) →
        pawnsNotOn7bb pos Us &&& pos.pawnAttacksFrom pos.epSq Us.opp ≠ 0)

instance (Us : Color) (T : GenType) (pos : Position) (target : Bitboard) :
    Decidable (pawnEpAssertsOK Us T pos target) := by
  unfold pawnEpAssertsOK; infer_instance

/-- The C++ pattern `if (cond) b |= x;`. -/
def unionIf (c : Prop) [Decidable c] (b x : Bitboard) : Bitboard := if c then b ||| x else b

/-- movegen.cpp:335-347: the Relay overlay — union in the attack sets
relayed by own defenders of `f`, each intersected with the target. -/
def relayExpand (pos : Position) (us : Color) (target : Bitboard) (f : Square)
    (b : Bitboard) : Bitboard :=
  let defenders := pos.attackersTo f &&& pos.piecesC us
  unionIf (defenders &&& pos.byType .KING ≠ 0)
    (unionIf (defenders &&& pos.piecesT2 .QUEEN .ROOK ≠ 0)
      (unionIf (defenders &&& pos.piecesT2 .QUEEN .BISHOP ≠ 0)
        (unionIf (defenders &&& pos.byType .KNIGHT ≠ 0) b
          (pos.attacksFromF .KNIGHT f &&& target))
        (pos.attacksFromF .BISHOP f &&& target))
      (pos.attacksFromF .ROOK f &&& target))
    (pos.attacksFromF .KING f &&& target)

/-- movegen.cpp:334-351: the destination set of one piece of
`generate_moves` sitting on `f`. -/
def pieceDestBB (V : Variant) (Pt : PieceType) (Checks : Bool) (pos : Position)
    (us : Color) (target : Bitboard) (f : Square) : Bitboard :=
  let b := pos.attacksFromF Pt f &&& target
  let b := if V = .RELAY then relayExpand pos us target f b else b
  if Checks then b &&& pos.checkSquares Pt else b

/-- movegen.cpp:324-331: the QUIET_CHECKS skip conditions of
`generate_moves`. -/
def pieceSkip (Pt : PieceType) (Checks : Bool) (pos : Position) (target : Bitboard)
    (f : Square) : Prop :=
  Checks = true ∧ (((Pt = .BISHOP ∨ Pt = .ROOK ∨ Pt = .QUEEN) ∧
      pseudoAttacks Pt f &&& target &&& pos.checkSquares Pt = 0) ∨
    pos.dcCandidates &&& sqbb f ≠ 0)

instance (Pt : PieceType) (Checks : Bool) (pos : Position) (target : Bitboard)
    (f : Square) : Decidable (pieceSkip Pt Checks pos target f) := by
  unfold pieceSkip; infer_instance

/-- movegen.cpp:314-358 `generate_moves<V, Pt, Checks>` (knight, bishop,
rook, queen). -/
def generate_moves (V : Variant) (Pt : PieceType) (Checks : Bool) (pos : Position)
    (us : Color) (target : Bitboard) : List Move :=
  (bits (pos.piecesCT us Pt)).flatMap (fun f =>
    if pieceSkip Pt Checks pos target f then []
    else (bits (pieceDestBB V Pt Checks pos us target f)).map (fun t => make_move f t))

/-- movegen.cpp:371-381: the Crazyhouse drop block of `generate_all`. -/
def dropList (V : Variant) (Us : Color) (T : GenType) (pos : Position)
    (target : Bitboard) : List Move :=
  if V = .CRAZYHOUSE ∧ T ≠ .CAPTURES ∧ 0 < pos.handAll Us then
    let b := if T = .EVASIONS then target ^^^ pos.checkersBB
             else if T = .NON_EVASIONS then target ^^^ pos.piecesC Us.opp else target
    generate_drops Us .PAWN (T = .QUIET_CHECKS) pos (b &&& compl (Rank1BB ||| Rank8BB))
      ++ generate_drops Us .KNIGHT (T = .QUIET_CHECKS) pos b
      ++ generate_drops Us .BISHOP (T = .QUIET_CHECKS) pos b
      ++ generate_drops Us .ROOK (T = .QUIET_CHECKS) pos b
      ++ generate_drops Us .QUEEN (T = .QUIET_CHECKS) pos b
  else []

/-- movegen.cpp:402-424: the destination set of the standard king mover,
with the Racing Kings and Relay overlays.  The Relay overlay here unions
the knight / bishop / rook relayed attacks (movegen.cpp:413-423, which has
no KING line, unlike movegen.cpp:345). -/
def kingDestBB (V : Variant) (Us : Color) (T : GenType) (pos : Position)
    (target : Bitboard) : Bitboard :=
  let ksq := pos.kingSq Us
  let b := pos.attacksFromF .KING ksq &&& target
  let b := unionIf (V = .RACE ∧ T = .CAPTURES) b
    (pos.attacksFromF .KING ksq &&& passed_pawn_mask .WHITE ksq &&& compl pos.pieces)
  let b := if V = .RACE ∧ T = .QUIETS then b &&& compl (passed_pawn_mask .WHITE ksq) else b
  if V = .RELAY then
    let defenders := pos.attackersTo ksq &&& pos.piecesC Us
    unionIf (defenders &&& pos.piecesT2 .QUEEN .ROOK ≠ 0)
      (unionIf (defenders &&& pos.piecesT2 .QUEEN .BISHOP ≠ 0)
        (unionIf (defenders &&& pos.byType .KNIGHT ≠ 0) b
          (pos.attacksFromF .KNIGHT ksq &&& target))
        (pos.attacksFromF .BISHOP ksq &&& target))
      (pos.attacksFromF .ROOK ksq &&& target)
  else b

/-- movegen.cpp:384-427: the king block of `generate_all` (the Antichess
multi-king loop, otherwise the standard king mover with the Racing Kings
and Relay overlays). -/
def kingMovesList (V : Variant) (Us : Color) (T : GenType) (pos : Position)
    (target : Bitboard) : List Move :=
  if V = .ANTI then
    (bits (pos.piecesCT Us .KING)).flatMap (fun ksq =>
      (bits (pos.attacksFromF .KING ksq &&& target)).map (fun t => make_move ksq t))
  else if T ≠ .QUIET_CHECKS ∧ T ≠ .EVASIONS then
    (bits (kingDestBB V Us T pos target)).map (fun t => make_move (pos.kingSq Us) t)
  else []

/-- movegen.cpp:433-445: the castling block of `generate_all`. -/
def castleList (V : Variant) (Us : Color) (T : GenType) (pos : Position) : List Move :=
  if T ≠ .CAPTURES ∧ T ≠ .EVASIONS ∧ pos.canCastleC Us = true then
    generate_castling V (mkCastlingRight Us true) (T = .QUIET_CHECKS) pos.chess960 pos Us
      ++ generate_castling V (mkCastlingRight Us false) (T = .QUIET_CHECKS) pos.chess960 pos Us
  else []

/-- movegen.cpp:361-448 `generate_all<V, Us, Type>`; the Antichess
`can_capture()` early return (movegen.cpp:395-396) and the Losers
`can_capture_losers()` early return (movegen.cpp:429-431) cut the castling
block. -/
def generate_all (V : Variant) (Us : Color) (T : GenType) (pos : Position)
    (target : Bitboard) : List Move :=
  generate_pawn_moves V Us T pos target
    ++ generate_moves V .KNIGHT (T = .QUIET_CHECKS) pos Us target
    ++ generate_moves V .BISHOP (T = .QUIET_CHECKS) pos Us target
    ++ generate_moves V .ROOK (T = .QUIET_CHECKS) pos Us target
    ++ generate_moves V .QUEEN (T = .QUIET_CHECKS) pos Us target
    ++ dropList V Us T pos target
    ++ kingMovesList V Us T pos target
    ++ (if V = .ANTI ∧ pos.canCaptureAnti = true then []
        else if V = .LOSERS ∧ pos.canCaptureLosersF = true then []
        else castleList V Us T pos)

/-- movegen.cpp:462-523: `generate<Type>` for `CAPTURES`, `QUIETS` and
`NON_EVASIONS` — target derivation, variant overrides, dispatch. -/
def generateMain (T : GenType) (pos : Position) : List Move :=
  let us := pos.sideToMove
  let target : Bitboard :=
    if T = .CAPTURES then pos.piecesC us.opp
    else if T = .QUIETS then compl pos.pieces
    else if T = .NON_EVASIONS then compl (pos.piecesC us) else 0
  match pos.variant with
  | .ANTI =>
      let target := if pos.canCaptureAnti then target &&& pos.piecesC us.opp else target
      generate_all .ANTI us T pos target
  | .ATOMIC =>
      let target := if T = .CAPTURES then
          target &&& compl (pos.attacksFromF .KING (pos.kingSq us)) else target
      generate_all .ATOMIC us T pos target
  | .CRAZYHOUSE => generate_all .CRAZYHOUSE us T pos target
  | .HORDE => generate_all .HORDE us T pos target
  | .LOSERS =>
      let target := if pos.canCaptureLosersF then target &&& pos.piecesC us.opp else target
      generate_all .LOSERS us T pos target
  | .RACE => generate_all .RACE us T pos target
  | .RELAY => generate_all .RELAY us T pos target
  | .CHESS => generate_all .CHESS us T pos target

/-- movegen.cpp:549-564: the discovered-check pre-pass of
`generate<QUIET_CHECKS>`. -/
def quietCheckDcList (pos : Position) (us : Color) : List Move :=
  (bits pos.dcCandidates).flatMap (fun f =>
    let pt := pos.pieceOnF f
    if pt = .PAWN then []
    else
      let b := pos.attacksFromF pt f &&& compl pos.pieces
      let b := if pt = .KING then b &&& compl (pseudoAttacks .QUEEN (pos.kingSq us.opp)) else b
      (bits b).map (fun t => make_move f t))

/-- movegen.cpp:533-593 `generate<QUIET_CHECKS>`. -/
def generateQuietChecks (pos : Position) : List Move :=
  if pos.variant = .ANTI ∨ pos.variant = .RACE then []
  else
    let us := pos.sideToMove
    quietCheckDcList pos us ++ generate_all pos.variant us .QUIET_CHECKS pos (compl pos.pieces)

/-- movegen.cpp:619-634: the target of the Atomic blast sub-pass of
`generate<EVASIONS>`. -/
def atomicEvasionTarget (pos : Position) (us : Color) (ksq : Square) : Bitboard :=
  let kingAttacks := pos.attacksFromF .KING (pos.kingSq us.opp)
  let target := (bits pos.checkersBB).foldl
    (fun t s => t &&& (pos.attacksFromF .KING s ||| sqbb s)) (pos.piecesC us.opp)
  let target := target ||| kingAttacks
  target &&& pos.piecesC us.opp &&& compl (pos.attacksFromF .KING ksq)

/-- movegen.cpp:598-705 `generate<EVASIONS>`. -/
def generateEvasions (pos : Position) : List Move :=
  if pos.variant = .ANTI ∨ pos.variant = .RACE then []
  else
    let us := pos.sideToMove
    let ksq := pos.kingSq us
    let sliders := pos.checkersBB &&& compl (pos.piecesT2 .KNIGHT .PAWN)
    let kingAttacks := if pos.variant = .ATOMIC then pos.attacksFromF .KING (pos.kingSq us.opp)
      else 0
    let blast := if pos.variant = .ATOMIC then
        generate_all .ATOMIC us .CAPTURES pos (atomicEvasionTarget pos us ksq) else []
    let sliderAttacks := (bits sliders).foldl (fun a s => a ||| (line_bb s ksq ^^^ sqbb s)) 0
    let b := if pos.variant = .ATOMIC then
        pos.attacksFromF .KING ksq &&& compl pos.pieces &&&
          compl (sliderAttacks &&& compl kingAttacks)
      else pos.attacksFromF .KING ksq &&& compl (pos.piecesC us) &&& compl sliderAttacks
    let b := if pos.variant = .LOSERS ∧ pos.canCaptureLosersF = true then
        b &&& pos.piecesC us.opp else b
    let kingMoves := (bits b).map (fun t => make_move ksq t)
    if more_than_one pos.checkersBB then blast ++ kingMoves
    else
      let checksq := lsb pos.checkersBB
      let target := if pos.variant = .ATOMIC then between_bb checksq ksq
                    else between_bb checksq ksq ||| sqbb checksq
      let target := if pos.variant = .LOSERS ∧ pos.canCaptureLosersF = true then
          target &&& pos.piecesC us.opp else target
      blast ++ kingMoves ++ generate_all pos.variant us .EVASIONS pos target

/-- The compaction loop of `generate<LEGAL>` (movegen.cpp:725-737): a
rejected move is overwritten by the last generated move, which is then
itself examined before the cursor advances.  The loop shrinks the list at
every step, so running it with the list length as fuel is exact. -/
def compactGo (keep : Move → Bool) : Nat → List Move → List Move
  | _, [] => []
  | 0, _ :: _ => []
  | fuel + 1, m :: rest =>
    if keep m then m :: compactGo keep fuel rest
    else
      match rest.getLast? with
      | none => []
      | some lastm => compactGo keep fuel (lastm :: rest.dropLast)

/-- See `compactGo`. -/
def compact (keep : Move → Bool) (l : List Move) : List Move := compactGo keep l.length l

/-- The keep/reject predicate of the `generate<LEGAL>` filter
(movegen.cpp:725-737). -/
def legalKeep (pos : Position) (validate : Bool) (ksq : Square) (m : Move) : Bool :=
  if (validate = true ∨ m.fromSq = ksq ∨ m.mtype = .ENPASSANT)
      ∧ ¬ (pos.variant = .CRAZYHOUSE ∧ m.mtype = .DROP)
      ∧ ¬ (pos.legalM m = true) then false
  else if pos.variant = .ATOMIC ∧ pos.captureM m = true ∧ ¬ (pos.legalM m = true) then false
  else true

/-- movegen.cpp:710-740 `generate<LEGAL>`. -/
def generateLegal (pos : Position) : List Move :=
  if pos.variantEnd then []
  else
    let us := pos.sideToMove
    let pinned := pos.pinnedBB us
    let validate : Bool := decide (pinned ≠ 0) || decide (pos.variant = .RACE)
    let ksq := pos.kingSq us
    let base := if pos.checkersBB ≠ 0 then generateEvasions pos else generateMain .NON_EVASIONS pos
    compact (legalKeep pos validate ksq) base

/-- The `generate<T>` entry-point family (movegen.cpp:462, 534, 599, 711). -/
def generate (T : GenType) (pos : Position) : List Move :=
  match T with
  | .CAPTURES => generateMain .CAPTURES pos
  | .QUIETS => generateMain .QUIETS pos
  | .NON_EVASIONS => generateMain .NON_EVASIONS pos
  | .QUIET_CHECKS => generateQuietChecks pos
  | .EVASIONS => generateEvasions pos
  | .LEGAL => generateLegal pos

end Movegen

namespace Movegen

/-! ## Concrete positions.  The witnesses and counterexamples below use
fully concrete `Position` records whose query fields are computed from a
board description with the standard chess meaning of the Position
contract (spec §3): real attack sets, real checkers, real slider
blockers.  These computations model `position.cpp`, which is not among
the sources. -/

/-- `pieces(c)` of a board description. -/
def boardByColor (board : List (Square × Color × PieceType)) (c : Color) : Bitboard :=
  board.foldl (fun a e => if e.2.1 = c then a ||| sqbb e.1 else a) 0

/-- `pieces(pt)` of a board description. -/
def boardByType (board : List (Square × Color × PieceType)) (pt : PieceType) : Bitboard :=
  board.foldl (fun a e => if e.2.2 = pt then a ||| sqbb e.1 else a) 0

/-- Modelled from the spec: `attackers_to(s, occupied)` — all pieces of
both colors attacking `s` under the given occupancy. -/
def attackersToGen (byColor : Color → Bitboard) (byType : PieceType → Bitboard)
    (s : Square) (occ : Bitboard) : Bitboard :=
  (pawnAttacksBB .BLACK s &&& byColor .WHITE &&& byType .PAWN)
    ||| (pawnAttacksBB .WHITE s &&& byColor .BLACK &&& byType .PAWN)
    ||| (knightAttacksBB s &&& byType .KNIGHT)
    ||| (kingAttacksBB s &&& byType .KING)
    ||| (rookAttacksBB s occ &&& (byType .ROOK ||| byType .QUEEN))
    ||| (bishopAttacksBB s occ &&& (byType .BISHOP ||| byType .QUEEN))

/-- Modelled from the spec: the slider blockers behind `check_blockers`:
pieces of color `c` that are the single occupied square between the king
of `kingColor` and an enemy slider aimed at it. -/
def checkBlockersGen (byColor : Color → Bitboard) (byType : PieceType → Bitboard)
    (c kingColor : Color) : Bitboard :=
  let ksq := (bits (byColor kingColor &&& byType .KING)).headD SQ_NONE
  if 64 ≤ ksq then 0
  else
    let occ := byColor .WHITE ||| byColor .BLACK
    let snipers := ((rookAttacksBB ksq 0 &&& (byType .ROOK ||| byType .QUEEN))
        ||| (bishopAttacksBB ksq 0 &&& (byType .BISHOP ||| byType .QUEEN)))
      &&& byColor kingColor.opp
    (bits snipers).foldl
      (fun acc sn =>
        let btw := between_bb ksq sn &&& occ
        if btw ≠ 0 ∧ ¬ more_than_one btw then acc ||| (btw &&& byColor c) else acc)
      0

/-- The castling path used by `castling_impeded` in standard chess. -/
def castlePathStd (cr : CastlingRight) : Bitboard :=
  match cr with
  | .WHITE_OO => sqbb 5 ||| sqbb 6
  | .WHITE_OOO => sqbb 1 ||| sqbb 2 ||| sqbb 3
  | .BLACK_OO => sqbb 61 ||| sqbb 62
  | .BLACK_OOO => sqbb 57 ||| sqbb 58 ||| sqbb 59

/-- The standard rook squares for each castling right. -/
def rookSqStd (cr : CastlingRight) : Square :=
  match cr with
  | .WHITE_OO => 7
  | .WHITE_OOO => 0
  | .BLACK_OO => 63
  | .BLACK_OOO => 56

/-- Piece type on a square of a board description (`PAWN` off-board). -/
def pieceAtD (board : List (Square × Color × PieceType)) (s : Square) : PieceType :=
  match board.find? (fun e => e.1 = s) with
  | some e => e.2.2
  | none => .PAWN

/-- Modelled from the spec: the board after a move of the side `stm`
(spec §3 move kinds; used only to realize `legal(m)` on concrete
positions). -/
def applyMoveBoard (stm : Color) (board : List (Square × Color × PieceType))
    (m : Move) : List (Square × Color × PieceType) :=
  match m.mtype with
  | .DROP => (m.toSq, stm, m.dropPt) :: board
  | .CASTLING =>
      let kingSide := m.fromSq < m.toSq
      let kto := relative_square stm (if kingSide then SQ_G1 else SQ_C1)
      let rto := relative_square stm (if kingSide then 5 else 3)
      (kto, stm, .KING) :: (rto, stm, .ROOK) ::
        board.filter (fun e => e.1 ≠ m.fromSq ∧ e.1 ≠ m.toSq)
  | .ENPASSANT =>
      let capsq := if stm = .WHITE then m.toSq - 8 else m.toSq + 8
      (m.toSq, stm, .PAWN) ::
        board.filter (fun e => e.1 ≠ m.fromSq ∧ e.1 ≠ capsq ∧ e.1 ≠ m.toSq)
  | .PROMOTION =>
      (m.toSq, stm, m.promo) :: board.filter (fun e => e.1 ≠ m.fromSq ∧ e.1 ≠ m.toSq)
  | .NORMAL =>
      (m.toSq, stm, pieceAtD board m.fromSq) ::
        board.filter (fun e => e.1 ≠ m.fromSq ∧ e.1 ≠ m.toSq)

/-- Modelled from the spec (glossary): `legal(m)` = the move leaves the
mover's own king unattacked. -/
def legalStd (stm : Color) (board : List (Square × Color × PieceType)) (m : Move) : Bool :=
  let b2 := applyMoveBoard stm board m
  let byColor := boardByColor b2
  let byType := boardByType b2
  let k := (bits (byColor stm &&& byType .KING)).headD SQ_NONE
  if k < 64 then
    decide (attackersToGen byColor byType k (byColor .WHITE ||| byColor .BLACK) &&&
      byColor stm.opp = 0)
  else true

/-- Build a fully concrete `Position` from a board description, with every
contract query computed with its standard meaning.  `legal(m)` is
realized by `legalStd`. -/
def mkPos (V : Variant) (stm : Color) (board : List (Square × Color × PieceType))
    (ep : Square) (rights : CastlingRight → Bool) (ccAnti ccLosers : Bool)
    (hand : Color → PieceType → Nat) : Position :=
  let byColor := fun c => boardByColor board c
  let byType := fun pt => boardByType board pt
  let occ := byColor .WHITE ||| byColor .BLACK
  let kingSqF := fun c => (bits (byColor c &&& byType .KING)).headD SQ_NONE
  let attF : PieceType → Square → Bitboard := fun pt s =>
    match pt with
    | .PAWN => 0
    | .KNIGHT => knightAttacksBB s
    | .BISHOP => bishopAttacksBB s occ
    | .ROOK => rookAttacksBB s occ
    | .QUEEN => bishopAttacksBB s occ ||| rookAttacksBB s occ
    | .KING => kingAttacksBB s
  { variant := V
    sideToMove := stm
    byColor := byColor
    byType := byType
    epSq := ep
    castleRight := rights
    castlingImpeded := fun cr => decide (castlePathStd cr &&& occ ≠ 0)
    castlingRookSq := rookSqStd
    castlingKingSq := fun _ => kingSqF stm
    chess960 := false
    variantEnd := false
    canCaptureAnti := ccAnti
    canCaptureLosersF := ccLosers
    handCount := hand
    handAll := fun c =>
      hand c .PAWN + hand c .KNIGHT + hand c .BISHOP + hand c .ROOK + hand c .QUEEN + hand c .KING
    givesCheck := fun _ => false
    legalM := legalStd stm board
    captureM := fun m =>
      decide ((occ.testBit m.toSq ∧ m.mtype ≠ .CASTLING) ∨ m.mtype = .ENPASSANT)
    checkersBB := if kingSqF stm < 64 then attackersToGen byColor byType (kingSqF stm) occ &&& byColor stm.opp else 0
    checkSquares := fun pt =>
      let k := kingSqF stm.opp
      if k < 64 then
        match pt with
        | .PAWN => pawnAttacksBB stm.opp k
        | .KING => 0
        | _ => attF pt k
      else 0
    dcCandidates := checkBlockersGen byColor byType stm stm.opp
    pinnedBB := fun c => checkBlockersGen byColor byType c c
    attackersTo := fun s => attackersToGen byColor byType s occ
    attackersToOcc := fun s o => attackersToGen byColor byType s o
    attacksFromF := attF
    pawnAttacksFrom := fun s c => pawnAttacksBB c s
    pieceOnF := fun s =>
      match board.find? (fun e => e.1 = s) with
      | some e => e.2.2
      | none => .PAWN
    kingSq := kingSqF }

/-- No castling rights. -/
def noRights : CastlingRight → Bool := fun _ => false

/-- All castling rights. -/
def allRights : CastlingRight → Bool := fun _ => true

/-- Empty Crazyhouse hand. -/
def noHand : Color → PieceType → Nat := fun _ _ => 0

/-- The standard chess starting board. -/
def startBoard : List (Square × Color × PieceType) :=
  [(0, .WHITE, .ROOK), (1, .WHITE, .KNIGHT), (2, .WHITE, .BISHOP), (3, .WHITE, .QUEEN),
   (4, .WHITE, .KING), (5, .WHITE, .BISHOP), (6, .WHITE, .KNIGHT), (7, .WHITE, .ROOK),
   (8, .WHITE, .PAWN), (9, .WHITE, .PAWN), (10, .WHITE, .PAWN), (11, .WHITE, .PAWN),
   (12, .WHITE, .PAWN), (13, .WHITE, .PAWN), (14, .WHITE, .PAWN), (15, .WHITE, .PAWN),
   (48, .BLACK, .PAWN), (49, .BLACK, .PAWN), (50, .BLACK, .PAWN), (51, .BLACK, .PAWN),
   (52, .BLACK, .PAWN), (53, .BLACK, .PAWN), (54, .BLACK, .PAWN), (55, .BLACK, .PAWN),
   (56, .BLACK, .ROOK), (57, .BLACK, .KNIGHT), (58, .BLACK, .BISHOP), (59, .BLACK, .QUEEN),
   (60, .BLACK, .KING), (61, .BLACK, .BISHOP), (62, .BLACK, .KNIGHT), (63, .BLACK, .ROOK)]

/-- The standard starting position (spec §8 scenario 1). -/
def startPos : Position := mkPos .CHESS .WHITE startBoard SQ_NONE allRights false false noHand

end Movegen

namespace Movegen

/-! ## Basic bitboard lemmas -/

theorem mem_bits {b : Bitboard} {s : Square} : s ∈ bits b ↔ s < 64 ∧ b.testBit s := by
  simp [bits, List.mem_filter, List.mem_range]

theorem bits_nodup (b : Bitboard) : (bits b).Nodup :=
  (List.nodup_range 64).filter _

theorem bits_zero : bits 0 = [] := by
  simp [bits]

theorem testBit_FULLBB {i : Nat} : FULLBB.testBit i = decide (i < 64) := by
  have : FULLBB = 2 ^ 64 - 1 := rfl
  rw [this, Nat.testBit_two_pow_sub_one]

theorem testBit_compl {b : Bitboard} {i : Nat} :
    (compl b).testBit i = (decide (i < 64)).xor (b.testBit i) := by
  simp [compl, Nat.testBit_xor, testBit_FULLBB]

theorem testBit_sqbb {s : Square} {i : Nat} : (sqbb s).testBit i ↔ s < 64 ∧ i = s := by
  unfold sqbb
  by_cases h : s < 64
  · simp [h, Nat.testBit_shiftLeft, Nat.testBit_one_eq_true_iff_self_eq_zero]
    omega
  · simp [h]

theorem land_eq_zero_iff {a b : Nat} : a &&& b = 0 ↔ ∀ i, ¬ (a.testBit i ∧ b.testBit i) := by
  constructor
  · intro h i hi
    have := congrArg (fun x => x.testBit i) h
    simp [Nat.testBit_land, hi.1, hi.2] at this
  · intro h
    apply Nat.eq_of_testBit_eq
    intro i
    simp only [Nat.testBit_land, Nat.zero_testBit]
    rcases Decidable.em (a.testBit i) with ha | ha
    · have := h i
      simp [ha] at this
      simp [this]
    · simp [ha]

theorem testBit_of_land_eq_zero {a b : Nat} (h : a &&& b = 0) {i : Nat}
    (ha : a.testBit i) : ¬ b.testBit i := fun hb => land_eq_zero_iff.mp h i ⟨ha, hb⟩

/-- Disjoint filters of one list concatenate to the filter of the
disjunction, up to permutation. -/
theorem filter_or_perm {α : Type} (p q : α → Bool) (l : List α)
    (h : ∀ a, ¬ (p a = true ∧ q a = true)) :
    (l.filter fun a => p a || q a).Perm (l.filter p ++ l.filter q) := by
  induction l with
  | nil => simp
  | cons x xs ih =>
    by_cases hp : p x = true
    · have hq : ¬ q x = true := fun hq => h x ⟨hp, hq⟩
      simpa [hp, hq] using ih.cons x
    · by_cases hq : q x = true
      · have : (xs.filter fun a => p a || q a).Perm (xs.filter p ++ xs.filter q) := ih
        simp only [List.filter_cons, hp, hq]
        simpa using (this.cons x).trans (List.perm_middle.symm)
      · simpa [hp, hq] using ih

theorem bits_lor_perm {b1 b2 : Bitboard} (h : b1 &&& b2 = 0) :
    (bits (b1 ||| b2)).Perm (bits b1 ++ bits b2) := by
  have := filter_or_perm (fun i => b1.testBit i) (fun i => b2.testBit i) (List.range 64)
    (fun a => fun hc => land_eq_zero_iff.mp h a hc)
  simpa [bits, Nat.testBit_or] using this

theorem bits_lor_sum {b1 b2 : Bitboard} (h : b1 &&& b2 = 0) :
    (↑(bits (b1 ||| b2)) : Multiset Square) = ↑(bits b1) + ↑(bits b2) := by
  have := bits_lor_perm h
  exact Multiset.coe_eq_coe.mpr this |>.trans (Multiset.coe_add _ _).symm |>.symm
    |>.symm.trans rfl

end Movegen

namespace Movegen

/-! ## Shape lemmas for the emitted chunks -/

theorem testBit_land_iff {a b : Nat} {i : Nat} :
    (a &&& b).testBit i ↔ a.testBit i ∧ b.testBit i := by
  simp [Nat.testBit_and]

theorem testBit_lor_iff {a b : Nat} {i : Nat} :
    (a ||| b).testBit i ↔ a.testBit i ∨ b.testBit i := by
  simp [Nat.testBit_or]

/-- Adding a target-bounded union step keeps destinations inside target. -/
theorem union_step_sub {target b x : Nat} (hb : ∀ i, b.testBit i → target.testBit i) :
    ∀ i, (b ||| (x &&& target)).testBit i → target.testBit i := by
  intro i h
  rcases testBit_lor_iff.mp h with h | h
  · exact hb i h
  · exact (testBit_land_iff.mp h).2

theorem unionIf_sub {target b x : Nat} {c : Prop} [Decidable c]
    (hb : ∀ i, b.testBit i → target.testBit i)
    (hx : ∀ i, x.testBit i → target.testBit i) :
    ∀ i, (unionIf c b x).testBit i → target.testBit i := by
  unfold unionIf
  split
  · intro i h
    rcases testBit_lor_iff.mp h with h | h
    · exact hb i h
    · exact hx i h
  · exact hb

theorem land_sub_right {x target : Nat} : ∀ i, (x &&& target).testBit i → target.testBit i :=
  fun _ h => (testBit_land_iff.mp h).2

theorem relayExpand_sub {pos : Position} {us : Color} {target b : Bitboard} {f : Square}
    (hb : ∀ i, b.testBit i → target.testBit i) :
    ∀ i, (relayExpand pos us target f b).testBit i → target.testBit i := by
  unfold relayExpand
  exact unionIf_sub (unionIf_sub (unionIf_sub (unionIf_sub hb land_sub_right)
    land_sub_right) land_sub_right) land_sub_right

theorem pieceDestBB_sub_target {V Pt Checks pos us target f} :
    ∀ i, (pieceDestBB V Pt Checks pos us target f).testBit i → target.testBit i := by
  unfold pieceDestBB
  dsimp only
  have hbase : ∀ i, (pos.attacksFromF Pt f &&& target).testBit i → target.testBit i :=
    land_sub_right
  split
  · split
    · intro i h
      exact relayExpand_sub hbase i (testBit_land_iff.mp h).1
    · intro i h
      exact hbase i (testBit_land_iff.mp h).1
  · split
    · exact relayExpand_sub hbase
    · exact hbase

theorem mem_generate_moves {V Pt Checks pos us target m}
    (h : m ∈ generate_moves V Pt Checks pos us target) :
    m.mtype = .NORMAL ∧ (pos.piecesCT us Pt).testBit m.fromSq ∧ m.fromSq < 64 ∧
      m.toSq < 64 ∧ target.testBit m.toSq ∧ m = make_move m.fromSq m.toSq := by
  unfold generate_moves at h
  simp only [List.mem_flatMap] at h
  obtain ⟨f, hf, hm⟩ := h
  rw [mem_bits] at hf
  split at hm
  · simp at hm
  · simp only [List.mem_map] at hm
    obtain ⟨t, ht, rfl⟩ := hm
    rw [mem_bits] at ht
    exact ⟨rfl, hf.2, hf.1, ht.1, pieceDestBB_sub_target t ht.2, rfl⟩

theorem mem_pawnPushList {V Us T pos target m} (h : m ∈ pawnPushList V Us T pos target) :
    m.mtype = .NORMAL := by
  unfold pawnPushList at h
  split at h
  · simp only [List.mem_append, List.mem_map] at h
    rcases h with ⟨t, _, rfl⟩ | ⟨t, _, rfl⟩ <;> rfl
  · simp at h

theorem mem_make_promotions {V T D t ksq m} (h : m ∈ make_promotions V T D t ksq) :
    m.mtype = .PROMOTION ∧ m.toSq = t ∧ m.fromSq = sqSub t D := by
  unfold make_promotions at h
  split at h
  · split at h
    · simp only [List.mem_cons, List.not_mem_nil, or_false] at h
      rcases h with rfl | rfl | rfl | rfl | rfl <;> exact ⟨rfl, rfl, rfl⟩
    · simp at h
  · simp only [List.mem_append] at h
    rcases h with (h | h) | h <;> split at h <;>
      simp only [List.mem_cons, List.not_mem_nil, or_false] at h <;>
      first
        | (rcases h with rfl | rfl | rfl <;> exact ⟨rfl, rfl, rfl⟩)
        | (rcases h with rfl <;> exact ⟨rfl, rfl, rfl⟩)
        | exact absurd h (by simp)

theorem mem_pawnPromoList {V Us T pos target m} (h : m ∈ pawnPromoList V Us T pos target) :
    ∃ D t, m ∈ make_promotions V T D t (pos.kingSq Us.opp) ∧ t < 64 := by
  unfold pawnPromoList at h
  split at h
  · simp only [List.mem_append, List.mem_flatMap] at h
    rcases h with (⟨t, ht, hm⟩ | ⟨t, ht, hm⟩) | ⟨t, ht, hm⟩ <;>
      exact ⟨_, t, hm, (mem_bits.mp ht).1⟩
  · simp at h

theorem mem_pawnCapList {Us T pos target m} (h : m ∈ pawnCapList Us T pos target) :
    m.mtype = .NORMAL ∨ m.mtype = .ENPASSANT := by
  unfold pawnCapList at h
  split at h
  · simp only [List.mem_append, List.mem_map] at h
    rcases h with (⟨t, _, rfl⟩ | ⟨t, _, rfl⟩) | h
    · left; rfl
    · left; rfl
    · split at h
      · split at h
        · simp at h
        · simp only [List.mem_map] at h
          obtain ⟨f, _, rfl⟩ := h
          right; rfl
      · simp at h
  · simp at h

theorem pawnCapList_quiet (Us : Color) (pos : Position) (target : Bitboard) :
    pawnCapList Us .QUIETS pos target = [] ∧ pawnCapList Us .QUIET_CHECKS pos target = [] := by
  constructor <;> simp [pawnCapList]

theorem mem_generate_drops {Us Pt Checks pos b m} (h : m ∈ generate_drops Us Pt Checks pos b) :
    m.mtype = .DROP ∧ m.dropPt = Pt ∧ m.toSq < 64 ∧ b.testBit m.toSq := by
  unfold generate_drops at h
  split at h
  · split at h
    · simp only [List.mem_map] at h
      obtain ⟨t, ht, rfl⟩ := h
      rw [mem_bits] at ht
      exact ⟨rfl, rfl, ht.1, (testBit_land_iff.mp ht.2).1⟩
    · simp only [List.mem_map] at h
      obtain ⟨t, ht, rfl⟩ := h
      rw [mem_bits] at ht
      exact ⟨rfl, rfl, ht.1, ht.2⟩
  · simp at h

theorem mem_dropList {V Us T pos target m} (h : m ∈ dropList V Us T pos target) :
    m.mtype = .DROP := by
  unfold dropList at h
  split at h
  · simp only [List.mem_append] at h
    rcases h with ((((h | h) | h) | h) | h) <;> exact (mem_generate_drops h).1
  · simp at h

theorem mem_kingMovesList {V Us T pos target m} (h : m ∈ kingMovesList V Us T pos target) :
    m.mtype = .NORMAL := by
  unfold kingMovesList at h
  split at h
  · simp only [List.mem_flatMap, List.mem_map] at h
    obtain ⟨k, _, t, _, rfl⟩ := h
    rfl
  · split at h
    · simp only [List.mem_map] at h
      obtain ⟨t, _, rfl⟩ := h
      rfl
    · simp at h

theorem mem_generate_castling {V Cr Checks C960 pos us m}
    (h : m ∈ generate_castling V Cr Checks C960 pos us) : m.mtype = .CASTLING := by
  unfold generate_castling at h
  dsimp only at h
  split_ifs at h
  all_goals
    first
      | exact absurd h (List.not_mem_nil m)
      | (rw [List.mem_singleton] at h; subst h; rfl)

theorem mem_castleList {V Us T pos m} (h : m ∈ castleList V Us T pos) :
    m.mtype = .CASTLING := by
  unfold castleList at h
  split at h
  · simp only [List.mem_append] at h
    rcases h with h | h <;> exact mem_generate_castling h
  · simp at h

theorem mem_quietCheckDcList {pos us m} (h : m ∈ quietCheckDcList pos us) :
    m.mtype = .NORMAL ∧ pos.dcCandidates.testBit m.fromSq ∧ ¬ pos.pieceOnF m.fromSq = .PAWN := by
  unfold quietCheckDcList at h
  simp only [List.mem_flatMap] at h
  obtain ⟨f, hf, hm⟩ := h
  rw [mem_bits] at hf
  split at hm
  · simp at hm
  · simp only [List.mem_map] at hm
    obtain ⟨t, _, rfl⟩ := hm
    exact ⟨rfl, hf.2, by assumption⟩

end Movegen

namespace Movegen

theorem mem_generate_all {V Us T pos target m} (h : m ∈ generate_all V Us T pos target) :
    m ∈ generate_pawn_moves V Us T pos target ∨
      (∃ Pt, (Pt = PieceType.KNIGHT ∨ Pt = .BISHOP ∨ Pt = .ROOK ∨ Pt = .QUEEN) ∧
        m ∈ generate_moves V Pt (T = .QUIET_CHECKS) pos Us target) ∨
      m ∈ dropList V Us T pos target ∨ m ∈ kingMovesList V Us T pos target ∨
      m ∈ castleList V Us T pos := by
  unfold generate_all at h
  simp only [List.mem_append] at h
  rcases h with ((((((h | h) | h) | h) | h) | h) | h) | h
  · exact Or.inl h
  · exact Or.inr (Or.inl ⟨_, Or.inl rfl, h⟩)
  · exact Or.inr (Or.inl ⟨_, Or.inr (Or.inl rfl), h⟩)
  · exact Or.inr (Or.inl ⟨_, Or.inr (Or.inr (Or.inl rfl)), h⟩)
  · exact Or.inr (Or.inl ⟨_, Or.inr (Or.inr (Or.inr rfl)), h⟩)
  · exact Or.inr (Or.inr (Or.inl h))
  · exact Or.inr (Or.inr (Or.inr (Or.inl h)))
  · split at h
    · simp at h
    · split at h
      · simp at h
      · exact Or.inr (Or.inr (Or.inr (Or.inr h)))

theorem mem_generate_pawn_moves {V Us T pos target m}
    (h : m ∈ generate_pawn_moves V Us T pos target) :
    m ∈ pawnPushList V Us T pos target ∨ m ∈ pawnPromoList V Us T pos target ∨
      m ∈ pawnCapList Us T pos target := by
  unfold generate_pawn_moves at h
  simp only [List.mem_append] at h
  tauto

/-! ## Claim theorems -/

/-- C9: in the Antichess variant, castling generation performs no
attacked-square safety scan and no Chess960 hidden-checker check — the
result of `generate_castling` is fully determined by the right being held
and unimpeded and, when checks are requested, by `gives_check`; none of
the position's attack queries occur in it, so the castling move is emitted
even if squares on the king's path are attacked by enemy pieces. -/
theorem C9_anti_castling_no_safety_scan (pos : Position) (Cr : CastlingRight)
    (Checks Chess960 : Bool) (us : Color) :
    generate_castling .ANTI Cr Checks Chess960 pos us =
      if pos.castlingImpeded Cr = true ∨ ¬ pos.castleRight Cr = true then []
      else if Checks = true ∧ ¬ (pos.givesCheck
          (makeCastlingMove (pos.castlingKingSq Cr) (pos.castlingRookSq Cr)) = true) then []
      else [makeCastlingMove (pos.castlingKingSq Cr) (pos.castlingRookSq Cr)] := by
  unfold generate_castling
  simp

/-- C8: in QUIET_CHECKS generation, for each promotion landing square the
only promotion that can be emitted is a KNIGHT promotion, emitted
precisely when a knight on the landing square would attack the enemy king
(`PseudoAttacks[KNIGHT][to]` meets the enemy king square); and in the full
`generate<QUIET_CHECKS>` output every promotion move is such a knight
promotion — no queen, rook or bishop promotion ever appears. -/
theorem C8_quiet_check_promotions :
    (∀ (V : Variant) (D : Direction) (t ksq : Square),
      make_promotions V .QUIET_CHECKS D t ksq =
        if V ≠ .ANTI ∧ pseudoAttacks .KNIGHT t &&& sqbb ksq ≠ 0 then
          [makePromotion (sqSub t D) t .KNIGHT]
        else []) ∧
    (∀ (pos : Position) (m : Move), m ∈ generateQuietChecks pos → m.mtype = .PROMOTION →
      m.promo = .KNIGHT ∧
        pseudoAttacks .KNIGHT m.toSq &&& sqbb (pos.kingSq pos.sideToMove.opp) ≠ 0) := by
  have hmp : ∀ (V : Variant) (D : Direction) (t ksq : Square),
      make_promotions V .QUIET_CHECKS D t ksq =
        if V ≠ .ANTI ∧ pseudoAttacks .KNIGHT t &&& sqbb ksq ≠ 0 then
          [makePromotion (sqSub t D) t .KNIGHT]
        else [] := by
    intro V D t ksq
    cases V <;> simp [make_promotions]
  refine ⟨hmp, ?_⟩
  intro pos m hm hp
  unfold generateQuietChecks at hm
  split at hm
  · simp at hm
  · simp only [List.mem_append] at hm
    rcases hm with hm | hm
    · exact absurd (mem_quietCheckDcList hm).1 (by rw [hp]; simp)
    · rcases mem_generate_all hm with h | ⟨Pt, _, h⟩ | h | h | h
      · rcases mem_generate_pawn_moves h with h | h | h
        · exact absurd (mem_pawnPushList h) (by rw [hp]; simp)
        · obtain ⟨D, t, hmem, _⟩ := mem_pawnPromoList h
          rw [hmp] at hmem
          by_cases hcond : pos.variant ≠ .ANTI ∧
              pseudoAttacks .KNIGHT t &&& sqbb (pos.kingSq pos.sideToMove.opp) ≠ 0
          · rw [if_pos hcond, List.mem_singleton] at hmem
            subst hmem
            exact ⟨rfl, hcond.2⟩
          · rw [if_neg hcond] at hmem
            simp at hmem
        · rw [(pawnCapList_quiet _ _ _).2] at h
          simp at h
      · exact absurd (mem_generate_moves h).1 (by rw [hp]; simp)
      · exact absurd (mem_dropList h) (by rw [hp]; simp)
      · exact absurd (mem_kingMovesList h) (by rw [hp]; simp)
      · exact absurd (mem_castleList h) (by rw [hp]; simp)

end Movegen

namespace Movegen

/-! ## The castling safety scan (C4) -/

theorem castleScanAux_east : ∀ (fuel d s : Nat), d ≤ fuel →
    castleScanSquares fuel s (s + d) EAST = List.range' s d := by
  intro fuel
  induction fuel with
  | zero =>
    intro d s hd
    interval_cases d
    rfl
  | succ f ih =>
    intro d s hd
    cases d with
    | zero => simp [castleScanSquares]
    | succ d =>
      have hne : s ≠ s + (d + 1) := by omega
      have hstep : sqAdd s EAST = s + 1 := by
        show (((s : Nat) : Int) + (1 : Int)).toNat = s + 1
        omega
      rw [castleScanSquares, if_neg hne, hstep]
      have hs : s + (d + 1) = (s + 1) + d := by omega
      have hih := ih d (s + 1) (by omega)
      rw [hs, hih, List.range'_succ]

theorem castleScanAux_west : ∀ (fuel d s : Nat), d ≤ fuel →
    castleScanSquares fuel (s + d) s WEST = (List.range' (s + 1) d).reverse := by
  intro fuel
  induction fuel with
  | zero =>
    intro d s hd
    interval_cases d
    rfl
  | succ f ih =>
    intro d s hd
    cases d with
    | zero => simp [castleScanSquares]
    | succ d =>
      have hne : s + (d + 1) ≠ s := by omega
      have hstep : sqAdd (s + (d + 1)) WEST = s + d := by
        show (((s + (d + 1) : Nat) : Int) + (-1 : Int)).toNat = s + d
        omega
      have hih := ih d s (by omega)
      rw [castleScanSquares, if_neg hne, hstep, hih, List.range'_1_concat]
      simp
      show (s + (d + 1) : Nat) = s + 1 + d
      omega

end Movegen

namespace Movegen

/-- C4 counterexample: the claim says the Chess960 safety scan steps EAST
when `kto > kfrom`, but with `kfrom = 4` (E1) and `kto = 6` (G1) the step
direction `generate_castling` uses is WEST, and the WEST scan — not an
EAST scan — visits the squares from `kto` back toward `kfrom`. -/
theorem C4_counterexample :
    (6 : Square) > 4 ∧ castleStepDir true True 6 4 = WEST ∧ WEST ≠ EAST ∧
      castleScanSquares 64 6 4 WEST = [6, 5] ∧ castleScanSquares 64 6 4 EAST ≠ [6, 5] := by
  refine ⟨by decide, by decide, by decide, by decide, by decide⟩

/-- C4 (amended): in a Chess960 castling generation the safety scan visits
exactly the squares from `kto` back toward `kfrom` (exclusive of `kfrom`),
using step direction WEST when `kto > kfrom` and EAST otherwise; the right
is abandoned when any visited square is attacked by an enemy. -/
theorem C4_chess960_scan_amended (kfrom kto : Nat) (h1 : kfrom < 64) (h2 : kto < 64) :
    (kto > kfrom →
      castleStepDir true True kto kfrom = WEST ∧
      castleScanSquares 64 kto kfrom (castleStepDir true True kto kfrom) =
        (List.range' (kfrom + 1) (kto - kfrom)).reverse) ∧
    (¬ kto > kfrom →
      castleStepDir true True kto kfrom = EAST ∧
      castleScanSquares 64 kto kfrom (castleStepDir true True kto kfrom) =
        List.range' kto (kfrom - kto)) ∧
    (∀ (pos : Position) (Cr : CastlingRight) (Checks : Bool) (us : Color),
      (∃ s ∈ castleScanSquares 64
          (relative_square us (if Cr = CastlingRight.WHITE_OO ∨ Cr = .BLACK_OO then SQ_G1 else SQ_C1))
          (pos.kingSq us)
          (castleStepDir true (Cr = CastlingRight.WHITE_OO ∨ Cr = .BLACK_OO)
            (relative_square us (if Cr = CastlingRight.WHITE_OO ∨ Cr = .BLACK_OO then SQ_G1 else SQ_C1))
            (pos.kingSq us)),
        pos.attackersTo s &&& pos.piecesC us.opp ≠ 0) →
      generate_castling .CHESS Cr Checks true pos us = []) := by
  refine ⟨?_, ?_, ?_⟩
  · intro h
    have hdir : castleStepDir true True kto kfrom = WEST := by
      simp [castleStepDir, h]
    refine ⟨hdir, ?_⟩
    rw [hdir]
    have hk : kfrom + (kto - kfrom) = kto := by omega
    have := castleScanAux_west 64 (kto - kfrom) kfrom (by omega)
    rw [hk] at this
    exact this
  · intro h
    have hdir : castleStepDir true True kto kfrom = EAST := by
      simp [castleStepDir, h]
    refine ⟨hdir, ?_⟩
    rw [hdir]
    have hk : kto + (kfrom - kto) = kfrom := by omega
    have := castleScanAux_east 64 (kfrom - kto) kto (by omega)
    rw [hk] at this
    exact this
  · intro pos Cr Checks us hex
    obtain ⟨s, hs, hatt⟩ := hex
    unfold generate_castling
    dsimp only
    split
    · rfl
    · rw [if_pos]
      refine ⟨by decide, Or.inl ?_⟩
      rw [List.any_eq_true]
      refine ⟨s, ?_, ?_⟩
      · simpa using hs
      · simpa using hatt

/-- White: Ke1, Rh1 (kingside right held); Black: Ke8, Rf8 attacking f1. -/
def c4Pos : Position :=
  mkPos .CHESS .WHITE [(4, .WHITE, .KING), (7, .WHITE, .ROOK), (60, .BLACK, .KING),
    (61, .BLACK, .ROOK)] SQ_NONE (fun cr => cr = .WHITE_OO) false false noHand

theorem C4_chess960_scan_amended_witness :
    (6 : Square) > 4 ∧ castleStepDir true True 6 4 = WEST ∧
      castleScanSquares 64 6 4 (castleStepDir true True 6 4) = (List.range' 5 2).reverse ∧
      generate_castling .CHESS .WHITE_OO false true c4Pos .WHITE = [] := by
  have h := C4_chess960_scan_amended 4 6 (by decide) (by decide)
  refine ⟨by decide, (h.1 (by decide)).1, (h.1 (by decide)).2, ?_⟩
  exact h.2.2 c4Pos .WHITE_OO false .WHITE ⟨5, by decide, by decide⟩

end Movegen

namespace Movegen

/-! ## Single-bit bitboards and `more_than_one` -/

theorem testBit_high_false {b : Nat} (hb : b < 2 ^ 64) {i : Nat} (h : 64 ≤ i) :
    b.testBit i = false :=
  Nat.testBit_lt_two_pow (lt_of_lt_of_le hb (Nat.pow_le_pow_right (by omega) h))

theorem pow2_of_land_pred : ∀ b : Nat, b ≠ 0 → b &&& (b - 1) = 0 → ∃ i, b = 2 ^ i := by
  intro b
  induction b using Nat.strong_induction_on with
  | _ b ih =>
    intro hne h
    rcases Nat.even_or_odd b with ⟨k, hk⟩ | ⟨k, hk⟩
    · have hb : b = 2 * k := by omega
      have hk0 : k ≠ 0 := by omega
      have hland : k &&& (k - 1) = 0 := by
        rw [land_eq_zero_iff]
        intro j hj
        refine land_eq_zero_iff.mp h (j + 1) ⟨?_, ?_⟩
        · rw [Nat.testBit_succ]
          have : b / 2 = k := by omega
          rw [this]
          exact hj.1
        · rw [Nat.testBit_succ]
          have : (b - 1) / 2 = k - 1 := by omega
          rw [this]
          exact hj.2
      obtain ⟨i, hi⟩ := ih k (by omega) hk0 hland
      exact ⟨i + 1, by rw [hb, hi]; ring⟩
    · have hb : b = 2 * k + 1 := by omega
      by_cases hk0 : k = 0
      · exact ⟨0, by omega⟩
      · exfalso
        obtain ⟨j, hj, -⟩ := Nat.exists_most_significant_bit hk0
        refine land_eq_zero_iff.mp h (j + 1) ⟨?_, ?_⟩
        · rw [Nat.testBit_succ]
          have : b / 2 = k := by omega
          rw [this]
          exact hj
        · rw [Nat.testBit_succ]
          have : (b - 1) / 2 = k := by omega
          rw [this]
          exact hj

theorem range_filter_eq (n i : Nat) :
    (List.range n).filter (fun j => decide (i = j)) = if i < n then [i] else [] := by
  induction n with
  | zero => simp
  | succ n ihn =>
    rw [List.range_succ, List.filter_append, ihn]
    by_cases h : i < n
    · have : ¬ i = n := by omega
      simp [h, this, Nat.lt_succ_of_lt h]
    · by_cases h2 : i = n
      · subst h2
        simp [h]
      · have : ¬ i < n + 1 := by omega
        simp [h, h2, this]

theorem bits_two_pow {i : Nat} (h : i < 64) : bits (2 ^ i) = [i] := by
  unfold bits
  have : (fun j => (2 ^ i).testBit j) = (fun j => decide (i = j)) := by
    funext j
    rw [Nat.testBit_two_pow]
  rw [this, range_filter_eq]
  simp [h]

/-- A nonzero bitboard that does not have `more_than_one` bit is the
single-square bitboard of its `lsb`. -/
theorem single_checker {b : Nat} (hb : b < 2 ^ 64) (hne : b ≠ 0) (h : ¬ more_than_one b) :
    b = sqbb (lsb b) ∧ lsb b < 64 := by
  unfold more_than_one at h
  push_neg at h
  obtain ⟨i, rfl⟩ := pow2_of_land_pred b hne h
  have hi : i < 64 := (Nat.pow_lt_pow_iff_right (by omega)).mp hb
  rw [lsb, bits_two_pow hi]
  constructor
  · simp [sqbb, hi, Nat.shiftLeft_eq]
  · exact hi

theorem lor_xor_cancel {a b : Nat} (h : a &&& b = 0) : (a ||| b) ^^^ b = a := by
  apply Nat.eq_of_testBit_eq
  intro i
  simp only [Nat.testBit_xor, Nat.testBit_or]
  rcases hb : b.testBit i with _ | _
  · simp
  · have : a.testBit i = false := by
      rcases ha : a.testBit i with _ | _
      · rfl
      · exact absurd ⟨ha, hb⟩ (land_eq_zero_iff.mp h i)
    simp [this, hb]

theorem compl_xor_of_disjoint {a b : Nat} (ha : a < 2 ^ 64) (hb : b < 2 ^ 64)
    (h : a &&& b = 0) : compl a ^^^ b = compl (a ||| b) := by
  apply Nat.eq_of_testBit_eq
  intro i
  simp only [Nat.testBit_xor, testBit_compl, Nat.testBit_or]
  by_cases hi : i < 64
  · rcases hbi : b.testBit i with _ | _
    · simp
    · have hai : a.testBit i = false := by
        rcases hx : a.testBit i with _ | _
        · rfl
        · exact absurd ⟨hx, hbi⟩ (land_eq_zero_iff.mp h i)
      simp [hai, hbi, hi]
  · have hbi := testBit_high_false hb (by omega : 64 ≤ i)
    have hai := testBit_high_false ha (by omega : 64 ≤ i)
    simp [hai, hbi, hi]

end Movegen

namespace Movegen

/-- C7: in double check (more than one checker), in every variant where
`generate<EVASIONS>` is not a no-op (i.e. outside Anti and Race) and apart
from the Atomic blast sub-pass, every emitted evasion is a king move: its
from-square is the side-to-move's king square. -/
theorem C7_double_check_only_king_moves (pos : Position)
    (hv : ¬ (pos.variant = .ANTI ∨ pos.variant = .RACE))
    (hdc : more_than_one pos.checkersBB) :
    ∃ rest : List Move,
      generateEvasions pos =
        (if pos.variant = .ATOMIC then
          generate_all .ATOMIC pos.sideToMove .CAPTURES pos
            (atomicEvasionTarget pos pos.sideToMove (pos.kingSq pos.sideToMove))
        else []) ++ rest ∧
      ∀ m ∈ rest, m.fromSq = pos.kingSq pos.sideToMove ∧ m.mtype = .NORMAL := by
  unfold generateEvasions
  rw [if_neg hv]
  dsimp only
  rw [if_pos hdc]
  refine ⟨_, rfl, ?_⟩
  intro m hm
  simp only [List.mem_map] at hm
  obtain ⟨t, _, rfl⟩ := hm
  exact ⟨rfl, rfl⟩

/-- Black king e8 in double check from the white rook e1 and the white
knight d6. -/
def dc7Pos : Position :=
  mkPos .CHESS .BLACK [(60, .BLACK, .KING), (4, .WHITE, .ROOK), (43, .WHITE, .KNIGHT),
    (6, .WHITE, .KING)] SQ_NONE noRights false false noHand

theorem C7_double_check_only_king_moves_witness :
    ¬ (dc7Pos.variant = .ANTI ∨ dc7Pos.variant = .RACE) ∧ more_than_one dc7Pos.checkersBB ∧
      ∃ rest : List Move,
        generateEvasions dc7Pos =
          (if dc7Pos.variant = .ATOMIC then
            generate_all .ATOMIC dc7Pos.sideToMove .CAPTURES dc7Pos
              (atomicEvasionTarget dc7Pos dc7Pos.sideToMove (dc7Pos.kingSq dc7Pos.sideToMove))
          else []) ++ rest ∧
        ∀ m ∈ rest, m.fromSq = dc7Pos.kingSq dc7Pos.sideToMove ∧ m.mtype = .NORMAL :=
  ⟨by decide, by decide, C7_double_check_only_king_moves dc7Pos (by decide) (by decide)⟩

/-! ## The LEGAL compaction loop -/

theorem compactGo_perm (keep : Move → Bool) :
    ∀ (n : Nat) (l : List Move), l.length ≤ n → (compactGo keep n l).Perm (l.filter keep) := by
  intro n
  induction n with
  | zero =>
    intro l hl
    have hz : l = [] := List.length_eq_zero.mp (by omega)
    subst hz
    rfl
  | succ n ih =>
    intro l hl
    match l with
    | [] => rfl
    | m :: rest =>
      rw [compactGo]
      by_cases hk : keep m
      · rw [if_pos hk, List.filter_cons_of_pos hk]
        exact (ih rest (by simpa using hl)).cons m
      · rw [if_neg hk, List.filter_cons_of_neg hk]
        match hlast : rest.getLast? with
        | none =>
          rw [List.getLast?_eq_none_iff.mp hlast]
          rfl
        | some lastm =>
          have hne : rest ≠ [] := by
            intro hr
            subst hr
            simp at hlast
          have hperm : rest.Perm (lastm :: rest.dropLast) := by
            conv_lhs => rw [← List.dropLast_append_getLast hne]
            have : rest.getLast hne = lastm := by
              have := List.getLast?_eq_getLast rest hne
              rw [hlast] at this
              exact (Option.some_inj.mp this).symm
            rw [this]
            exact List.perm_append_singleton lastm rest.dropLast
          have hlen : (lastm :: rest.dropLast).length ≤ n := by
            have := List.length_pos.mpr hne
            simp only [List.length_cons, List.length_dropLast]
            simp only [List.length_cons] at hl
            omega
          exact (ih (lastm :: rest.dropLast) hlen).trans (hperm.symm.filter keep)

theorem compact_perm (keep : Move → Bool) (l : List Move) :
    (compact keep l).Perm (l.filter keep) :=
  compactGo_perm keep l.length l (le_refl _)

theorem mem_compact {keep : Move → Bool} {l : List Move} {m : Move}
    (h : m ∈ compact keep l) : m ∈ l ∧ keep m = true := by
  have := (compact_perm keep l).mem_iff.mp h
  rw [List.mem_filter] at this
  exact this

end Movegen

namespace Movegen

/-! ## Crazyhouse drops (C10) -/

theorem testBit_compl_true {b : Nat} {i : Nat} (h : (compl b).testBit i = true) (hi : i < 64) :
    b.testBit i = false := by
  rw [testBit_compl] at h
  simpa [hi] using h

theorem testBit_compl_of {b : Nat} {i : Nat} (hi : i < 64) (h : b.testBit i = false) :
    (compl b).testBit i = true := by
  rw [testBit_compl]
  simp [hi, h]

theorem mem_pawn_kinds {V Us T pos target m} (h : m ∈ generate_pawn_moves V Us T pos target) :
    m.mtype = .NORMAL ∨ m.mtype = .PROMOTION ∨ m.mtype = .ENPASSANT := by
  rcases mem_generate_pawn_moves h with h | h | h
  · exact Or.inl (mem_pawnPushList h)
  · obtain ⟨D, t, hmem, -⟩ := mem_pawnPromoList h
    exact Or.inr (Or.inl (mem_make_promotions hmem).1)
  · rcases mem_pawnCapList h with h | h
    · exact Or.inl h
    · exact Or.inr (Or.inr h)

theorem drop_in_dropList {V Us T pos target m} (h : m ∈ generate_all V Us T pos target)
    (hd : m.mtype = .DROP) : m ∈ dropList V Us T pos target := by
  rcases mem_generate_all h with h | ⟨Pt, -, h⟩ | h | h | h
  · rcases mem_pawn_kinds h with h | h | h <;> (rw [hd] at h; simp at h)
  · have := (mem_generate_moves h).1
    rw [hd] at this
    simp at this
  · exact h
  · have := mem_kingMovesList h
    rw [hd] at this
    simp at this
  · have := mem_castleList h
    rw [hd] at this
    simp at this

theorem mem_dropList_decompose {V Us T pos target m} (h : m ∈ dropList V Us T pos target) :
    ¬ T = .CAPTURES ∧ m.toSq < 64 ∧
      (if T = .EVASIONS then target ^^^ pos.checkersBB
       else if T = .NON_EVASIONS then target ^^^ pos.piecesC Us.opp
       else target).testBit m.toSq = true ∧
      (m.dropPt = .PAWN → (Rank1BB ||| Rank8BB).testBit m.toSq = false) := by
  unfold dropList at h
  split at h
  · rename_i hcond
    dsimp only at h
    simp only [List.mem_append] at h
    rcases h with (((h | h) | h) | h) | h
    · have hd := mem_generate_drops h
      refine ⟨hcond.2.1, hd.2.2.1, (testBit_land_iff.mp hd.2.2.2).1, fun _ => ?_⟩
      exact testBit_compl_true (testBit_land_iff.mp hd.2.2.2).2 hd.2.2.1
    all_goals
      have hd := mem_generate_drops h
      refine ⟨hcond.2.1, hd.2.2.1, hd.2.2.2, fun hp => ?_⟩
      rw [hd.2.1] at hp
      simp at hp
  · simp at h

theorem back_rank_free {t : Nat} (ht : t < 64) (h : (Rank1BB ||| Rank8BB).testBit t = false) :
    rank_of t ≠ 0 ∧ rank_of t ≠ 7 := by
  rw [Nat.testBit_or] at h
  have h1 : Rank1BB.testBit t = decide (t < 8) := by
    have : Rank1BB = 2 ^ 8 - 1 := rfl
    rw [this, Nat.testBit_two_pow_sub_one]
  have h8 : Rank8BB.testBit t = (decide (56 ≤ t) && decide (t - 56 < 8)) := by
    have : Rank8BB = (2 ^ 8 - 1) <<< 56 := rfl
    rw [this, Nat.testBit_shiftLeft, Nat.testBit_two_pow_sub_one]
  rw [h1, h8] at h
  simp only [Bool.or_eq_false_iff, decide_eq_false_iff_not, Bool.and_eq_false_iff] at h
  unfold rank_of
  omega

/-- The reduction of `generate<EVASIONS>` in the Crazyhouse variant. -/
theorem generateEvasions_house (pos : Position) (hv : pos.variant = .CRAZYHOUSE) :
    generateEvasions pos =
      (let us := pos.sideToMove
       let ksq := pos.kingSq us
       let sliders := pos.checkersBB &&& compl (pos.piecesT2 .KNIGHT .PAWN)
       let sliderAttacks := (bits sliders).foldl (fun a s => a ||| (line_bb s ksq ^^^ sqbb s)) 0
       let kingMoves := (bits (pos.attacksFromF .KING ksq &&& compl (pos.piecesC us) &&&
         compl sliderAttacks)).map (fun t => make_move ksq t)
       if more_than_one pos.checkersBB then kingMoves
       else kingMoves ++ generate_all .CRAZYHOUSE us .EVASIONS pos
         (between_bb (lsb pos.checkersBB) ksq ||| sqbb (lsb pos.checkersBB))) := by
  unfold generateEvasions
  rw [hv]
  simp

/-- The reduction of `generate<T>` (CAPTURES / QUIETS / NON_EVASIONS) in
the Crazyhouse variant. -/
theorem generateMain_house (T : GenType) (pos : Position) (hv : pos.variant = .CRAZYHOUSE) :
    generateMain T pos =
      generate_all .CRAZYHOUSE pos.sideToMove T pos
        (if T = .CAPTURES then pos.piecesC pos.sideToMove.opp
         else if T = .QUIETS then compl pos.pieces
         else if T = .NON_EVASIONS then compl (pos.piecesC pos.sideToMove) else 0) := by
  unfold generateMain
  rw [hv]

/-- The NON_EVASIONS Crazyhouse drop mask `target ^ pieces(~us)` is the
set of empty squares. -/
theorem house_nonev_mask (pos : Position) (hbW : pos.byColor .WHITE < 2 ^ 64)
    (hbB : pos.byColor .BLACK < 2 ^ 64)
    (hdisj : pos.byColor .WHITE &&& pos.byColor .BLACK = 0) (us : Color) :
    compl (pos.piecesC us) ^^^ pos.piecesC us.opp = compl pos.pieces := by
  cases us with
  | WHITE =>
    have := compl_xor_of_disjoint hbW hbB hdisj
    simpa [Position.piecesC, Color.opp, Position.pieces] using this
  | BLACK =>
    have hd2 : pos.byColor .BLACK &&& pos.byColor .WHITE = 0 := by
      rw [Nat.land_comm]
      exact hdisj
    have := compl_xor_of_disjoint hbB hbW hd2
    rw [Nat.lor_comm] at this
    simpa [Position.piecesC, Color.opp, Position.pieces] using this

/-- C10: in Crazyhouse every emitted drop lands on an empty square — the
EVASIONS drop mask removes the checker square from the blocking target,
the NON_EVASIONS mask removes enemy pieces from the non-own target, and
pawn drops additionally exclude the first and eighth ranks; so no drop is
emitted onto an occupied square, onto the checking piece's square, or (for
a pawn) onto a back rank. -/
theorem C10_crazyhouse_drop_squares (pos : Position) (hv : pos.variant = .CRAZYHOUSE)
    (hbW : pos.byColor .WHITE < 2 ^ 64) (hbB : pos.byColor .BLACK < 2 ^ 64)
    (hdisj : pos.byColor .WHITE &&& pos.byColor .BLACK = 0)
    (hchk : pos.checkersBB < 2 ^ 64)
    (hchkSub : ∀ s, s < 64 → pos.checkersBB.testBit s = true → pos.pieces.testBit s = true)
    (hbetween : ∀ s, s < 64 → pos.checkersBB.testBit s = true →
      between_bb s (pos.kingSq pos.sideToMove) &&& pos.pieces = 0)
    (T : GenType) :
    ∀ m ∈ generate T pos, m.mtype = .DROP →
      pos.pieces.testBit m.toSq = false ∧ pos.checkersBB.testBit m.toSq = false ∧
      (m.dropPt = .PAWN → rank_of m.toSq ≠ 0 ∧ rank_of m.toSq ≠ 7) := by
  -- step 1: a drop inside `generate_all` whose effective drop mask contains
  -- only empty squares lands on an empty non-checker square
  have main : ∀ (T' : GenType) (tg : Bitboard) (m : Move),
      (∀ i, i < 64 →
        (if T' = .EVASIONS then tg ^^^ pos.checkersBB
         else if T' = .NON_EVASIONS then tg ^^^ pos.piecesC pos.sideToMove.opp
         else tg).testBit i = true → pos.pieces.testBit i = false) →
      m ∈ generate_all .CRAZYHOUSE pos.sideToMove T' pos tg → m.mtype = .DROP →
      pos.pieces.testBit m.toSq = false ∧ pos.checkersBB.testBit m.toSq = false ∧
      (m.dropPt = .PAWN → rank_of m.toSq ≠ 0 ∧ rank_of m.toSq ≠ 7) := by
    intro T' tg m hmask hm hd
    obtain ⟨-, hlt, hbit, hp⟩ := mem_dropList_decompose (drop_in_dropList hm hd)
    have hemp := hmask m.toSq hlt hbit
    refine ⟨hemp, ?_, fun hpw => back_rank_free hlt (hp hpw)⟩
    rcases hcb : pos.checkersBB.testBit m.toSq with _ | _
    · rfl
    · rw [hchkSub m.toSq hlt hcb] at hemp
      simp at hemp
  have hquiet : ∀ i, i < 64 → (compl pos.pieces).testBit i = true →
      pos.pieces.testBit i = false := fun i hi h => testBit_compl_true h hi
  -- step 2: the EVASIONS path
  have hev : ∀ m ∈ generateEvasions pos, m.mtype = .DROP →
      pos.pieces.testBit m.toSq = false ∧ pos.checkersBB.testBit m.toSq = false ∧
      (m.dropPt = .PAWN → rank_of m.toSq ≠ 0 ∧ rank_of m.toSq ≠ 7) := by
    intro m hm hd
    rw [generateEvasions_house pos hv] at hm
    dsimp only at hm
    split at hm
    · simp only [List.mem_map] at hm
      obtain ⟨t, -, rfl⟩ := hm
      simp [make_move] at hd
    · rename_i hmto
      simp only [List.mem_append, List.mem_map] at hm
      rcases hm with ⟨t, -, rfl⟩ | hm
      · simp [make_move] at hd
      · refine main .EVASIONS _ m ?_ hm hd
        intro i hi hbit
        simp only [reduceIte] at hbit
        by_cases hch : pos.checkersBB = 0
        · -- no checker: the whole mask is empty
          rw [hch] at hbit
          have hlsb : lsb (0 : Bitboard) = 64 := by decide
          rw [hlsb] at hbit
          have hbtw : between_bb 64 (pos.kingSq pos.sideToMove) = 0 := by
            unfold between_bb rayDir
            simp
          have hsq : sqbb 64 = 0 := by decide
          rw [hbtw, hsq] at hbit
          simp at hbit
        · set csq := lsb pos.checkersBB with hcsq
          obtain ⟨hsingle, hlsb64⟩ := single_checker hchk hch (by
            unfold more_than_one
            intro hcon
            exact hmto hcon)
          rw [← hcsq] at hsingle hlsb64
          have hcself : pos.checkersBB.testBit csq = true := by
            rw [hsingle, testBit_sqbb]
            exact ⟨hlsb64, rfl⟩
          have hbtwocc := hbetween csq hlsb64 hcself
          have hdis : between_bb csq (pos.kingSq pos.sideToMove) &&& sqbb csq = 0 := by
            rw [land_eq_zero_iff]
            intro j hj
            obtain ⟨-, rfl⟩ := testBit_sqbb.mp hj.2
            exact absurd hj.1 (by
              have hpcs := hchkSub csq hlsb64 hcself
              have := land_eq_zero_iff.mp hbtwocc csq
              intro hcon
              exact this ⟨hcon, hpcs⟩)
          rw [hsingle, lor_xor_cancel hdis] at hbit
          rcases hpo : pos.pieces.testBit i with _ | _
          · rfl
          · exact (land_eq_zero_iff.mp hbtwocc i ⟨hbit, hpo⟩).elim
  cases T with
  | CAPTURES =>
    intro m hm hd
    rw [show generate .CAPTURES pos = generateMain .CAPTURES pos from rfl,
      generateMain_house _ _ hv] at hm
    obtain ⟨habs, -⟩ := mem_dropList_decompose (drop_in_dropList hm hd)
    simp at habs
  | QUIETS =>
    intro m hm hd
    rw [show generate .QUIETS pos = generateMain .QUIETS pos from rfl,
      generateMain_house _ _ hv] at hm
    exact main .QUIETS _ m (by simpa using hquiet) hm hd
  | NON_EVASIONS =>
    intro m hm hd
    rw [show generate .NON_EVASIONS pos = generateMain .NON_EVASIONS pos from rfl,
      generateMain_house _ _ hv] at hm
    refine main .NON_EVASIONS _ m ?_ hm hd
    intro i hi hbit
    simp only [reduceCtorEq, reduceIte, if_false] at hbit
    rw [house_nonev_mask pos hbW hbB hdisj] at hbit
    exact testBit_compl_true hbit hi
  | QUIET_CHECKS =>
    intro m hm hd
    rw [show generate .QUIET_CHECKS pos = generateQuietChecks pos from rfl] at hm
    unfold generateQuietChecks at hm
    rw [hv] at hm
    simp only [reduceCtorEq, or_self, if_false, List.mem_append] at hm
    rcases hm with hm | hm
    · have := (mem_quietCheckDcList hm).1
      rw [hd] at this
      simp at this
    · exact main .QUIET_CHECKS _ m (by simpa using hquiet) hm hd
  | EVASIONS => exact hev
  | LEGAL =>
    intro m hm hd
    rw [show generate .LEGAL pos = generateLegal pos from rfl] at hm
    unfold generateLegal at hm
    split at hm
    · simp at hm
    · have hbase := (mem_compact hm).1
      split at hbase
      · exact hev m hbase hd
      · rw [generateMain_house _ _ hv] at hbase
        refine main .NON_EVASIONS _ m ?_ hbase hd
        intro i hi hbit
        simp only [reduceCtorEq, reduceIte, if_false] at hbit
        rw [house_nonev_mask pos hbW hbB hdisj] at hbit
        exact testBit_compl_true hbit hi
end Movegen

namespace Movegen

/-- Crazyhouse: White Ke1 checked by the black rook e8 (black Kh8), with a
knight in hand. -/
def c10Pos : Position :=
  mkPos .CRAZYHOUSE .WHITE [(4, .WHITE, .KING), (60, .BLACK, .ROOK), (63, .BLACK, .KING)]
    SQ_NONE noRights false false (fun c pt => if c = .WHITE ∧ pt = .KNIGHT then 1 else 0)

theorem C10_crazyhouse_drop_squares_witness :
    make_drop 12 .KNIGHT ∈ generate .EVASIONS c10Pos ∧
      c10Pos.pieces.testBit 12 = false ∧ c10Pos.checkersBB.testBit 12 = false := by
  have h := C10_crazyhouse_drop_squares c10Pos rfl (by decide) (by decide) (by decide)
    (by decide) (by decide) (by decide) .EVASIONS (make_drop 12 .KNIGHT) (by decide) rfl
  exact ⟨by decide, h.1, h.2.1⟩

end Movegen

namespace Movegen

/-- White Pb7 and Kh1, Black Kd7: the knight promotion b8=N gives check. -/
def c8Pos : Position :=
  mkPos .CHESS .WHITE [(49, .WHITE, .PAWN), (7, .WHITE, .KING), (51, .BLACK, .KING)]
    SQ_NONE noRights false false noHand

theorem C8_quiet_check_promotions_witness :
    makePromotion 49 57 .KNIGHT ∈ generateQuietChecks c8Pos ∧
      (makePromotion 49 57 .KNIGHT).promo = .KNIGHT ∧
      pseudoAttacks .KNIGHT (makePromotion 49 57 .KNIGHT).toSq &&&
        sqbb (c8Pos.kingSq c8Pos.sideToMove.opp) ≠ 0 := by
  have h := C8_quiet_check_promotions.2 c8Pos (makePromotion 49 57 .KNIGHT)
    (by decide) (by decide)
  exact ⟨by decide, h.1, h.2⟩

end Movegen

namespace Movegen

/-! ## En passant (C5) -/

/-- The board of FEN `rnbqkbnr/p1pppppp/8/1p6/8/8/PPPPPPPP/RNBQKBNR w KQkq b6 0 2`,
taking the en-passant square b6 of the FEN literally. -/
def fen6Pos : Position :=
  mkPos .CHESS .WHITE ((startBoard.filter (fun e => e.1 ≠ 49)) ++ [(33, .BLACK, .PAWN)])
    41 allRights false false noHand

/-- C5 counterexample: on the position of FEN
`rnbqkbnr/p1pppppp/8/1p6/8/8/PPPPPPPP/RNBQKBNR w KQkq b6 0 2` with the
en-passant square taken literally from the FEN, `generate<LEGAL>` (which
runs NON_EVASIONS since there is no checker) does NOT complete with every
internal assertion holding: `assert(b1)` at movegen.cpp:303 is violated,
because no white pawn attacks b6.  (`pawnEpAssertsOK` is evaluated at
exactly the arguments of the pawn call `generate<LEGAL>` makes:
`Us = side to move`, `Type = NON_EVASIONS`, `target = ~pieces(us)`.) -/
theorem C5_counterexample :
    fen6Pos.epSq ≠ SQ_NONE ∧ fen6Pos.checkersBB = 0 ∧
      ¬ pawnEpAssertsOK fen6Pos.sideToMove .NON_EVASIONS fen6Pos
          (compl (fen6Pos.piecesC fen6Pos.sideToMove)) := by
  refine ⟨by decide, by decide, by decide⟩

/-- C5 (amended): on the FEN-literal position the generator (under release
semantics, i.e. ignoring the failed assertion) returns exactly 20 legal
moves with no ENPASSANT move, but the internal assertion `assert(b1)`
fails; in general, whenever `ep_square() ≠ SQ_NONE` (and, for EVASIONS,
the en-passant gate passes) the ENPASSANT moves emitted by
`generate_pawn_moves` are exactly one per own pawn attacking the ep
square — so none are emitted when there is no such pawn, a case the code
asserts cannot happen. -/
theorem C5_phantom_ep_amended :
    (generateLegal fen6Pos).length = 20 ∧
    (∀ m ∈ generateLegal fen6Pos, m.mtype ≠ .ENPASSANT) ∧
    ¬ pawnEpAssertsOK fen6Pos.sideToMove .NON_EVASIONS fen6Pos
        (compl (fen6Pos.piecesC fen6Pos.sideToMove)) ∧
    (∀ (V : Variant) (Us : Color) (T : GenType) (pos : Position) (target : Bitboard),
      (T = .CAPTURES ∨ T = .EVASIONS ∨ T = .NON_EVASIONS) →
      pos.epSq ≠ SQ_NONE →
      ¬ (T = .EVASIONS ∧ target &&& sqbb (sqSub pos.epSq (pawnUp Us)) = 0) →
      (generate_pawn_moves V Us T pos target).filter (fun m => decide (m.mtype = .ENPASSANT)) =
        (bits (pawnsNotOn7bb pos Us &&& pos.pawnAttacksFrom pos.epSq Us.opp)).map
          (fun f => makeEnpassant f pos.epSq)) := by
  refine ⟨by decide, by decide, by decide, ?_⟩
  intro V Us T pos target hT hep hgate
  unfold generate_pawn_moves
  rw [List.filter_append, List.filter_append]
  have hpush : (pawnPushList V Us T pos target).filter
      (fun m => decide (m.mtype = .ENPASSANT)) = [] := by
    rw [List.filter_eq_nil_iff]
    intro m hm
    rw [mem_pawnPushList hm]
    simp
  have hpromo : (pawnPromoList V Us T pos target).filter
      (fun m => decide (m.mtype = .ENPASSANT)) = [] := by
    rw [List.filter_eq_nil_iff]
    intro m hm
    obtain ⟨D, t, hmem, -⟩ := mem_pawnPromoList hm
    rw [(mem_make_promotions hmem).1]
    simp
  have hcap : (pawnCapList Us T pos target).filter
      (fun m => decide (m.mtype = .ENPASSANT)) =
      (bits (pawnsNotOn7bb pos Us &&& pos.pawnAttacksFrom pos.epSq Us.opp)).map
        (fun f => makeEnpassant f pos.epSq) := by
    unfold pawnCapList
    rw [if_pos hT]
    dsimp only
    rw [List.filter_append]
    have h1 : ∀ (b : Bitboard) (D : Direction),
        ((bits b).map (fun t => make_move (sqSub t D) t)).filter
          (fun m => decide (m.mtype = .ENPASSANT)) = [] := by
      intro b D
      rw [List.filter_eq_nil_iff]
      intro m hm
      simp only [List.mem_map] at hm
      obtain ⟨t, -, rfl⟩ := hm
      simp [make_move]
    rw [List.filter_append, h1, h1]
    rw [if_pos hep, if_neg hgate]
    simp only [List.nil_append]
    rw [List.filter_eq_self]
    intro m hm
    simp only [List.mem_map] at hm
    obtain ⟨f, -, rfl⟩ := hm
    simp [makeEnpassant]
  rw [hpush, hpromo, hcap]
  simp

/-- A genuine en-passant position: white Pa5, black Pb5 just
double-pushed (ep square b6). -/
def epPos : Position :=
  mkPos .CHESS .WHITE [(32, .WHITE, .PAWN), (4, .WHITE, .KING), (33, .BLACK, .PAWN),
    (60, .BLACK, .KING)] 41 noRights false false noHand

theorem C5_phantom_ep_amended_witness :
    (generate_pawn_moves .CHESS .WHITE .NON_EVASIONS epPos
        (compl (epPos.piecesC .WHITE))).filter (fun m => decide (m.mtype = .ENPASSANT)) =
      [makeEnpassant 32 41] := by
  have h := C5_phantom_ep_amended.2.2.2 .CHESS .WHITE .NON_EVASIONS epPos
    (compl (epPos.piecesC .WHITE)) (by decide) (by decide) (by decide)
  rw [h]
  decide

end Movegen

namespace Movegen

/-! ## To-square characterizations of the pawn chunks (C6, C3) -/

theorem testBit_landIf {c : Prop} [Decidable c] {x t : Nat} {i : Nat}
    (h : (if c then x &&& t else x).testBit i = true) : x.testBit i = true := by
  split at h
  · exact (testBit_land_iff.mp h).1
  · exact h

theorem pawnPushB1_sub_empty {V Us T pos target} {i : Nat}
    (h : (pawnPushB1 V Us T pos target).testBit i = true) :
    (pawnPushEmpty V Us T pos target).testBit i = true := by
  unfold pawnPushB1 pawnPushDc1 at h
  dsimp only at h
  split_ifs at h <;> (simp only [testBit_land_iff, testBit_lor_iff] at h; tauto)

theorem pawnPushB2_sub_empty {V Us T pos target} {i : Nat}
    (h : (pawnPushB2 V Us T pos target).testBit i = true) :
    (pawnPushEmpty V Us T pos target).testBit i = true := by
  unfold pawnPushB2 at h
  dsimp only at h
  split_ifs at h <;> (simp only [testBit_land_iff, testBit_lor_iff] at h; tauto)

theorem mem_pawnPushList_to {V Us T pos target m}
    (h : m ∈ pawnPushList V Us T pos target) :
    m.toSq < 64 ∧ (pawnPushEmpty V Us T pos target).testBit m.toSq = true := by
  unfold pawnPushList at h
  split at h
  · simp only [List.mem_append, List.mem_map] at h
    rcases h with ⟨t, ht, rfl⟩ | ⟨t, ht, rfl⟩
    · rw [mem_bits] at ht
      exact ⟨ht.1, pawnPushB1_sub_empty ht.2⟩
    · rw [mem_bits] at ht
      exact ⟨ht.1, pawnPushB2_sub_empty ht.2⟩
  · simp at h

theorem mem_pawnPromoList_to {V Us T pos target m} (h : m ∈ pawnPromoList V Us T pos target) :
    ∃ D t, m ∈ make_promotions V T D t (pos.kingSq Us.opp) ∧ t < 64 ∧
      ((pawnEnemies Us T pos target).testBit t = true ∨
       (pawnPromoEmpty V Us T pos target).testBit t = true) := by
  unfold pawnPromoList at h
  split at h
  · simp only [List.mem_append, List.mem_flatMap] at h
    rcases h with (⟨t, ht, hm⟩ | ⟨t, ht, hm⟩) | ⟨t, ht, hm⟩
    · rw [mem_bits] at ht
      exact ⟨_, t, hm, ht.1, Or.inl (testBit_land_iff.mp ht.2).2⟩
    · rw [mem_bits] at ht
      exact ⟨_, t, hm, ht.1, Or.inl (testBit_land_iff.mp ht.2).2⟩
    · rw [mem_bits] at ht
      exact ⟨_, t, hm, ht.1, Or.inr (testBit_land_iff.mp ht.2).2⟩
  · simp at h

theorem mem_pawnCapList_to {Us T pos target m} (h : m ∈ pawnCapList Us T pos target) :
    (m.mtype = .NORMAL ∧ m.toSq < 64 ∧
      (pawnEnemies Us T pos target).testBit m.toSq = true) ∨
    (m.mtype = .ENPASSANT ∧ m.toSq = pos.epSq) := by
  unfold pawnCapList at h
  split at h
  · dsimp only at h
    simp only [List.mem_append, List.mem_map] at h
    rcases h with (⟨t, ht, rfl⟩ | ⟨t, ht, rfl⟩) | h
    · rw [mem_bits] at ht
      exact Or.inl ⟨rfl, ht.1, (testBit_land_iff.mp ht.2).2⟩
    · rw [mem_bits] at ht
      exact Or.inl ⟨rfl, ht.1, (testBit_land_iff.mp ht.2).2⟩
    · split at h
      · split at h
        · simp at h
        · simp only [List.mem_map] at h
          obtain ⟨f, -, rfl⟩ := h
          exact Or.inr ⟨rfl, rfl⟩
      · simp at h
  · simp at h

end Movegen

namespace Movegen

/-! ## Antichess forced capture (C6) -/

theorem dropList_eq_nil {V Us T pos target} (hV : V ≠ .CRAZYHOUSE) :
    dropList V Us T pos target = [] := by
  unfold dropList
  rw [if_neg]
  rintro ⟨h1, -⟩
  exact hV h1

theorem mem_kingMovesList_anti {Us T pos target m}
    (h : m ∈ kingMovesList .ANTI Us T pos target) :
    m.mtype = .NORMAL ∧ m.toSq < 64 ∧ target.testBit m.toSq = true := by
  unfold kingMovesList at h
  rw [if_pos rfl] at h
  simp only [List.mem_flatMap, List.mem_map] at h
  obtain ⟨k, -, t, ht, rfl⟩ := h
  rw [mem_bits] at ht
  exact ⟨rfl, ht.1, (testBit_land_iff.mp ht.2).2⟩

theorem mem_generate_all_anti_cc {Us T pos target m} (hcc : pos.canCaptureAnti = true)
    (h : m ∈ generate_all .ANTI Us T pos target) :
    m ∈ generate_pawn_moves .ANTI Us T pos target ∨
      (∃ Pt, m ∈ generate_moves .ANTI Pt (T = .QUIET_CHECKS) pos Us target) ∨
      m ∈ kingMovesList .ANTI Us T pos target := by
  unfold generate_all at h
  rw [if_pos ⟨rfl, hcc⟩, dropList_eq_nil (by simp)] at h
  simp only [List.mem_append, List.not_mem_nil, or_false, List.append_nil] at h
  rcases h with ((((h | h) | h) | h) | h) | h
  · exact Or.inl h
  · exact Or.inr (Or.inl ⟨_, h⟩)
  · exact Or.inr (Or.inl ⟨_, h⟩)
  · exact Or.inr (Or.inl ⟨_, h⟩)
  · exact Or.inr (Or.inl ⟨_, h⟩)
  · exact Or.inr (Or.inr h)

theorem generateMain_anti_cc (T : GenType) (pos : Position) (hv : pos.variant = .ANTI)
    (hcc : pos.canCaptureAnti = true) :
    generateMain T pos =
      generate_all .ANTI pos.sideToMove T pos
        ((if T = .CAPTURES then pos.piecesC pos.sideToMove.opp
          else if T = .QUIETS then compl pos.pieces
          else if T = .NON_EVASIONS then compl (pos.piecesC pos.sideToMove) else 0) &&&
          pos.piecesC pos.sideToMove.opp) := by
  unfold generateMain
  rw [hv]
  dsimp only
  rw [if_pos hcc]

/-- Antichess, White to move: Pa5 and Nd4 against black pawns b5 and g7,
with the en-passant square b6 set (Black just played b7-b5).  A capture
exists (Nxb5), so `can_capture()` is true. -/
def c6Pos : Position :=
  mkPos .ANTI .WHITE [(32, .WHITE, .PAWN), (27, .WHITE, .KNIGHT), (33, .BLACK, .PAWN),
    (54, .BLACK, .PAWN)] 41 noRights true false noHand

/-- C6 counterexample: with `can_capture()` true, `generate<CAPTURES>`
emits the en-passant capture a5xb6, whose destination square b6 does NOT
hold an enemy piece — so "every move is a capture (its destination square
holds an enemy piece)" fails as stated. -/
theorem C6_counterexample :
    c6Pos.canCaptureAnti = true ∧ makeEnpassant 32 41 ∈ generateMain .CAPTURES c6Pos ∧
      (c6Pos.piecesC c6Pos.sideToMove.opp).testBit (makeEnpassant 32 41).toSq = false := by
  refine ⟨rfl, by decide, by decide⟩

/-- C6 (amended): in Antichess with `can_capture()` true, every move
emitted by generate<CAPTURES>, generate<QUIETS> and generate<NON_EVASIONS>
is a capture — its destination square holds an enemy piece or it is an
en-passant capture — and no castling move is emitted. -/
theorem C6_anti_forced_capture_amended (pos : Position) (hv : pos.variant = .ANTI)
    (hcc : pos.canCaptureAnti = true) (T : GenType)
    (hT : T = .CAPTURES ∨ T = .QUIETS ∨ T = .NON_EVASIONS) :
    ∀ m ∈ generateMain T pos,
      ((pos.piecesC pos.sideToMove.opp).testBit m.toSq = true ∨ m.mtype = .ENPASSANT) ∧
        m.mtype ≠ .CASTLING := by
  intro m hm
  rw [generateMain_anti_cc T pos hv hcc] at hm
  set tgt := (if T = .CAPTURES then pos.piecesC pos.sideToMove.opp
    else if T = .QUIETS then compl pos.pieces
    else if T = .NON_EVASIONS then compl (pos.piecesC pos.sideToMove) else 0) &&&
    pos.piecesC pos.sideToMove.opp with htgt
  have htgtE : ∀ i, tgt.testBit i = true → (pos.piecesC pos.sideToMove.opp).testBit i = true :=
    fun i hi => (testBit_land_iff.mp hi).2
  have henemies : ∀ i, (pawnEnemies pos.sideToMove T pos tgt).testBit i = true →
      (pos.piecesC pos.sideToMove.opp).testBit i = true := by
    intro i hi
    unfold pawnEnemies at hi
    rcases hT with rfl | rfl | rfl <;> simp only [reduceCtorEq, reduceIte, if_false] at hi
    · exact htgtE i hi
    · exact hi
    · exact hi
  have hpromoE : ∀ i, (pawnPromoEmpty .ANTI pos.sideToMove T pos tgt).testBit i = true →
      (pos.piecesC pos.sideToMove.opp).testBit i = true := by
    intro i hi
    unfold pawnPromoEmpty at hi
    dsimp only at hi
    split_ifs at hi <;>
      first
        | (simp only [testBit_land_iff] at hi
           first
             | exact htgtE i hi.2
             | exact htgtE i hi.1.2
             | exact htgtE i hi.1.1.2)
        | simp_all
  rcases mem_generate_all_anti_cc hcc hm with h | ⟨Pt, h⟩ | h
  · rcases mem_generate_pawn_moves h with h | h | h
    · have hk := mem_pawnPushList h
      have hto := mem_pawnPushList_to h
      refine ⟨Or.inl ?_, by rw [hk]; simp⟩
      have := hto.2
      unfold pawnPushEmpty at this
      dsimp only at this
      split_ifs at this <;>
        first
          | (simp only [testBit_land_iff] at this
             exact htgtE _ this.2)
          | simp_all
    · obtain ⟨D, t, hmem, hlt, hor⟩ := mem_pawnPromoList_to h
      obtain ⟨hk, hts, -⟩ := mem_make_promotions hmem
      refine ⟨Or.inl ?_, by rw [hk]; simp⟩
      rw [hts]
      rcases hor with hor | hor
      · exact henemies t hor
      · exact hpromoE t hor
    · rcases mem_pawnCapList_to h with ⟨hk, -, he⟩ | ⟨hk, -⟩
      · exact ⟨Or.inl (henemies _ he), by rw [hk]; simp⟩
      · exact ⟨Or.inr hk, by rw [hk]; simp⟩
  · have := mem_generate_moves h
    exact ⟨Or.inl (htgtE _ this.2.2.2.2.1), by rw [this.1]; simp⟩
  · have := mem_kingMovesList_anti h
    exact ⟨Or.inl (htgtE _ this.2.2), by rw [this.1]; simp⟩

theorem C6_anti_forced_capture_amended_witness :
    makeEnpassant 32 41 ∈ generateMain .CAPTURES c6Pos ∧
      ((c6Pos.piecesC c6Pos.sideToMove.opp).testBit (makeEnpassant 32 41).toSq = true ∨
        (makeEnpassant 32 41).mtype = .ENPASSANT) ∧
      (makeEnpassant 32 41).mtype ≠ .CASTLING := by
  have h := C6_anti_forced_capture_amended c6Pos rfl rfl .CAPTURES (Or.inl rfl)
    (makeEnpassant 32 41) (by decide)
  exact ⟨by decide, h.1, h.2⟩

end Movegen


namespace Movegen

/-! ## Pairwise distinctness of the emitted moves (C3): file/shift bit
characterizations, per-chunk `Nodup` lemmas, cross-chunk disjointness and
the rollups over every generation kind. -/

end Movegen

namespace Movegen

theorem testBit_FileABB {i : Nat} :
    FileABB.testBit i = (decide (i < 64) && decide (i % 8 = 0)) := by
  rcases Nat.lt_or_ge i 64 with h | h
  · have hall : ∀ j, j < 64 → FileABB.testBit j = decide (j % 8 = 0) := by decide
    simp [hall i h, h]
  · have hz : FileABB.testBit i = false := testBit_high_false (by norm_num [FileABB]) h
    simp [hz, Nat.not_lt.mpr h]

theorem testBit_FileHBB {i : Nat} :
    FileHBB.testBit i = (decide (i < 64) && decide (i % 8 = 7)) := by
  rcases Nat.lt_or_ge i 64 with h | h
  · have hall : ∀ j, j < 64 → FileHBB.testBit j = decide (j % 8 = 7) := by decide
    simp [hall i h, h]
  · have hz : FileHBB.testBit i = false := testBit_high_false (by norm_num [FileHBB]) h
    simp [hz, Nat.not_lt.mpr h]

theorem testBit_compl_iff {b : Bitboard} (hb : b < 2 ^ 64) {i : Nat} :
    (compl b).testBit i = true ↔ i < 64 ∧ b.testBit i = false := by
  rw [testBit_compl]
  rcases Nat.lt_or_ge i 64 with h | h
  · cases hbit : b.testBit i <;> simp [h, hbit]
  · rw [testBit_high_false hb h]
    simp [Nat.not_lt.mpr h]

theorem testBit_shift_N {b : Bitboard} {i : Nat} :
    (shiftBB NORTH b).testBit i = true ↔ i < 64 ∧ 8 ≤ i ∧ b.testBit (i - 8) = true := by
  have h0 : shiftBB NORTH b = (b <<< 8) &&& FULLBB := rfl
  rw [h0]
  simp only [testBit_land_iff, Nat.testBit_shiftLeft, testBit_FULLBB, Bool.and_eq_true,
    decide_eq_true_eq]
  tauto

theorem testBit_shift_S {b : Bitboard} {i : Nat} :
    (shiftBB SOUTH b).testBit i = true ↔ b.testBit (i + 8) = true := by
  have h0 : shiftBB SOUTH b = b >>> 8 := rfl
  rw [h0, Nat.testBit_shiftRight, Nat.add_comm]

theorem testBit_shift_NE {b : Bitboard} {i : Nat} :
    (shiftBB NORTH_EAST b).testBit i = true ↔
      i < 64 ∧ 9 ≤ i ∧ b.testBit (i - 9) = true ∧ (i - 9) % 8 ≠ 7 := by
  have h0 : shiftBB NORTH_EAST b = ((b &&& compl FileHBB) <<< 9) &&& FULLBB := rfl
  rw [h0]
  simp only [testBit_land_iff, Nat.testBit_shiftLeft, testBit_FULLBB, Bool.and_eq_true,
    decide_eq_true_eq, testBit_compl_iff (show FileHBB < 2 ^ 64 by norm_num [FileHBB]),
    testBit_FileHBB, Bool.and_eq_false_iff, decide_eq_false_iff_not]
  constructor
  · rintro ⟨⟨h9, hb, h64', hH⟩, h64⟩
    exact ⟨h64, h9, hb, by tauto⟩
  · rintro ⟨h64, h9, hb, h7⟩
    exact ⟨⟨h9, hb, by omega, Or.inr h7⟩, h64⟩

theorem testBit_shift_NW {b : Bitboard} {i : Nat} :
    (shiftBB NORTH_WEST b).testBit i = true ↔
      i < 64 ∧ 7 ≤ i ∧ b.testBit (i - 7) = true ∧ (i - 7) % 8 ≠ 0 := by
  have h0 : shiftBB NORTH_WEST b = ((b &&& compl FileABB) <<< 7) &&& FULLBB := rfl
  rw [h0]
  simp only [testBit_land_iff, Nat.testBit_shiftLeft, testBit_FULLBB, Bool.and_eq_true,
    decide_eq_true_eq, testBit_compl_iff (show FileABB < 2 ^ 64 by norm_num [FileABB]),
    testBit_FileABB, Bool.and_eq_false_iff, decide_eq_false_iff_not]
  constructor
  · rintro ⟨⟨h7, hb, h64', hA⟩, h64⟩
    exact ⟨h64, h7, hb, by tauto⟩
  · rintro ⟨h64, h7, hb, h0'⟩
    exact ⟨⟨h7, hb, by omega, Or.inr h0'⟩, h64⟩

theorem testBit_shift_SE {b : Bitboard} {i : Nat} (hb : b < 2 ^ 64) :
    (shiftBB SOUTH_EAST b).testBit i = true ↔
      i < 64 ∧ b.testBit (i + 7) = true ∧ (i + 7) % 8 ≠ 7 := by
  have h0 : shiftBB SOUTH_EAST b = (b &&& compl FileHBB) >>> 7 := rfl
  rw [h0, Nat.testBit_shiftRight, Nat.add_comm]
  rw [testBit_land_iff, testBit_compl_iff (show FileHBB < 2 ^ 64 by norm_num [FileHBB]),
    testBit_FileHBB]
  simp only [Bool.and_eq_false_iff, decide_eq_false_iff_not]
  constructor
  · rintro ⟨hbit, h64', hH⟩
    exact ⟨by omega, hbit, by tauto⟩
  · rintro ⟨h64, hbit, h7⟩
    have h64' : i + 7 < 64 := by
      by_contra hge
      rw [testBit_high_false hb (by omega)] at hbit
      exact Bool.false_ne_true hbit
    exact ⟨hbit, h64', Or.inr h7⟩

theorem testBit_shift_SW {b : Bitboard} {i : Nat} (hb : b < 2 ^ 64) :
    (shiftBB SOUTH_WEST b).testBit i = true ↔
      i < 64 ∧ b.testBit (i + 9) = true ∧ (i + 9) % 8 ≠ 0 := by
  have h0 : shiftBB SOUTH_WEST b = (b &&& compl FileABB) >>> 9 := rfl
  rw [h0, Nat.testBit_shiftRight, Nat.add_comm]
  rw [testBit_land_iff, testBit_compl_iff (show FileABB < 2 ^ 64 by norm_num [FileABB]),
    testBit_FileABB]
  simp only [Bool.and_eq_false_iff, decide_eq_false_iff_not]
  constructor
  · rintro ⟨hbit, h64', hA⟩
    exact ⟨by omega, hbit, by tauto⟩
  · rintro ⟨h64, hbit, h0'⟩
    have h64' : i + 9 < 64 := by
      by_contra hge
      rw [testBit_high_false hb (by omega)] at hbit
      exact Bool.false_ne_true hbit
    exact ⟨hbit, h64', Or.inr h0'⟩

end Movegen

namespace Movegen

theorem sqSub_north {i : Nat} (h : 8 ≤ i) : sqSub i NORTH = i - 8 := by
  show ((i : Int) - 8).toNat = i - 8
  omega

theorem sqSub_south {i : Nat} : sqSub i SOUTH = i + 8 := by
  show ((i : Int) - (-8)).toNat = i + 8
  omega

theorem sqSub_ne {i : Nat} (h : 9 ≤ i) : sqSub i NORTH_EAST = i - 9 := by
  show ((i : Int) - 9).toNat = i - 9
  omega

theorem sqSub_nw {i : Nat} (h : 7 ≤ i) : sqSub i NORTH_WEST = i - 7 := by
  show ((i : Int) - 7).toNat = i - 7
  omega

theorem sqSub_se {i : Nat} : sqSub i SOUTH_EAST = i + 7 := by
  show ((i : Int) - (-7)).toNat = i + 7
  omega

theorem sqSub_sw {i : Nat} : sqSub i SOUTH_WEST = i + 9 := by
  show ((i : Int) - (-9)).toNat = i + 9
  omega

theorem shiftBB_mono {D : Direction} {X Y : Bitboard}
    (hXY : ∀ i, X.testBit i = true → Y.testBit i = true) :
    ∀ i, (shiftBB D X).testBit i = true → (shiftBB D Y).testBit i = true := by
  intro i hi
  unfold shiftBB at hi ⊢
  split_ifs at hi ⊢ <;>
    (try simp only [testBit_land_iff, Nat.testBit_shiftLeft, Nat.testBit_shiftRight,
      Bool.and_eq_true, decide_eq_true_eq] at hi ⊢) <;>
    first
      | exact ⟨⟨hi.1.1, hXY _ hi.1.2⟩, hi.2⟩
      | exact ⟨⟨hi.1.1, ⟨hXY _ hi.1.2.1, hi.1.2.2⟩⟩, hi.2⟩
      | exact hXY _ hi
      | exact ⟨hXY _ hi.1, hi.2⟩
      | exact hi

/-- The origin square of a pawn-push landing bit. -/
theorem shiftBB_up_from {Us : Color} {X : Bitboard} {i : Nat}
    (h : (shiftBB (pawnUp Us) X).testBit i = true) :
    X.testBit (sqSub i (pawnUp Us)) = true := by
  cases Us
  · have h' := testBit_shift_N.mp h
    show X.testBit (sqSub i NORTH) = true
    rw [sqSub_north h'.2.1]
    exact h'.2.2
  · have h' := testBit_shift_S.mp h
    show X.testBit (sqSub i SOUTH) = true
    rw [sqSub_south]
    exact h'

/-- The origin square of a pawn capture-right landing bit. -/
theorem shiftBB_right_from {Us : Color} {X : Bitboard} {i : Nat}
    (h : (shiftBB (pawnRight Us) X).testBit i = true) :
    X.testBit (sqSub i (pawnRight Us)) = true := by
  cases Us
  · have h' := testBit_shift_NE.mp h
    show X.testBit (sqSub i NORTH_EAST) = true
    rw [sqSub_ne h'.2.1]
    exact h'.2.2.1
  · have h0 : shiftBB (pawnRight .BLACK) X = (X &&& compl FileABB) >>> 9 := rfl
    rw [h0, Nat.testBit_shiftRight] at h
    show X.testBit (sqSub i SOUTH_WEST) = true
    rw [sqSub_sw, Nat.add_comm]
    exact (testBit_land_iff.mp h).1

/-- The origin square of a pawn capture-left landing bit. -/
theorem shiftBB_left_from {Us : Color} {X : Bitboard} {i : Nat}
    (h : (shiftBB (pawnLeft Us) X).testBit i = true) :
    X.testBit (sqSub i (pawnLeft Us)) = true := by
  cases Us
  · have h' := testBit_shift_NW.mp h
    show X.testBit (sqSub i NORTH_WEST) = true
    rw [sqSub_nw h'.2.1]
    exact h'.2.2.1
  · have h0 : shiftBB (pawnLeft .BLACK) X = (X &&& compl FileHBB) >>> 7 := rfl
    rw [h0, Nat.testBit_shiftRight] at h
    show X.testBit (sqSub i SOUTH_EAST) = true
    rw [sqSub_se, Nat.add_comm]
    exact (testBit_land_iff.mp h).1

end Movegen

namespace Movegen

theorem nodup_flatMap_of {α β : Type} (l : List α) (f : α → List β) (hl : l.Nodup)
    (hf : ∀ a ∈ l, (f a).Nodup)
    (hd : ∀ a ∈ l, ∀ b ∈ l, a ≠ b → (f a).Disjoint (f b)) :
    (l.flatMap f).Nodup := by
  induction l with
  | nil => simp
  | cons x xs ih =>
    rw [List.flatMap_cons]
    have hxxs : x ∉ xs := (List.nodup_cons.mp hl).1
    refine List.Nodup.append (hf x (by simp)) (ih (List.nodup_cons.mp hl).2
      (fun a ha => hf a (by simp [ha])) (fun a ha b hb => hd a (by simp [ha]) b (by simp [hb]))) ?_
    intro m hm1 hm2
    rw [List.mem_flatMap] at hm2
    obtain ⟨y, hy, hmy⟩ := hm2
    exact hd x (by simp) y (by simp [hy]) (fun hxy => hxxs (hxy ▸ hy)) hm1 hmy

theorem make_move_inj {f1 t1 f2 t2 : Square} (h : make_move f1 t1 = make_move f2 t2) :
    f1 = f2 ∧ t1 = t2 := by
  simpa [make_move, Move.mk.injEq] using h

theorem nodup_map_make_move (b : Bitboard) (g : Square → Square) :
    ((bits b).map (fun t => make_move (g t) t)).Nodup := by
  refine List.Nodup.map ?_ (bits_nodup b)
  intro a c h
  exact (make_move_inj h).2

theorem mem_map_make_move {b : Bitboard} {g : Square → Square} {m : Move}
    (h : m ∈ (bits b).map (fun t => make_move (g t) t)) :
    m.mtype = .NORMAL ∧ m.toSq < 64 ∧ b.testBit m.toSq = true ∧ m.fromSq = g m.toSq := by
  rw [List.mem_map] at h
  obtain ⟨t, ht, rfl⟩ := h
  exact ⟨rfl, (mem_bits.mp ht).1, (mem_bits.mp ht).2, rfl⟩

theorem disjoint_map_make_move {b1 b2 : Bitboard} {g1 g2 : Square → Square}
    (hne : ∀ t, t < 64 → b1.testBit t = true → b2.testBit t = true → g1 t ≠ g2 t) :
    ((bits b1).map (fun t => make_move (g1 t) t)).Disjoint
      ((bits b2).map (fun t => make_move (g2 t) t)) := by
  intro m h1 h2
  obtain ⟨-, h1lt, h1bit, h1from⟩ := mem_map_make_move h1
  obtain ⟨-, h2lt, h2bit, h2from⟩ := mem_map_make_move h2
  exact hne m.toSq h1lt h1bit h2bit (h1from.symm.trans h2from)

theorem generate_moves_nodup (V : Variant) (Pt : PieceType) (Checks : Bool) (pos : Position)
    (us : Color) (target : Bitboard) : (generate_moves V Pt Checks pos us target).Nodup := by
  unfold generate_moves
  apply nodup_flatMap_of _ _ (bits_nodup _)
  · intro f _
    split
    · simp
    · exact nodup_map_make_move _ _
  · intro a _ c _ hac m hm1 hm2
    have e1 : m.fromSq = a := by
      split at hm1
      · simp at hm1
      · exact (mem_map_make_move hm1).2.2.2
    have e2 : m.fromSq = c := by
      split at hm2
      · simp at hm2
      · exact (mem_map_make_move hm2).2.2.2
    exact hac (e1.symm.trans e2)

theorem quietCheckDcList_nodup (pos : Position) (us : Color) :
    (quietCheckDcList pos us).Nodup := by
  unfold quietCheckDcList
  apply nodup_flatMap_of _ _ (bits_nodup _)
  · intro f _
    dsimp only
    split
    · simp
    · exact nodup_map_make_move _ _
  · intro a _ c _ hac m hm1 hm2
    dsimp only at hm1 hm2
    have e1 : m.fromSq = a := by
      split at hm1
      · simp at hm1
      · exact (mem_map_make_move hm1).2.2.2
    have e2 : m.fromSq = c := by
      split at hm2
      · simp at hm2
      · exact (mem_map_make_move hm2).2.2.2
    exact hac (e1.symm.trans e2)

end Movegen

namespace Movegen

theorem pawnPushB1_from {V Us T pos target} {i : Nat}
    (h : (pawnPushB1 V Us T pos target).testBit i = true) :
    (shiftBB (pawnUp Us) (pos.piecesCT Us .PAWN)).testBit i = true := by
  have hp7 : ∀ j, (pawnsNotOn7bb pos Us).testBit j = true →
      (pos.piecesCT Us .PAWN).testBit j = true := fun j hj => (testBit_land_iff.mp hj).1
  have h1 := @shiftBB_mono (pawnUp Us) (pawnsNotOn7bb pos Us) (pos.piecesCT Us .PAWN) hp7 i
  have h2 := @shiftBB_mono (pawnUp Us) (pawnsNotOn7bb pos Us &&& pos.dcCandidates)
    (pos.piecesCT Us .PAWN) (fun j hj => hp7 j (testBit_land_iff.mp hj).1) i
  unfold pawnPushB1 at h
  dsimp only at h
  split at h
  · split at h
    · rcases testBit_lor_iff.mp h with h | h
      · have h3 := testBit_landIf (testBit_landIf (testBit_land_iff.mp h).1)
        exact h1 (testBit_land_iff.mp h3).1
      · have hj1 : (shiftBB (pawnUp Us)
            (pawnsNotOn7bb pos Us &&& pos.dcCandidates)).testBit i = true := by
          unfold pawnPushDc1 at h
          exact (testBit_land_iff.mp (testBit_land_iff.mp h).1).1
        exact h2 hj1
    · have h3 := testBit_landIf (testBit_landIf (testBit_land_iff.mp h).1)
      exact h1 (testBit_land_iff.mp h3).1
  · have h3 := testBit_landIf (testBit_landIf h)
    exact h1 (testBit_land_iff.mp h3).1

theorem pawnPushB2_from {V Us T pos target} {i : Nat}
    (h : (pawnPushB2 V Us T pos target).testBit i = true) :
    (shiftBB (pawnUp Us) (shiftBB (pawnUp Us) (pos.piecesCT Us .PAWN))).testBit i = true := by
  have hp7 : ∀ j, (pawnsNotOn7bb pos Us).testBit j = true →
      (pos.piecesCT Us .PAWN).testBit j = true := fun j hj => (testBit_land_iff.mp hj).1
  have hb1 : ∀ (m1 : Bitboard) (j : Nat),
      ((shiftBB (pawnUp Us) (pawnsNotOn7bb pos Us) &&&
        pawnPushEmpty V Us T pos target) &&& m1).testBit j = true →
      (shiftBB (pawnUp Us) (pos.piecesCT Us .PAWN)).testBit j = true :=
    fun m1 j hj => shiftBB_mono hp7 j (testBit_land_iff.mp (testBit_land_iff.mp hj).1).1
  have hdc : ∀ j, (pawnPushDc1 V Us T pos target &&& tRank3 Us).testBit j = true →
      (shiftBB (pawnUp Us) (pos.piecesCT Us .PAWN)).testBit j = true := by
    intro j hj
    have hj1 := (testBit_land_iff.mp hj).1
    unfold pawnPushDc1 at hj1
    exact shiftBB_mono (fun k hk => hp7 k (testBit_land_iff.mp hk).1) j
      (testBit_land_iff.mp (testBit_land_iff.mp hj1).1).1
  have hA1 := @shiftBB_mono (pawnUp Us) _ _ (hb1 (tRank3 Us)) i
  have hA2 := @shiftBB_mono (pawnUp Us) _ _ (hb1 (tRank2 Us ||| tRank3 Us)) i
  have hA3 := @shiftBB_mono (pawnUp Us) _ _ hdc i
  unfold pawnPushB2 at h
  dsimp only at h
  split at h
  · split at h
    · rcases testBit_lor_iff.mp h with h | h
      · have h3 := testBit_landIf (testBit_landIf (testBit_land_iff.mp h).1)
        split at h3
        · exact hA2 (testBit_land_iff.mp h3).1
        · exact hA1 (testBit_land_iff.mp h3).1
      · exact hA3 (testBit_land_iff.mp h).1
    · have h3 := testBit_landIf (testBit_landIf (testBit_land_iff.mp h).1)
      split at h3
      · exact hA2 (testBit_land_iff.mp h3).1
      · exact hA1 (testBit_land_iff.mp h3).1
  · have h3 := testBit_landIf (testBit_landIf h)
    split at h3
    · exact hA2 (testBit_land_iff.mp h3).1
    · exact hA1 (testBit_land_iff.mp h3).1

theorem mem_pawnPushList_decompose {V Us T pos target m}
    (h : m ∈ pawnPushList V Us T pos target) :
    (∃ t, t < 64 ∧ (pawnPushB1 V Us T pos target).testBit t = true ∧
      m = make_move (sqSub t (pawnUp Us)) t) ∨
    (∃ t, t < 64 ∧ (pawnPushB2 V Us T pos target).testBit t = true ∧
      m = make_move (sqSub (sqSub t (pawnUp Us)) (pawnUp Us)) t) := by
  unfold pawnPushList at h
  split at h
  · simp only [List.mem_append, List.mem_map] at h
    rcases h with ⟨t, ht, rfl⟩ | ⟨t, ht, rfl⟩
    · exact Or.inl ⟨t, (mem_bits.mp ht).1, (mem_bits.mp ht).2, rfl⟩
    · exact Or.inr ⟨t, (mem_bits.mp ht).1, (mem_bits.mp ht).2, rfl⟩
  · simp at h

theorem pawnPushList_nodup (V : Variant) (Us : Color) (T : GenType) (pos : Position)
    (target : Bitboard) : (pawnPushList V Us T pos target).Nodup := by
  unfold pawnPushList
  split
  · refine List.Nodup.append (nodup_map_make_move _ _) (nodup_map_make_move _ _)
      (disjoint_map_make_move ?_)
    intro t ht h1 h2 heq
    have hd := pawnPushB2_from h2
    cases Us
    · have e1 := testBit_shift_N.mp hd
      have e2 := testBit_shift_N.mp e1.2.2
      rw [show pawnUp .WHITE = NORTH from rfl] at heq
      rw [sqSub_north e1.2.1, sqSub_north e2.2.1] at heq
      have heqN : (t : Nat) - 8 = t - 8 - 8 := heq
      have hb1 : (8 : Nat) ≤ t := e1.2.1
      have hb2 : (8 : Nat) ≤ t - 8 := e2.2.1
      omega
    · rw [show pawnUp .BLACK = SOUTH from rfl] at heq
      rw [sqSub_south, sqSub_south] at heq
      have heqN : (t : Nat) + 8 = t + 8 + 8 := heq
      omega
  · simp

end Movegen

namespace Movegen

theorem make_promotions_nodup (V : Variant) (T : GenType) (D : Direction) (t ksq : Square) :
    (make_promotions V T D t ksq).Nodup := by
  unfold make_promotions
  cases V <;> cases T <;> (try simp [makePromotion]) <;> (try split) <;> simp

theorem flatMap_promotions_nodup (V : Variant) (T : GenType) (ksq : Square) (D : Direction)
    (b : Bitboard) : ((bits b).flatMap (fun t => make_promotions V T D t ksq)).Nodup := by
  apply nodup_flatMap_of _ _ (bits_nodup b)
  · intro a _
    exact make_promotions_nodup V T D a ksq
  · intro a _ c _ hac m h1 h2
    exact hac ((mem_make_promotions h1).2.1.symm.trans (mem_make_promotions h2).2.1)

theorem disjoint_flatMap_promotions {V T ksq} {b1 b2 : Bitboard} {D1 D2 : Direction}
    (hne : ∀ t, t < 64 → b1.testBit t = true → b2.testBit t = true → sqSub t D1 ≠ sqSub t D2) :
    ((bits b1).flatMap (fun t => make_promotions V T D1 t ksq)).Disjoint
      ((bits b2).flatMap (fun t => make_promotions V T D2 t ksq)) := by
  intro m h1 h2
  rw [List.mem_flatMap] at h1 h2
  obtain ⟨t1, ht1, hm1⟩ := h1
  obtain ⟨t2, ht2, hm2⟩ := h2
  have e1 := mem_make_promotions hm1
  have e2 := mem_make_promotions hm2
  have et : t1 = t2 := e1.2.1.symm.trans e2.2.1
  subst et
  exact hne t1 (mem_bits.mp ht1).1 (mem_bits.mp ht1).2 (mem_bits.mp ht2).2
    (e1.2.2.symm.trans e2.2.2)

theorem pawnPromoList_nodup (V : Variant) (Us : Color) (T : GenType) (pos : Position)
    (target : Bitboard) : (pawnPromoList V Us T pos target).Nodup := by
  unfold pawnPromoList
  split
  · dsimp only
    refine List.Nodup.append
      (List.Nodup.append (flatMap_promotions_nodup V T _ _ _)
        (flatMap_promotions_nodup V T _ _ _) (disjoint_flatMap_promotions ?_))
      (flatMap_promotions_nodup V T _ _ _)
      (List.disjoint_append_left.mpr ⟨disjoint_flatMap_promotions ?_,
        disjoint_flatMap_promotions ?_⟩)
    · intro t ht h1 h2 heq
      have hr := (testBit_land_iff.mp h1).1
      have hl := (testBit_land_iff.mp h2).1
      cases Us
      · have er := testBit_shift_NE.mp hr
        have el := testBit_shift_NW.mp hl
        rw [show pawnRight .WHITE = NORTH_EAST from rfl,
          show pawnLeft .WHITE = NORTH_WEST from rfl] at heq
        rw [sqSub_ne er.2.1, sqSub_nw el.2.1] at heq
        have heqN : (t : Nat) - 9 = t - 7 := heq
        have hb1 : (9 : Nat) ≤ t := er.2.1
        omega
      · rw [show pawnRight .BLACK = SOUTH_WEST from rfl,
          show pawnLeft .BLACK = SOUTH_EAST from rfl] at heq
        rw [sqSub_sw, sqSub_se] at heq
        have heqN : (t : Nat) + 9 = t + 7 := heq
        omega
    · intro t ht h1 h2 heq
      have hr := (testBit_land_iff.mp h1).1
      have hu := (testBit_land_iff.mp h2).1
      cases Us
      · have er := testBit_shift_NE.mp hr
        have eu := testBit_shift_N.mp hu
        rw [show pawnRight .WHITE = NORTH_EAST from rfl,
          show pawnUp .WHITE = NORTH from rfl] at heq
        rw [sqSub_ne er.2.1, sqSub_north eu.2.1] at heq
        have heqN : (t : Nat) - 9 = t - 8 := heq
        have hb1 : (9 : Nat) ≤ t := er.2.1
        omega
      · rw [show pawnRight .BLACK = SOUTH_WEST from rfl,
          show pawnUp .BLACK = SOUTH from rfl] at heq
        rw [sqSub_sw, sqSub_south] at heq
        have heqN : (t : Nat) + 9 = t + 8 := heq
        omega
    · intro t ht h1 h2 heq
      have hl := (testBit_land_iff.mp h1).1
      have hu := (testBit_land_iff.mp h2).1
      cases Us
      · have el := testBit_shift_NW.mp hl
        have eu := testBit_shift_N.mp hu
        rw [show pawnLeft .WHITE = NORTH_WEST from rfl,
          show pawnUp .WHITE = NORTH from rfl] at heq
        rw [sqSub_nw el.2.1, sqSub_north eu.2.1] at heq
        have heqN : (t : Nat) - 7 = t - 8 := heq
        have hb1 : (8 : Nat) ≤ t := eu.2.1
        omega
      · rw [show pawnLeft .BLACK = SOUTH_EAST from rfl,
          show pawnUp .BLACK = SOUTH from rfl] at heq
        rw [sqSub_se, sqSub_south] at heq
        have heqN : (t : Nat) + 7 = t + 8 := heq
        omega
  · simp

end Movegen

namespace Movegen

theorem makeEnpassant_inj {f1 t1 f2 t2 : Square} (h : makeEnpassant f1 t1 = makeEnpassant f2 t2) :
    f1 = f2 ∧ t1 = t2 := by
  simpa [makeEnpassant, Move.mk.injEq] using h

theorem pawnCapList_nodup (Us : Color) (T : GenType) (pos : Position) (target : Bitboard) :
    (pawnCapList Us T pos target).Nodup := by
  unfold pawnCapList
  split
  · dsimp only
    refine List.Nodup.append
      (List.Nodup.append (nodup_map_make_move _ _) (nodup_map_make_move _ _)
        (disjoint_map_make_move ?_)) ?_ ?_
    · intro t ht h1 h2 heq
      have hr := (testBit_land_iff.mp h1).1
      have hl := (testBit_land_iff.mp h2).1
      cases Us
      · have er := testBit_shift_NE.mp hr
        have el := testBit_shift_NW.mp hl
        rw [show pawnRight .WHITE = NORTH_EAST from rfl,
          show pawnLeft .WHITE = NORTH_WEST from rfl] at heq
        rw [sqSub_ne er.2.1, sqSub_nw el.2.1] at heq
        have heqN : (t : Nat) - 9 = t - 7 := heq
        have hb1 : (9 : Nat) ≤ t := er.2.1
        omega
      · rw [show pawnRight .BLACK = SOUTH_WEST from rfl,
          show pawnLeft .BLACK = SOUTH_EAST from rfl] at heq
        rw [sqSub_sw, sqSub_se] at heq
        have heqN : (t : Nat) + 9 = t + 7 := heq
        omega
    · split
      · split
        · simp
        · refine List.Nodup.map ?_ (bits_nodup _)
          intro a c h
          exact (makeEnpassant_inj h).1
      · simp
    · intro m hm1 hm2
      have h1 : m.mtype = .NORMAL := by
        rcases List.mem_append.mp hm1 with h | h
        · exact (mem_map_make_move h).1
        · exact (mem_map_make_move h).1
      have h2 : m.mtype = .ENPASSANT := by
        split at hm2
        · split at hm2
          · simp at hm2
          · obtain ⟨f, -, rfl⟩ := List.mem_map.mp hm2
            rfl
        · simp at hm2
      rw [h1] at h2
      exact absurd h2 (by simp)
  · simp

theorem mem_pawnCapList_decompose {Us T pos target m} (h : m ∈ pawnCapList Us T pos target) :
    (∃ t, t < 64 ∧ (shiftBB (pawnRight Us) (pawnsNotOn7bb pos Us)).testBit t = true ∧
      m = make_move (sqSub t (pawnRight Us)) t) ∨
    (∃ t, t < 64 ∧ (shiftBB (pawnLeft Us) (pawnsNotOn7bb pos Us)).testBit t = true ∧
      m = make_move (sqSub t (pawnLeft Us)) t) ∨
    (m.mtype = .ENPASSANT ∧ m.fromSq < 64 ∧ (pawnsNotOn7bb pos Us).testBit m.fromSq = true) := by
  unfold pawnCapList at h
  split at h
  · dsimp only at h
    simp only [List.mem_append, List.mem_map] at h
    rcases h with (⟨t, ht, rfl⟩ | ⟨t, ht, rfl⟩) | h
    · exact Or.inl ⟨t, (mem_bits.mp ht).1, (testBit_land_iff.mp (mem_bits.mp ht).2).1, rfl⟩
    · exact Or.inr (Or.inl ⟨t, (mem_bits.mp ht).1,
        (testBit_land_iff.mp (mem_bits.mp ht).2).1, rfl⟩)
    · split at h
      · split at h
        · simp at h
        · simp only [List.mem_map] at h
          obtain ⟨f, hf, rfl⟩ := h
          exact Or.inr (Or.inr ⟨rfl, (mem_bits.mp hf).1,
            (testBit_land_iff.mp (mem_bits.mp hf).2).1⟩)
      · simp at h
  · simp at h

theorem mem_pawnPromoList_decompose {V Us T pos target m}
    (h : m ∈ pawnPromoList V Us T pos target) :
    ∃ D t, (D = pawnRight Us ∨ D = pawnLeft Us ∨ D = pawnUp Us) ∧ t < 64 ∧
      (shiftBB D (pawnsOn7bb pos Us)).testBit t = true ∧
      m ∈ make_promotions V T D t (pos.kingSq Us.opp) := by
  unfold pawnPromoList at h
  split at h
  · dsimp only at h
    simp only [List.mem_append, List.mem_flatMap] at h
    rcases h with (⟨t, ht, hm⟩ | ⟨t, ht, hm⟩) | ⟨t, ht, hm⟩
    · exact ⟨_, t, Or.inl rfl, (mem_bits.mp ht).1,
        (testBit_land_iff.mp (mem_bits.mp ht).2).1, hm⟩
    · exact ⟨_, t, Or.inr (Or.inl rfl), (mem_bits.mp ht).1,
        (testBit_land_iff.mp (mem_bits.mp ht).2).1, hm⟩
    · exact ⟨_, t, Or.inr (Or.inr rfl), (mem_bits.mp ht).1,
        (testBit_land_iff.mp (mem_bits.mp ht).2).1, hm⟩
  · simp at h

end Movegen

namespace Movegen

theorem up_ne_right {Us : Color} {X Y : Bitboard} {t : Nat}
    (hU : (shiftBB (pawnUp Us) X).testBit t = true)
    (hR : (shiftBB (pawnRight Us) Y).testBit t = true) :
    sqSub t (pawnUp Us) ≠ sqSub t (pawnRight Us) := by
  cases Us
  · have eu := testBit_shift_N.mp hU
    have er := testBit_shift_NE.mp hR
    rw [show pawnUp .WHITE = NORTH from rfl, show pawnRight .WHITE = NORTH_EAST from rfl]
    rw [sqSub_north eu.2.1, sqSub_ne er.2.1]
    intro hq
    have hN : (t : Nat) - 8 = t - 9 := hq
    have h9 : (9 : Nat) ≤ t := er.2.1
    omega
  · rw [show pawnUp .BLACK = SOUTH from rfl, show pawnRight .BLACK = SOUTH_WEST from rfl]
    rw [sqSub_south, sqSub_sw]
    intro hq
    have hN : (t : Nat) + 8 = t + 9 := hq
    omega

theorem up_ne_left {Us : Color} {X Y : Bitboard} {t : Nat}
    (hU : (shiftBB (pawnUp Us) X).testBit t = true)
    (hL : (shiftBB (pawnLeft Us) Y).testBit t = true) :
    sqSub t (pawnUp Us) ≠ sqSub t (pawnLeft Us) := by
  cases Us
  · have eu := testBit_shift_N.mp hU
    have el := testBit_shift_NW.mp hL
    rw [show pawnUp .WHITE = NORTH from rfl, show pawnLeft .WHITE = NORTH_WEST from rfl]
    rw [sqSub_north eu.2.1, sqSub_nw el.2.1]
    intro hq
    have hN : (t : Nat) - 8 = t - 7 := hq
    have h8 : (8 : Nat) ≤ t := eu.2.1
    omega
  · rw [show pawnUp .BLACK = SOUTH from rfl, show pawnLeft .BLACK = SOUTH_EAST from rfl]
    rw [sqSub_south, sqSub_se]
    intro hq
    have hN : (t : Nat) + 8 = t + 7 := hq
    omega

theorem up2_ne_right {Us : Color} {X Y : Bitboard} {t : Nat}
    (hU : (shiftBB (pawnUp Us) (shiftBB (pawnUp Us) X)).testBit t = true)
    (hR : (shiftBB (pawnRight Us) Y).testBit t = true) :
    sqSub (sqSub t (pawnUp Us)) (pawnUp Us) ≠ sqSub t (pawnRight Us) := by
  cases Us
  · have e1 := testBit_shift_N.mp hU
    have e2 := testBit_shift_N.mp e1.2.2
    have er := testBit_shift_NE.mp hR
    rw [show pawnUp .WHITE = NORTH from rfl, show pawnRight .WHITE = NORTH_EAST from rfl]
    rw [sqSub_north e1.2.1, sqSub_north e2.2.1, sqSub_ne er.2.1]
    intro hq
    have hN : (t : Nat) - 8 - 8 = t - 9 := hq
    have h1 : (8 : Nat) ≤ t := e1.2.1
    have h2 : (8 : Nat) ≤ t - 8 := e2.2.1
    omega
  · rw [show pawnUp .BLACK = SOUTH from rfl, show pawnRight .BLACK = SOUTH_WEST from rfl]
    rw [sqSub_south, sqSub_south, sqSub_sw]
    intro hq
    have hN : (t : Nat) + 8 + 8 = t + 9 := hq
    omega

theorem up2_ne_left {Us : Color} {X Y : Bitboard} {t : Nat}
    (hU : (shiftBB (pawnUp Us) (shiftBB (pawnUp Us) X)).testBit t = true)
    (hL : (shiftBB (pawnLeft Us) Y).testBit t = true) :
    sqSub (sqSub t (pawnUp Us)) (pawnUp Us) ≠ sqSub t (pawnLeft Us) := by
  cases Us
  · have e1 := testBit_shift_N.mp hU
    have e2 := testBit_shift_N.mp e1.2.2
    have el := testBit_shift_NW.mp hL
    rw [show pawnUp .WHITE = NORTH from rfl, show pawnLeft .WHITE = NORTH_WEST from rfl]
    rw [sqSub_north e1.2.1, sqSub_north e2.2.1, sqSub_nw el.2.1]
    intro hq
    have hN : (t : Nat) - 8 - 8 = t - 7 := hq
    have h1 : (8 : Nat) ≤ t := e1.2.1
    have h2 : (8 : Nat) ≤ t - 8 := e2.2.1
    omega
  · rw [show pawnUp .BLACK = SOUTH from rfl, show pawnLeft .BLACK = SOUTH_EAST from rfl]
    rw [sqSub_south, sqSub_south, sqSub_se]
    intro hq
    have hN : (t : Nat) + 8 + 8 = t + 7 := hq
    omega

theorem generate_pawn_moves_nodup (V : Variant) (Us : Color) (T : GenType) (pos : Position)
    (target : Bitboard) : (generate_pawn_moves V Us T pos target).Nodup := by
  unfold generate_pawn_moves
  refine List.Nodup.append (List.Nodup.append (pawnPushList_nodup V Us T pos target)
    (pawnPromoList_nodup V Us T pos target) ?_) (pawnCapList_nodup Us T pos target) ?_
  · intro m h1 h2
    have k1 := mem_pawnPushList h1
    obtain ⟨D, t, -, -, -, hm⟩ := mem_pawnPromoList_decompose h2
    have k2 := (mem_make_promotions hm).1
    rw [k1] at k2
    exact absurd k2 (by simp)
  · intro m h12 hc
    rcases List.mem_append.mp h12 with hp | hp
    · rcases mem_pawnCapList_decompose hc with ⟨t2, ht2, hbit2, he2⟩ |
        ⟨t2, ht2, hbit2, he2⟩ | ⟨hk, -, -⟩
      · rcases mem_pawnPushList_decompose hp with ⟨t1, ht1, hbit1, he1⟩ |
          ⟨t1, ht1, hbit1, he1⟩
        · obtain ⟨hf, htt⟩ := make_move_inj (he1.symm.trans he2)
          subst htt
          exact up_ne_right (pawnPushB1_from hbit1) hbit2 hf
        · obtain ⟨hf, htt⟩ := make_move_inj (he1.symm.trans he2)
          subst htt
          exact up2_ne_right (pawnPushB2_from hbit1) hbit2 hf
      · rcases mem_pawnPushList_decompose hp with ⟨t1, ht1, hbit1, he1⟩ |
          ⟨t1, ht1, hbit1, he1⟩
        · obtain ⟨hf, htt⟩ := make_move_inj (he1.symm.trans he2)
          subst htt
          exact up_ne_left (pawnPushB1_from hbit1) hbit2 hf
        · obtain ⟨hf, htt⟩ := make_move_inj (he1.symm.trans he2)
          subst htt
          exact up2_ne_left (pawnPushB2_from hbit1) hbit2 hf
      · have k1 := mem_pawnPushList hp
        rw [k1] at hk
        exact absurd hk (by simp)
    · obtain ⟨D, t, -, -, -, hm⟩ := mem_pawnPromoList_decompose hp
      have k1 := (mem_make_promotions hm).1
      rcases mem_pawnCapList_decompose hc with ⟨t2, -, -, he2⟩ | ⟨t2, -, -, he2⟩ | ⟨hk, -, -⟩
      · rw [he2] at k1
        exact absurd k1 (by simp [make_move])
      · rw [he2] at k1
        exact absurd k1 (by simp [make_move])
      · rw [k1] at hk
        exact absurd hk (by simp)

theorem mem_generate_pawn_from {V Us T pos target m}
    (h : m ∈ generate_pawn_moves V Us T pos target) :
    (pos.piecesCT Us .PAWN).testBit m.fromSq = true := by
  unfold generate_pawn_moves at h
  rcases List.mem_append.mp h with h12 | hc
  · rcases List.mem_append.mp h12 with hp | hq
    · rcases mem_pawnPushList_decompose hp with ⟨t, -, hbit, rfl⟩ | ⟨t, -, hbit, rfl⟩
      · exact shiftBB_up_from (pawnPushB1_from hbit)
      · exact shiftBB_up_from (shiftBB_up_from (pawnPushB2_from hbit))
    · obtain ⟨D, t, hD, -, hbit, hm⟩ := mem_pawnPromoList_decompose hq
      have hfrom := (mem_make_promotions hm).2.2
      rw [hfrom]
      have hsub : (pawnsOn7bb pos Us).testBit (sqSub t D) = true := by
        rcases hD with rfl | rfl | rfl
        · exact shiftBB_right_from hbit
        · exact shiftBB_left_from hbit
        · exact shiftBB_up_from hbit
      exact (testBit_land_iff.mp hsub).1
  · rcases mem_pawnCapList_decompose hc with ⟨t, -, hbit, rfl⟩ | ⟨t, -, hbit, rfl⟩ |
      ⟨-, -, hbit⟩
    · exact (testBit_land_iff.mp (shiftBB_right_from hbit)).1
    · exact (testBit_land_iff.mp (shiftBB_left_from hbit)).1
    · exact (testBit_land_iff.mp hbit).1

end Movegen

namespace Movegen

theorem kingMovesList_nodup (V : Variant) (Us : Color) (T : GenType) (pos : Position)
    (target : Bitboard) : (kingMovesList V Us T pos target).Nodup := by
  unfold kingMovesList
  split
  · apply nodup_flatMap_of _ _ (bits_nodup _)
    · intro f _
      exact nodup_map_make_move _ _
    · intro a _ c _ hac m h1 h2
      exact hac ((mem_map_make_move h1).2.2.2.symm.trans (mem_map_make_move h2).2.2.2)
  · split
    · exact nodup_map_make_move _ _
    · simp

theorem mem_kingMovesList_from {V Us T pos target m} (h : m ∈ kingMovesList V Us T pos target) :
    m.mtype = .NORMAL ∧
      ((pos.piecesCT Us .KING).testBit m.fromSq = true ∨ m.fromSq = pos.kingSq Us) := by
  unfold kingMovesList at h
  split at h
  · simp only [List.mem_flatMap] at h
    obtain ⟨k, hk, hm⟩ := h
    have hd := mem_map_make_move hm
    refine ⟨hd.1, Or.inl ?_⟩
    rw [hd.2.2.2]
    exact (mem_bits.mp hk).2
  · split at h
    · have hd := mem_map_make_move h
      exact ⟨hd.1, Or.inr hd.2.2.2⟩
    · simp at h

theorem generate_drops_nodup (Us : Color) (Pt : PieceType) (Checks : Bool) (pos : Position)
    (b : Bitboard) : (generate_drops Us Pt Checks pos b).Nodup := by
  unfold generate_drops
  split
  · split <;>
      (refine List.Nodup.map ?_ (bits_nodup _)
       intro a c h
       simpa [make_drop, Move.mk.injEq] using h)
  · simp

theorem dropList_nodup (V : Variant) (Us : Color) (T : GenType) (pos : Position)
    (target : Bitboard) : (dropList V Us T pos target).Nodup := by
  unfold dropList
  split
  · dsimp only
    have hpt : ∀ (Pt : PieceType) (bb : Bitboard) (m : Move),
        m ∈ generate_drops Us Pt (T = .QUIET_CHECKS) pos bb → m.dropPt = Pt :=
      fun Pt bb m hm => (mem_generate_drops hm).2.1
    refine List.Nodup.append (List.Nodup.append (List.Nodup.append (List.Nodup.append
      (generate_drops_nodup _ _ _ _ _) (generate_drops_nodup _ _ _ _ _) ?_)
      (generate_drops_nodup _ _ _ _ _) ?_) (generate_drops_nodup _ _ _ _ _) ?_)
      (generate_drops_nodup _ _ _ _ _) ?_
    · intro m h1 h2
      have e1 := hpt _ _ _ h1
      have e2 := hpt _ _ _ h2
      rw [e1] at e2
      exact absurd e2 (by decide)
    · intro m h1 h2
      have e2 := hpt _ _ _ h2
      rcases List.mem_append.mp h1 with h | h <;>
        (have e1 := hpt _ _ _ h; rw [e1] at e2; exact absurd e2 (by decide))
    · intro m h1 h2
      have e2 := hpt _ _ _ h2
      rcases List.mem_append.mp h1 with h | h
      · rcases List.mem_append.mp h with h' | h' <;>
          (have e1 := hpt _ _ _ h'; rw [e1] at e2; exact absurd e2 (by decide))
      · have e1 := hpt _ _ _ h
        rw [e1] at e2
        exact absurd e2 (by decide)
    · intro m h1 h2
      have e2 := hpt _ _ _ h2
      rcases List.mem_append.mp h1 with h | h
      · rcases List.mem_append.mp h with h' | h'
        · rcases List.mem_append.mp h' with h'' | h'' <;>
            (have e1 := hpt _ _ _ h''; rw [e1] at e2; exact absurd e2 (by decide))
        · have e1 := hpt _ _ _ h'
          rw [e1] at e2
          exact absurd e2 (by decide)
      · have e1 := hpt _ _ _ h
        rw [e1] at e2
        exact absurd e2 (by decide)
  · simp

theorem generate_castling_nodup (V : Variant) (Cr : CastlingRight) (Checks C960 : Bool)
    (pos : Position) (us : Color) : (generate_castling V Cr Checks C960 pos us).Nodup := by
  unfold generate_castling
  dsimp only
  split_ifs <;> simp

theorem mem_generate_castling_rook {V Cr Checks C960 pos us m}
    (h : m ∈ generate_castling V Cr Checks C960 pos us) :
    m.toSq = pos.castlingRookSq Cr := by
  unfold generate_castling at h
  dsimp only at h
  split_ifs at h
  all_goals
    first
      | exact absurd h (List.not_mem_nil m)
      | (rw [List.mem_singleton] at h; subst h; rfl)

theorem castleList_nodup (V : Variant) (Us : Color) (T : GenType) (pos : Position)
    (hRook : pos.castlingRookSq (mkCastlingRight Us true) ≠
      pos.castlingRookSq (mkCastlingRight Us false)) : (castleList V Us T pos).Nodup := by
  unfold castleList
  split
  · refine List.Nodup.append (generate_castling_nodup _ _ _ _ _ _)
      (generate_castling_nodup _ _ _ _ _ _) ?_
    intro m h1 h2
    have e1 := mem_generate_castling_rook h1
    have e2 := mem_generate_castling_rook h2
    exact hRook (e1.symm.trans e2)
  · simp

end Movegen

namespace Movegen

theorem generate_all_nodup (V : Variant) (Us : Color) (T : GenType) (pos : Position)
    (target : Bitboard)
    (hTypeDisj : ∀ pt1 pt2 : PieceType, pt1 ≠ pt2 → pos.byType pt1 &&& pos.byType pt2 = 0)
    (hKingClean : ∀ pt : PieceType, pt ≠ .KING →
      (pos.piecesCT Us pt).testBit (pos.kingSq Us) = false)
    (hRook : pos.castlingRookSq (mkCastlingRight Us true) ≠
      pos.castlingRookSq (mkCastlingRight Us false)) :
    (generate_all V Us T pos target).Nodup := by
  have hclash : ∀ pt1 pt2 : PieceType, pt1 ≠ pt2 → ∀ f : Nat,
      (pos.piecesCT Us pt1).testBit f = true → (pos.piecesCT Us pt2).testBit f = true →
      False := by
    intro pt1 pt2 hne f hf1 hf2
    exact land_eq_zero_iff.mp (hTypeDisj pt1 pt2 hne) f
      ⟨(testBit_land_iff.mp hf1).2, (testBit_land_iff.mp hf2).2⟩
  have hksq : ∀ pt : PieceType, pt ≠ .KING → ∀ f : Nat,
      (pos.piecesCT Us pt).testBit f = true → f = pos.kingSq Us → False := by
    intro pt hne f hf he
    rw [he, hKingClean pt hne] at hf
    exact Bool.false_ne_true hf
  have hpawnK : ∀ m, m ∈ generate_pawn_moves V Us T pos target →
      m.mtype = .NORMAL ∨ m.mtype = .PROMOTION ∨ m.mtype = .ENPASSANT := fun m hm =>
    mem_pawn_kinds hm
  unfold generate_all
  refine List.Nodup.append (List.Nodup.append (List.Nodup.append (List.Nodup.append
    (List.Nodup.append (List.Nodup.append (List.Nodup.append
      (generate_pawn_moves_nodup V Us T pos target)
      (generate_moves_nodup V .KNIGHT _ pos Us target) ?_)
      (generate_moves_nodup V .BISHOP _ pos Us target) ?_)
      (generate_moves_nodup V .ROOK _ pos Us target) ?_)
      (generate_moves_nodup V .QUEEN _ pos Us target) ?_)
      (dropList_nodup V Us T pos target) ?_)
      (kingMovesList_nodup V Us T pos target) ?_)
    ?_ ?_
  · intro m h1 h2
    exact hclash .PAWN .KNIGHT (by decide) m.fromSq (mem_generate_pawn_from h1)
      (mem_generate_moves h2).2.1
  · intro m h1 h2
    have hB := (mem_generate_moves h2).2.1
    rcases List.mem_append.mp h1 with h | h
    · exact hclash .PAWN .BISHOP (by decide) m.fromSq (mem_generate_pawn_from h) hB
    · exact hclash .KNIGHT .BISHOP (by decide) m.fromSq (mem_generate_moves h).2.1 hB
  · intro m h1 h2
    have hB := (mem_generate_moves h2).2.1
    rcases List.mem_append.mp h1 with h | h
    · rcases List.mem_append.mp h with h' | h'
      · exact hclash .PAWN .ROOK (by decide) m.fromSq (mem_generate_pawn_from h') hB
      · exact hclash .KNIGHT .ROOK (by decide) m.fromSq (mem_generate_moves h').2.1 hB
    · exact hclash .BISHOP .ROOK (by decide) m.fromSq (mem_generate_moves h).2.1 hB
  · intro m h1 h2
    have hB := (mem_generate_moves h2).2.1
    rcases List.mem_append.mp h1 with h | h
    · rcases List.mem_append.mp h with h' | h'
      · rcases List.mem_append.mp h' with h'' | h''
        · exact hclash .PAWN .QUEEN (by decide) m.fromSq (mem_generate_pawn_from h'') hB
        · exact hclash .KNIGHT .QUEEN (by decide) m.fromSq (mem_generate_moves h'').2.1 hB
      · exact hclash .BISHOP .QUEEN (by decide) m.fromSq (mem_generate_moves h').2.1 hB
    · exact hclash .ROOK .QUEEN (by decide) m.fromSq (mem_generate_moves h).2.1 hB
  · intro m h1 h2
    have hD := mem_dropList h2
    simp only [List.mem_append] at h1
    rcases h1 with (((hp | h) | h) | h) | h
    · rcases hpawnK m hp with hk | hk | hk <;>
        (rw [hk] at hD; exact absurd hD (by decide))
    all_goals
      (have hk := (mem_generate_moves h).1
       rw [hk] at hD
       exact absurd hD (by decide))
  · intro m h1 h2
    obtain ⟨hkN, hkf⟩ := mem_kingMovesList_from h2
    simp only [List.mem_append] at h1
    rcases h1 with ((((hp | h) | h) | h) | h) | h
    · rcases hkf with hbb | he
      · exact hclash .PAWN .KING (by decide) m.fromSq (mem_generate_pawn_from hp) hbb
      · exact hksq .PAWN (by decide) m.fromSq (mem_generate_pawn_from hp) he
    · rcases hkf with hbb | he
      · exact hclash .KNIGHT .KING (by decide) m.fromSq (mem_generate_moves h).2.1 hbb
      · exact hksq .KNIGHT (by decide) m.fromSq (mem_generate_moves h).2.1 he
    · rcases hkf with hbb | he
      · exact hclash .BISHOP .KING (by decide) m.fromSq (mem_generate_moves h).2.1 hbb
      · exact hksq .BISHOP (by decide) m.fromSq (mem_generate_moves h).2.1 he
    · rcases hkf with hbb | he
      · exact hclash .ROOK .KING (by decide) m.fromSq (mem_generate_moves h).2.1 hbb
      · exact hksq .ROOK (by decide) m.fromSq (mem_generate_moves h).2.1 he
    · rcases hkf with hbb | he
      · exact hclash .QUEEN .KING (by decide) m.fromSq (mem_generate_moves h).2.1 hbb
      · exact hksq .QUEEN (by decide) m.fromSq (mem_generate_moves h).2.1 he
    · have hD := mem_dropList h
      rw [hD] at hkN
      exact absurd hkN (by decide)
  · split
    · simp
    · split
      · simp
      · exact castleList_nodup V Us T pos hRook
  · intro m h1 h2
    have hC : m.mtype = .CASTLING := by
      split at h2
      · simp at h2
      · split at h2
        · simp at h2
        · exact mem_castleList h2
    simp only [List.mem_append] at h1
    rcases h1 with (((((hp | h) | h) | h) | h) | hd) | hk
    · rcases hpawnK m hp with hk | hk | hk <;>
        (rw [hk] at hC; exact absurd hC (by decide))
    · have hk := (mem_generate_moves h).1
      rw [hk] at hC
      exact absurd hC (by decide)
    · have hk := (mem_generate_moves h).1
      rw [hk] at hC
      exact absurd hC (by decide)
    · have hk := (mem_generate_moves h).1
      rw [hk] at hC
      exact absurd hC (by decide)
    · have hk := (mem_generate_moves h).1
      rw [hk] at hC
      exact absurd hC (by decide)
    · have hk := mem_dropList hd
      rw [hk] at hC
      exact absurd hC (by decide)
    · have hk := (mem_kingMovesList_from hk).1
      rw [hk] at hC
      exact absurd hC (by decide)

end Movegen

namespace Movegen

theorem generateMain_nodup (T : GenType) (pos : Position)
    (hTypeDisj : ∀ pt1 pt2 : PieceType, pt1 ≠ pt2 → pos.byType pt1 &&& pos.byType pt2 = 0)
    (hKingClean : ∀ pt : PieceType, pt ≠ .KING →
      (pos.piecesCT pos.sideToMove pt).testBit (pos.kingSq pos.sideToMove) = false)
    (hRook : pos.castlingRookSq (mkCastlingRight pos.sideToMove true) ≠
      pos.castlingRookSq (mkCastlingRight pos.sideToMove false)) :
    (generateMain T pos).Nodup := by
  unfold generateMain
  dsimp only
  split <;> exact generate_all_nodup _ _ _ _ _ hTypeDisj hKingClean hRook

theorem land_sqbb_ne_zero {b : Nat} {f : Nat} (hf : f < 64) (hb : b.testBit f = true) :
    b &&& sqbb f ≠ 0 := by
  intro h0
  exact land_eq_zero_iff.mp h0 f ⟨hb, testBit_sqbb.mpr ⟨hf, rfl⟩⟩

theorem mem_generate_moves_noskip {V Pt Checks pos us target m}
    (h : m ∈ generate_moves V Pt Checks pos us target) :
    ¬ pieceSkip Pt Checks pos target m.fromSq := by
  unfold generate_moves at h
  simp only [List.mem_flatMap] at h
  obtain ⟨f, hf, hm⟩ := h
  split at hm
  · simp at hm
  · obtain ⟨t, -, rfl⟩ := List.mem_map.mp hm
    assumption

theorem kingMovesList_qc_nil {V Us pos target} (hV : V ≠ .ANTI) :
    kingMovesList V Us .QUIET_CHECKS pos target = [] := by
  unfold kingMovesList
  rw [if_neg hV, if_neg]
  simp

theorem generateQuietChecks_nodup (pos : Position)
    (hTypeDisj : ∀ pt1 pt2 : PieceType, pt1 ≠ pt2 → pos.byType pt1 &&& pos.byType pt2 = 0)
    (hKingClean : ∀ pt : PieceType, pt ≠ .KING →
      (pos.piecesCT pos.sideToMove pt).testBit (pos.kingSq pos.sideToMove) = false)
    (hRook : pos.castlingRookSq (mkCastlingRight pos.sideToMove true) ≠
      pos.castlingRookSq (mkCastlingRight pos.sideToMove false))
    (hPieceOn : ∀ s : Nat, s < 64 → (pos.byType .PAWN).testBit s = true →
      pos.pieceOnF s = .PAWN)
    (hbW : pos.byColor .WHITE < 2 ^ 64) (hbB : pos.byColor .BLACK < 2 ^ 64) :
    (generateQuietChecks pos).Nodup := by
  unfold generateQuietChecks
  split
  · simp
  · dsimp only
    rename_i hguard
    have hVne : pos.variant ≠ .ANTI := fun h => hguard (Or.inl h)
    have hbUs : pos.byColor pos.sideToMove < 2 ^ 64 := by
      cases hc : pos.sideToMove
      · exact hbW
      · exact hbB
    refine List.Nodup.append (quietCheckDcList_nodup pos _)
      (generate_all_nodup _ _ _ _ _ hTypeDisj hKingClean hRook) ?_
    intro m h1 h2
    obtain ⟨hN, hdc, hnp⟩ := mem_quietCheckDcList h1
    rcases mem_generate_all h2 with hp | ⟨Pt, hPts, hpc⟩ | hd | hk | hc
    · have hfrom := mem_generate_pawn_from hp
      have hcol := (testBit_land_iff.mp hfrom).1
      have hflt : m.fromSq < 64 := by
        by_contra hge
        rw [testBit_high_false hbUs (Nat.le_of_not_lt hge)] at hcol
        exact Bool.false_ne_true hcol
      exact hnp (hPieceOn m.fromSq hflt (testBit_land_iff.mp hfrom).2)
    · have hskip := mem_generate_moves_noskip hpc
      have hflt := (mem_generate_moves hpc).2.2.1
      exact hskip ⟨by rfl, Or.inr (land_sqbb_ne_zero hflt hdc)⟩
    · have hDk := mem_dropList hd
      rw [hDk] at hN
      exact absurd hN (by decide)
    · rw [kingMovesList_qc_nil hVne] at hk
      simp at hk
    · have hCk := mem_castleList hc
      rw [hCk] at hN
      exact absurd hN (by decide)

end Movegen

namespace Movegen

theorem not_testBit_eq_false {b : Nat} {i : Nat} (h : ¬ b.testBit i = true) :
    b.testBit i = false := by
  cases hb : b.testBit i
  · rfl
  · exact absurd hb h

theorem land_ne_zero {a b : Nat} (h : a &&& b ≠ 0) :
    ∃ i, a.testBit i = true ∧ b.testBit i = true := by
  by_contra hng
  push_neg at hng
  refine h (land_eq_zero_iff.mpr ?_)
  intro i hi
  exact hng i hi.1 hi.2

theorem piecesC_sub_pieces {pos : Position} {c : Color} {i : Nat}
    (h : (pos.piecesC c).testBit i = true) : pos.pieces.testBit i = true := by
  unfold Position.piecesC at h
  unfold Position.pieces
  cases c
  · exact testBit_lor_iff.mpr (Or.inl h)
  · exact testBit_lor_iff.mpr (Or.inr h)

theorem pawnPushList_captures_nil (V : Variant) (Us : Color) (pos : Position)
    (target : Bitboard) : pawnPushList V Us .CAPTURES pos target = [] := by
  unfold pawnPushList
  simp

theorem castleList_captures (V : Variant) (Us : Color) (pos : Position) :
    castleList V Us .CAPTURES pos = [] := by
  unfold castleList
  rw [if_neg]
  rintro ⟨h1, -⟩
  exact h1 rfl

theorem castleList_evasions (V : Variant) (Us : Color) (pos : Position) :
    castleList V Us .EVASIONS pos = [] := by
  unfold castleList
  rw [if_neg]
  rintro ⟨-, h2, -⟩
  exact h2 rfl

theorem kingMovesList_ev_nil {V Us pos target} (hV : V ≠ .ANTI) :
    kingMovesList V Us .EVASIONS pos target = [] := by
  unfold kingMovesList
  rw [if_neg hV, if_neg]
  simp

theorem kingDestBB_plain {V Us T pos target} (h1 : V ≠ .RACE) (h2 : V ≠ .RELAY) :
    kingDestBB V Us T pos target =
      pos.attacksFromF .KING (pos.kingSq Us) &&& target := by
  unfold kingDestBB
  dsimp only
  rw [if_neg h2, if_neg (fun hc => h1 hc.1)]
  unfold unionIf
  rw [if_neg (fun hc => h1 hc.1)]

theorem pawnPromoEmpty_atomic_captures {us : Color} {pos : Position} {target : Bitboard}
    (hchk : pos.checkersBB ≠ 0) :
    pawnPromoEmpty .ATOMIC us .CAPTURES pos target = compl pos.pieces &&& target := by
  have h0 : pawnPromoEmpty .ATOMIC us .CAPTURES pos target =
      if GenType.CAPTURES = GenType.CAPTURES ∧ Variant.ATOMIC = Variant.ATOMIC ∧
        pos.checkersBB ≠ 0 then compl pos.pieces &&& target else compl pos.pieces := rfl
  rw [h0, if_pos ⟨rfl, rfl, hchk⟩]

theorem pawnPromoEmpty_atomic_evasions {us : Color} {pos : Position} {target : Bitboard} :
    pawnPromoEmpty .ATOMIC us .EVASIONS pos target = compl pos.pieces &&& target := rfl

theorem mem_pawnCapList_ep {Us T pos target m} (h : m ∈ pawnCapList Us T pos target)
    (hk : m.mtype = .ENPASSANT) :
    pos.epSq ≠ SQ_NONE ∧
      ¬ (T = .EVASIONS ∧ target &&& sqbb (sqSub pos.epSq (pawnUp Us)) = 0) := by
  unfold pawnCapList at h
  split at h
  · dsimp only at h
    simp only [List.mem_append, List.mem_map] at h
    rcases h with (⟨t, ht, rfl⟩ | ⟨t, ht, rfl⟩) | h
    · exact absurd hk (by simp [make_move])
    · exact absurd hk (by simp [make_move])
    · split at h
      · split at h
        · simp at h
        · rename_i hep hgate
          exact ⟨hep, hgate⟩
      · simp at h
  · simp at h

theorem atomic_subpass_to {us : Color} {pos : Position} {target0 : Bitboard} {m : Move}
    (hchk : pos.checkersBB ≠ 0)
    (hsub : ∀ i : Nat, target0.testBit i = true → pos.pieces.testBit i = true)
    (h : m ∈ generate_all .ATOMIC us .CAPTURES pos target0) :
    (m.toSq < 64 ∧ pos.pieces.testBit m.toSq = true) ∨ m.mtype = .ENPASSANT := by
  rcases mem_generate_all h with hp | ⟨Pt, -, hpc⟩ | hd | hk | hc
  · rcases mem_generate_pawn_moves hp with h1 | h1 | h1
    · rw [pawnPushList_captures_nil] at h1
      simp at h1
    · obtain ⟨D, t, hm, ht, hor⟩ := mem_pawnPromoList_to h1
      have hto := (mem_make_promotions hm).2.1
      refine Or.inl ⟨by rw [hto]; exact ht, ?_⟩
      rw [hto]
      rcases hor with he | he
      · rw [show pawnEnemies us .CAPTURES pos target0 = target0 from rfl] at he
        exact hsub t he
      · rw [pawnPromoEmpty_atomic_captures hchk] at he
        exact hsub t (testBit_land_iff.mp he).2
    · rcases mem_pawnCapList_to h1 with ⟨hN, hlt, he⟩ | ⟨hEPk, -⟩
      · rw [show pawnEnemies us .CAPTURES pos target0 = target0 from rfl] at he
        exact Or.inl ⟨hlt, hsub _ he⟩
      · exact Or.inr hEPk
  · have hm := mem_generate_moves hpc
    exact Or.inl ⟨hm.2.2.2.1, hsub _ hm.2.2.2.2.1⟩
  · rw [dropList_eq_nil (by decide)] at hd
    simp at hd
  · unfold kingMovesList at hk
    rw [if_neg (by decide), if_pos ⟨by decide, by decide⟩] at hk
    have hmm := mem_map_make_move hk
    rw [kingDestBB_plain (by decide) (by decide)] at hmm
    exact Or.inl ⟨hmm.2.1, hsub _ (testBit_land_iff.mp hmm.2.2.1).2⟩
  · rw [castleList_captures] at hc
    simp at hc

theorem atomic_main_to {us : Color} {pos : Position} {target : Bitboard} {m : Move}
    (hpl : pos.pieces < 2 ^ 64)
    (htg : target &&& pos.pieces = 0)
    (hEp' : pos.epSq ≠ SQ_NONE → pos.pieces.testBit (sqSub pos.epSq (pawnUp us)) = true)
    (h : m ∈ generate_all .ATOMIC us .EVASIONS pos target) :
    m.toSq < 64 ∧ pos.pieces.testBit m.toSq = false ∧ m.mtype ≠ .ENPASSANT := by
  rcases mem_generate_all h with hp | ⟨Pt, -, hpc⟩ | hd | hk | hc
  · rcases mem_generate_pawn_moves hp with h1 | h1 | h1
    · have hto := mem_pawnPushList_to h1
      rw [show pawnPushEmpty .ATOMIC us .EVASIONS pos target = compl pos.pieces from rfl] at hto
      exact ⟨hto.1, ((testBit_compl_iff hpl).mp hto.2).2,
        fun hx => absurd ((mem_pawnPushList h1).symm.trans hx) (by decide)⟩
    · obtain ⟨D, t, hm, ht, hor⟩ := mem_pawnPromoList_to h1
      have hto := (mem_make_promotions hm).2.1
      rw [hto]
      have hkind : m.mtype ≠ .ENPASSANT :=
        fun hx => absurd ((mem_make_promotions hm).1.symm.trans hx) (by decide)
      rcases hor with he | he
      · rw [show pawnEnemies us .EVASIONS pos target = pos.piecesC us.opp &&& target
            from rfl] at he
        exact ⟨ht, not_testBit_eq_false
          (testBit_of_land_eq_zero htg (testBit_land_iff.mp he).2), hkind⟩
      · rw [pawnPromoEmpty_atomic_evasions] at he
        exact ⟨ht, ((testBit_compl_iff hpl).mp (testBit_land_iff.mp he).1).2, hkind⟩
    · rcases mem_pawnCapList_to h1 with ⟨hN, hlt, he⟩ | ⟨hEPk, hto⟩
      · rw [show pawnEnemies us .EVASIONS pos target = pos.piecesC us.opp &&& target
            from rfl] at he
        exact ⟨hlt, not_testBit_eq_false
          (testBit_of_land_eq_zero htg (testBit_land_iff.mp he).2),
          fun hx => absurd (hN.symm.trans hx) (by decide)⟩
      · exfalso
        obtain ⟨hep, hgate⟩ := mem_pawnCapList_ep h1 hEPk
        have hne : target &&& sqbb (sqSub pos.epSq (pawnUp us)) ≠ 0 :=
          fun h0 => hgate ⟨rfl, h0⟩
        obtain ⟨i, hti, hsi⟩ := land_ne_zero hne
        obtain ⟨hslt, hieq⟩ := testBit_sqbb.mp hsi
        subst hieq
        exact testBit_of_land_eq_zero htg hti (hEp' hep)
  · have hm := mem_generate_moves hpc
    exact ⟨hm.2.2.2.1, not_testBit_eq_false (testBit_of_land_eq_zero htg hm.2.2.2.2.1),
      fun hx => absurd (hm.1.symm.trans hx) (by decide)⟩
  · rw [dropList_eq_nil (by decide)] at hd
    simp at hd
  · rw [kingMovesList_ev_nil (by decide)] at hk
    simp at hk
  · rw [castleList_evasions] at hc
    simp at hc

end Movegen

namespace Movegen

theorem atomicEvasionTarget_sub {pos : Position} {us : Color} {ksq : Square} {i : Nat}
    (h : (atomicEvasionTarget pos us ksq).testBit i = true) :
    (pos.piecesC us.opp).testBit i = true ∧
      (compl (pos.attacksFromF .KING ksq)).testBit i = true := by
  unfold atomicEvasionTarget at h
  dsimp only at h
  exact ⟨(testBit_land_iff.mp (testBit_land_iff.mp h).1).2, (testBit_land_iff.mp h).2⟩

theorem lsb_spec {b : Bitboard} (hb : b < 2 ^ 64) (hne : b ≠ 0) :
    lsb b < 64 ∧ b.testBit (lsb b) = true := by
  have hmem : lsb b ∈ bits b := by
    unfold lsb
    cases hbits : bits b with
    | nil =>
      exfalso
      apply hne
      apply Nat.eq_of_testBit_eq
      intro i
      simp only [Nat.zero_testBit]
      rcases Nat.lt_or_ge i 64 with h | h
      · by_contra hbit
        have hi : i ∈ bits b := mem_bits.mpr ⟨h, by
          cases hx : b.testBit i
          · exact absurd hx hbit
          · rfl⟩
        rw [hbits] at hi
        exact absurd hi (List.not_mem_nil i)
      · exact testBit_high_false hb h
    | cons x xs =>
      simp [List.headD]
  exact ⟨(mem_bits.mp hmem).1, (mem_bits.mp hmem).2⟩

theorem atomic_blast_km_disjoint {pos : Position} {us : Color} {ksq k : Square}
    {b : Bitboard}
    (hchkNe : pos.checkersBB ≠ 0)
    (hb : ∀ i : Nat, i < 64 → b.testBit i = true → pos.pieces.testBit i = false) :
    (generate_all .ATOMIC us .CAPTURES pos (atomicEvasionTarget pos us ksq)).Disjoint
      ((bits b).map (fun t => make_move k t)) := by
  intro m h1 h2
  have h2' := mem_map_make_move h2
  have hsub : ∀ i : Nat, (atomicEvasionTarget pos us ksq).testBit i = true →
      pos.pieces.testBit i = true :=
    fun i hi => piecesC_sub_pieces (atomicEvasionTarget_sub hi).1
  rcases atomic_subpass_to hchkNe hsub h1 with ⟨hlt, hocc⟩ | hEPk
  · rw [hb m.toSq h2'.2.1 h2'.2.2.1] at hocc
    exact Bool.false_ne_true hocc
  · exact absurd (h2'.1.symm.trans hEPk) (by decide)

theorem km_gen_disjoint {V : Variant} {pos : Position} {target b : Bitboard}
    (hVA : V ≠ .ANTI)
    (hKingClean : ∀ pt : PieceType, pt ≠ .KING →
      (pos.piecesCT pos.sideToMove pt).testBit (pos.kingSq pos.sideToMove) = false) :
    ((bits b).map (fun t => make_move (pos.kingSq pos.sideToMove) t)).Disjoint
      (generate_all V pos.sideToMove .EVASIONS pos target) := by
  intro m hK hR
  have hkm := mem_map_make_move hK
  have hclash : ∀ pt : PieceType, pt ≠ .KING →
      (pos.piecesCT pos.sideToMove pt).testBit m.fromSq = true → False := by
    intro pt hpt hbit
    rw [hkm.2.2.2, hKingClean pt hpt] at hbit
    exact Bool.false_ne_true hbit
  rcases mem_generate_all hR with hp | ⟨Pt, hPts, hpc⟩ | hd | hk2 | hc2
  · exact hclash .PAWN (by decide) (mem_generate_pawn_from hp)
  · refine hclash Pt ?_ (mem_generate_moves hpc).2.1
    rcases hPts with rfl | rfl | rfl | rfl <;> decide
  · have hdk := mem_dropList hd
    exact absurd (hkm.1.symm.trans hdk) (by decide)
  · rw [kingMovesList_ev_nil hVA] at hk2
    exact absurd hk2 (List.not_mem_nil m)
  · rw [castleList_evasions] at hc2
    exact absurd hc2 (List.not_mem_nil m)

end Movegen

namespace Movegen

theorem atomic_blast_gen_disjoint {pos : Position} {us : Color} {ksq : Square}
    {target : Bitboard}
    (hchkNe : pos.checkersBB ≠ 0) (hpl : pos.pieces < 2 ^ 64)
    (htg : target &&& pos.pieces = 0)
    (hEp' : pos.epSq ≠ SQ_NONE → pos.pieces.testBit (sqSub pos.epSq (pawnUp us)) = true) :
    (generate_all .ATOMIC us .CAPTURES pos (atomicEvasionTarget pos us ksq)).Disjoint
      (generate_all .ATOMIC us .EVASIONS pos target) := by
  intro m h1 h2
  have hmain := atomic_main_to hpl htg hEp' h2
  have hsub : ∀ i : Nat, (atomicEvasionTarget pos us ksq).testBit i = true →
      pos.pieces.testBit i = true :=
    fun i hi => piecesC_sub_pieces (atomicEvasionTarget_sub hi).1
  rcases atomic_subpass_to hchkNe hsub h1 with ⟨hlt, hocc⟩ | hEPk
  · rw [hmain.2.1] at hocc
    exact Bool.false_ne_true hocc
  · exact hmain.2.2 hEPk

theorem generateEvasions_nodup (pos : Position)
    (hTypeDisj : ∀ pt1 pt2 : PieceType, pt1 ≠ pt2 → pos.byType pt1 &&& pos.byType pt2 = 0)
    (hKingClean : ∀ pt : PieceType, pt ≠ .KING →
      (pos.piecesCT pos.sideToMove pt).testBit (pos.kingSq pos.sideToMove) = false)
    (hRook : pos.castlingRookSq (mkCastlingRight pos.sideToMove true) ≠
      pos.castlingRookSq (mkCastlingRight pos.sideToMove false))
    (hbW : pos.byColor .WHITE < 2 ^ 64) (hbB : pos.byColor .BLACK < 2 ^ 64)
    (hchkB : pos.checkersBB < 2 ^ 64) (hchkNe : pos.checkersBB ≠ 0)
    (hbetween : ∀ s : Nat, s < 64 → pos.checkersBB.testBit s = true →
      between_bb s (pos.kingSq pos.sideToMove) &&& pos.pieces = 0)
    (hEp : pos.epSq ≠ SQ_NONE →
      pos.pieces.testBit (sqSub pos.epSq (pawnUp pos.sideToMove)) = true) :
    (generateEvasions pos).Nodup := by
  have hpl : pos.pieces < 2 ^ 64 := Nat.or_lt_two_pow hbW hbB
  have hcsq := lsb_spec hchkB hchkNe
  have htg : between_bb (lsb pos.checkersBB) (pos.kingSq pos.sideToMove) &&&
      pos.pieces = 0 := hbetween _ hcsq.1 hcsq.2
  unfold generateEvasions
  split
  · simp
  · rename_i hguard
    have hVA : pos.variant ≠ .ANTI := fun hx => hguard (Or.inl hx)
    dsimp only
    by_cases hA : pos.variant = .ATOMIC
    · rw [hA]
      simp only [reduceCtorEq, reduceIte, false_and, if_false]
      have hbfalse : ∀ i : Nat, i < 64 →
          (pos.attacksFromF .KING (pos.kingSq pos.sideToMove) &&& compl pos.pieces &&&
            compl ((bits (pos.checkersBB &&& compl (pos.piecesT2 .KNIGHT .PAWN))).foldl
              (fun a s => a ||| (line_bb s (pos.kingSq pos.sideToMove) ^^^ sqbb s)) 0 &&&
              compl (pos.attacksFromF .KING (pos.kingSq pos.sideToMove.opp)))).testBit i =
            true → pos.pieces.testBit i = false :=
        fun i hi hb =>
          ((testBit_compl_iff hpl).mp (testBit_land_iff.mp (testBit_land_iff.mp hb).1).2).2
      split
      · refine List.Nodup.append
          (generate_all_nodup _ _ _ _ _ hTypeDisj hKingClean hRook)
          (nodup_map_make_move _ _) ?_
        exact atomic_blast_km_disjoint hchkNe hbfalse
      · refine List.Nodup.append (List.Nodup.append
          (generate_all_nodup _ _ _ _ _ hTypeDisj hKingClean hRook)
          (nodup_map_make_move _ _) (atomic_blast_km_disjoint hchkNe hbfalse))
          (generate_all_nodup _ _ _ _ _ hTypeDisj hKingClean hRook) ?_
        intro m hL hR
        rcases List.mem_append.mp hL with hB | hK
        · exact atomic_blast_gen_disjoint hchkNe hpl htg hEp hB hR
        · exact km_gen_disjoint (by decide) hKingClean hK hR
    · simp only [if_neg hA, List.nil_append]
      split
      · exact nodup_map_make_move _ _
      · refine List.Nodup.append (nodup_map_make_move _ _)
          (generate_all_nodup _ _ _ _ _ hTypeDisj hKingClean hRook) ?_
        exact km_gen_disjoint hVA hKingClean

end Movegen

namespace Movegen

theorem generateLegal_nodup (pos : Position)
    (hTypeDisj : ∀ pt1 pt2 : PieceType, pt1 ≠ pt2 → pos.byType pt1 &&& pos.byType pt2 = 0)
    (hKingClean : ∀ pt : PieceType, pt ≠ .KING →
      (pos.piecesCT pos.sideToMove pt).testBit (pos.kingSq pos.sideToMove) = false)
    (hRook : pos.castlingRookSq (mkCastlingRight pos.sideToMove true) ≠
      pos.castlingRookSq (mkCastlingRight pos.sideToMove false))
    (hbW : pos.byColor .WHITE < 2 ^ 64) (hbB : pos.byColor .BLACK < 2 ^ 64)
    (hchkB : pos.checkersBB < 2 ^ 64)
    (hbetween : ∀ s : Nat, s < 64 → pos.checkersBB.testBit s = true →
      between_bb s (pos.kingSq pos.sideToMove) &&& pos.pieces = 0)
    (hEp : pos.epSq ≠ SQ_NONE →
      pos.pieces.testBit (sqSub pos.epSq (pawnUp pos.sideToMove)) = true) :
    (generateLegal pos).Nodup := by
  unfold generateLegal
  split
  · simp
  · dsimp only
    refine ((compact_perm _ _).nodup_iff).mpr (List.Nodup.filter _ ?_)
    split
    · rename_i hchkNe
      exact generateEvasions_nodup pos hTypeDisj hKingClean hRook hbW hbB hchkB hchkNe
        hbetween hEp
    · exact generateMain_nodup _ pos hTypeDisj hKingClean hRook

theorem generate_nodup (T : GenType) (pos : Position)
    (hTypeDisj : ∀ pt1 pt2 : PieceType, pt1 ≠ pt2 → pos.byType pt1 &&& pos.byType pt2 = 0)
    (hKingClean : ∀ pt : PieceType, pt ≠ .KING →
      (pos.piecesCT pos.sideToMove pt).testBit (pos.kingSq pos.sideToMove) = false)
    (hRook : pos.castlingRookSq (mkCastlingRight pos.sideToMove true) ≠
      pos.castlingRookSq (mkCastlingRight pos.sideToMove false))
    (hPieceOn : ∀ s : Nat, s < 64 → (pos.byType .PAWN).testBit s = true →
      pos.pieceOnF s = .PAWN)
    (hbW : pos.byColor .WHITE < 2 ^ 64) (hbB : pos.byColor .BLACK < 2 ^ 64)
    (hchkB : pos.checkersBB < 2 ^ 64)
    (hbetween : ∀ s : Nat, s < 64 → pos.checkersBB.testBit s = true →
      between_bb s (pos.kingSq pos.sideToMove) &&& pos.pieces = 0)
    (hEp : pos.epSq ≠ SQ_NONE →
      pos.pieces.testBit (sqSub pos.epSq (pawnUp pos.sideToMove)) = true)
    (hchkE : T = .EVASIONS → pos.checkersBB ≠ 0) :
    (generate T pos).Nodup := by
  cases T with
  | CAPTURES => exact generateMain_nodup _ pos hTypeDisj hKingClean hRook
  | QUIETS => exact generateMain_nodup _ pos hTypeDisj hKingClean hRook
  | NON_EVASIONS => exact generateMain_nodup _ pos hTypeDisj hKingClean hRook
  | QUIET_CHECKS =>
      exact generateQuietChecks_nodup pos hTypeDisj hKingClean hRook hPieceOn hbW hbB
  | EVASIONS =>
      exact generateEvasions_nodup pos hTypeDisj hKingClean hRook hbW hbB hchkB
        (hchkE rfl) hbetween hEp
  | LEGAL =>
      exact generateLegal_nodup pos hTypeDisj hKingClean hRook hbW hbB hchkB hbetween hEp

end Movegen

namespace Movegen

def c3Pos : Position :=
  mkPos .ATOMIC .WHITE [(4, .WHITE, .KING), (60, .BLACK, .ROOK), (57, .BLACK, .KING)]
    SQ_NONE noRights false false noHand

theorem C3_pairwise_distinct (pos : Position)
    (hTypeDisj : ∀ pt1 pt2 : PieceType, pt1 ≠ pt2 → pos.byType pt1 &&& pos.byType pt2 = 0)
    (hKingClean : ∀ pt : PieceType, pt ≠ .KING →
      (pos.piecesCT pos.sideToMove pt).testBit (pos.kingSq pos.sideToMove) = false)
    (hRook : pos.castlingRookSq (mkCastlingRight pos.sideToMove true) ≠
      pos.castlingRookSq (mkCastlingRight pos.sideToMove false))
    (hPieceOn : ∀ s : Nat, s < 64 → (pos.byType .PAWN).testBit s = true →
      pos.pieceOnF s = .PAWN)
    (hbW : pos.byColor .WHITE < 2 ^ 64) (hbB : pos.byColor .BLACK < 2 ^ 64)
    (hchkB : pos.checkersBB < 2 ^ 64)
    (hbetween : ∀ s : Nat, s < 64 → pos.checkersBB.testBit s = true →
      between_bb s (pos.kingSq pos.sideToMove) &&& pos.pieces = 0)
    (hEp : pos.epSq ≠ SQ_NONE →
      pos.pieces.testBit (sqSub pos.epSq (pawnUp pos.sideToMove)) = true) :
    ∀ T : GenType, (T = .EVASIONS → pos.checkersBB ≠ 0) → (generate T pos).Nodup :=
  fun T hchkE =>
    generate_nodup T pos hTypeDisj hKingClean hRook hPieceOn hbW hbB hchkB hbetween hEp hchkE

theorem C3_pairwise_distinct_witness :
    (generate .EVASIONS c3Pos).Nodup ∧ (generate .NON_EVASIONS c3Pos).Nodup :=
  ⟨C3_pairwise_distinct c3Pos
      (by intro pt1 pt2 hne; cases pt1 <;> cases pt2 <;> first | exact absurd rfl hne | decide)
      (by intro pt hpt; cases pt <;> first | exact absurd rfl hpt | decide)
      (by decide) (by decide) (by decide) (by decide) (by decide) (by decide) (by decide)
      .EVASIONS (by intro h1; decide),
   C3_pairwise_distinct c3Pos
      (by intro pt1 pt2 hne; cases pt1 <;> cases pt2 <;> first | exact absurd rfl hne | decide)
      (by intro pt hpt; cases pt <;> first | exact absurd rfl hpt | decide)
      (by decide) (by decide) (by decide) (by decide) (by decide) (by decide) (by decide)
      .NON_EVASIONS (by intro h1; exact absurd h1 (by decide))⟩

end Movegen

namespace Movegen

theorem testBit_ext' {a b : Nat} (h : ∀ i, a.testBit i = true ↔ b.testBit i = true) :
    a = b := by
  apply Nat.eq_of_testBit_eq
  intro i
  cases hb : b.testBit i
  · cases ha : a.testBit i
    · rfl
    · exact absurd ((h i).mp ha) (by rw [hb]; exact Bool.false_ne_true)
  · exact (h i).mpr hb

theorem byColor_lt {pos : Position} (hbW : pos.byColor .WHITE < 2 ^ 64)
    (hbB : pos.byColor .BLACK < 2 ^ 64) (c : Color) : pos.byColor c < 2 ^ 64 := by
  cases c
  · exact hbW
  · exact hbB

theorem occ_iff {pos : Position} (us : Color) :
    ∀ i, pos.pieces.testBit i = true ↔
      (pos.piecesC us).testBit i = true ∨ (pos.piecesC us.opp).testBit i = true := by
  intro i
  unfold Position.pieces Position.piecesC
  cases us <;> (simp only [Nat.testBit_or, Bool.or_eq_true, Color.opp]; try tauto)

theorem own_opp_disj {pos : Position} (hdisj : pos.byColor .WHITE &&& pos.byColor .BLACK = 0)
    (us : Color) {i : Nat} (h1 : (pos.piecesC us).testBit i = true)
    (h2 : (pos.piecesC us.opp).testBit i = true) : False := by
  cases us
  · exact land_eq_zero_iff.mp hdisj i ⟨h1, h2⟩
  · exact land_eq_zero_iff.mp hdisj i ⟨h2, h1⟩

/-- The target split at the heart of C2: `~own = enemy ∪ ~occupied`. -/
theorem targets_split {pos : Position} (us : Color)
    (hdisj : pos.byColor .WHITE &&& pos.byColor .BLACK = 0)
    (hbW : pos.byColor .WHITE < 2 ^ 64) (hbB : pos.byColor .BLACK < 2 ^ 64) :
    ∀ i, (compl (pos.piecesC us)).testBit i = true ↔
      (pos.piecesC us.opp).testBit i = true ∨ (compl pos.pieces).testBit i = true := by
  intro i
  have hpl : pos.pieces < 2 ^ 64 := Nat.or_lt_two_pow hbW hbB
  have hown : pos.piecesC us < 2 ^ 64 := byColor_lt hbW hbB us
  have hopp : pos.piecesC us.opp < 2 ^ 64 := byColor_lt hbW hbB us.opp
  rw [testBit_compl_iff hown, testBit_compl_iff hpl]
  constructor
  · rintro ⟨h64, hno⟩
    cases hopp' : (pos.piecesC us.opp).testBit i
    · refine Or.inr ⟨h64, ?_⟩
      cases hocc' : pos.pieces.testBit i
      · rfl
      · rcases (occ_iff us i).mp hocc' with h | h
        · rw [h] at hno
          simp at hno
        · rw [h] at hopp'
          simp at hopp'
    · exact Or.inl rfl
  · rintro (h | ⟨h64, hno⟩)
    · have h64 : i < 64 := by
        by_contra hge
        rw [testBit_high_false hopp (Nat.le_of_not_lt hge)] at h
        exact Bool.false_ne_true h
      refine ⟨h64, ?_⟩
      cases hown' : (pos.piecesC us).testBit i
      · rfl
      · exact (own_opp_disj hdisj us hown' h).elim
    · refine ⟨h64, ?_⟩
      cases hown' : (pos.piecesC us).testBit i
      · rfl
      · have hx := (occ_iff us i).mpr (Or.inl hown')
        rw [hx] at hno
        simp at hno

theorem targets_disj {pos : Position} (us : Color)
    (hbW : pos.byColor .WHITE < 2 ^ 64) (hbB : pos.byColor .BLACK < 2 ^ 64) :
    pos.piecesC us.opp &&& compl pos.pieces = 0 := by
  have hpl : pos.pieces < 2 ^ 64 := Nat.or_lt_two_pow hbW hbB
  apply land_eq_zero_iff.mpr
  intro i hi
  have h1 : pos.pieces.testBit i = true := (occ_iff us i).mpr (Or.inr hi.1)
  have h2 := (testBit_compl_iff hpl).mp hi.2
  rw [h1] at h2
  exact absurd h2.2 (by simp)

end Movegen

namespace Movegen

theorem coe_append_sum {α : Type} (l1 l2 : List α) :
    (↑(l1 ++ l2) : Multiset α) = ↑l1 + ↑l2 := by
  rfl

theorem map_bits_lor_sum {b1 b2 : Bitboard} (h : b1 &&& b2 = 0) (f : Square → Move) :
    (↑((bits (b1 ||| b2)).map f) : Multiset Move) =
      ↑((bits b1).map f) + ↑((bits b2).map f) := by
  have hperm : ((bits (b1 ||| b2)).map f).Perm ((bits b1 ++ bits b2).map f) :=
    (bits_lor_perm h).map f
  rw [Multiset.coe_eq_coe.mpr hperm, List.map_append, coe_append_sum]

theorem flatMap_bits_lor_sum {b1 b2 : Bitboard} (h : b1 &&& b2 = 0) (f : Square → List Move) :
    (↑((bits (b1 ||| b2)).flatMap f) : Multiset Move) =
      ↑((bits b1).flatMap f) + ↑((bits b2).flatMap f) := by
  have hperm : ((bits (b1 ||| b2)).flatMap f).Perm ((bits b1 ++ bits b2).flatMap f) :=
    List.Perm.flatMap_right f (bits_lor_perm h)
  rw [Multiset.coe_eq_coe.mpr hperm, List.flatMap_append, coe_append_sum]

theorem flatMap_append_sum {α : Type} (l : List α) (f g : α → List Move) :
    (↑(l.flatMap fun a => f a ++ g a) : Multiset Move) =
      ↑(l.flatMap f) + ↑(l.flatMap g) := by
  induction l with
  | nil => simp
  | cons x xs ih =>
      simp only [List.flatMap_cons, coe_append_sum, ih]
      ac_rfl

end Movegen

namespace Movegen

theorem testBit_compl_lt {b : Nat} {i : Nat} (h64 : i < 64) :
    (compl b).testBit i = true ↔ ¬ b.testBit i = true := by
  rw [testBit_compl]
  cases hb : b.testBit i <;> simp [h64, hb]

theorem flatMap_sum_congr {α : Type} (l : List α) (h f g : α → List Move)
    (hfg : ∀ a, (↑(h a) : Multiset Move) = ↑(f a) + ↑(g a)) :
    (↑(l.flatMap h) : Multiset Move) = ↑(l.flatMap f) + ↑(l.flatMap g) := by
  induction l with
  | nil => simp
  | cons x xs ih =>
      simp only [List.flatMap_cons, coe_append_sum, hfg x, ih]
      ac_rfl

theorem unionIf_split {c : Prop} [Decidable c] {bC bQ bN xC xQ xN : Bitboard}
    (hb : ∀ i, bN.testBit i = true ↔ bC.testBit i = true ∨ bQ.testBit i = true)
    (hx : ∀ i, xN.testBit i = true ↔ xC.testBit i = true ∨ xQ.testBit i = true) :
    ∀ i, (unionIf c bN xN).testBit i = true ↔
      (unionIf c bC xC).testBit i = true ∨ (unionIf c bQ xQ).testBit i = true := by
  intro i
  unfold unionIf
  split
  · simp only [testBit_lor_iff]
    have h1 := hb i
    have h2 := hx i
    tauto
  · exact hb i

theorem relayExpand_split {pos : Position} {us : Color} {f : Square}
    {tC tQ tN bC bQ bN : Bitboard}
    (ht : ∀ i, tN.testBit i = true ↔ tC.testBit i = true ∨ tQ.testBit i = true)
    (hb : ∀ i, bN.testBit i = true ↔ bC.testBit i = true ∨ bQ.testBit i = true) :
    ∀ i, (relayExpand pos us tN f bN).testBit i = true ↔
      (relayExpand pos us tC f bC).testBit i = true ∨
        (relayExpand pos us tQ f bQ).testBit i = true := by
  have hA : ∀ (A : Bitboard) (j : Nat), (A &&& tN).testBit j = true ↔
      (A &&& tC).testBit j = true ∨ (A &&& tQ).testBit j = true := fun A j => by
    simp only [testBit_land_iff]
    have := ht j
    tauto
  intro i
  unfold relayExpand
  dsimp only
  exact unionIf_split (unionIf_split (unionIf_split (unionIf_split hb (hA _)) (hA _))
    (hA _)) (hA _) i

theorem generate_moves_nochecks (V : Variant) (Pt : PieceType) (pos : Position) (us : Color)
    (t : Bitboard) :
    generate_moves V Pt false pos us t =
      (bits (pos.piecesCT us Pt)).flatMap
        (fun f => (bits (pieceDestBB V Pt false pos us t f)).map (fun t2 => make_move f t2)) := by
  unfold generate_moves
  have hred : ∀ f : Square,
      (if pieceSkip Pt false pos t f then ([] : List Move)
       else (bits (pieceDestBB V Pt false pos us t f)).map (fun t2 => make_move f t2)) =
        (bits (pieceDestBB V Pt false pos us t f)).map (fun t2 => make_move f t2) :=
    fun f => if_neg (fun hc => Bool.false_ne_true hc.1)
  simp only [hred]

theorem pieceDestBB_nochecks (V : Variant) (Pt : PieceType) (pos : Position) (us : Color)
    (t : Bitboard) (f : Square) :
    pieceDestBB V Pt false pos us t f =
      if V = .RELAY then relayExpand pos us t f (pos.attacksFromF Pt f &&& t)
      else pos.attacksFromF Pt f &&& t := rfl

theorem pieceDestBB_split {V : Variant} {Pt : PieceType} {pos : Position} {us : Color}
    {tC tQ tN : Bitboard} {f : Square}
    (ht : ∀ i, tN.testBit i = true ↔ tC.testBit i = true ∨ tQ.testBit i = true) :
    ∀ i, (pieceDestBB V Pt false pos us tN f).testBit i = true ↔
      (pieceDestBB V Pt false pos us tC f).testBit i = true ∨
        (pieceDestBB V Pt false pos us tQ f).testBit i = true := by
  intro i
  rw [pieceDestBB_nochecks, pieceDestBB_nochecks, pieceDestBB_nochecks]
  split_ifs with hrel
  · exact relayExpand_split ht
      (fun j => by
        simp only [testBit_land_iff]
        have := ht j
        tauto) i
  · simp only [testBit_land_iff]
    have := ht i
    tauto

theorem generate_moves_CQN_sum (V : Variant) (Pt : PieceType) (pos : Position) (us : Color)
    {tC tQ tN : Bitboard}
    (ht : ∀ i, tN.testBit i = true ↔ tC.testBit i = true ∨ tQ.testBit i = true)
    (htd : tC &&& tQ = 0) :
    (↑(generate_moves V Pt false pos us tN) : Multiset Move) =
      ↑(generate_moves V Pt false pos us tC) + ↑(generate_moves V Pt false pos us tQ) := by
  rw [generate_moves_nochecks, generate_moves_nochecks, generate_moves_nochecks]
  apply flatMap_sum_congr
  intro f
  have heq : pieceDestBB V Pt false pos us tN f =
      pieceDestBB V Pt false pos us tC f ||| pieceDestBB V Pt false pos us tQ f := by
    apply testBit_ext'
    intro i
    rw [testBit_lor_iff]
    exact pieceDestBB_split ht i
  have hdd : pieceDestBB V Pt false pos us tC f &&& pieceDestBB V Pt false pos us tQ f = 0 := by
    apply land_eq_zero_iff.mpr
    intro i hi
    exact land_eq_zero_iff.mp htd i
      ⟨pieceDestBB_sub_target i hi.1, pieceDestBB_sub_target i hi.2⟩
  rw [heq]
  exact map_bits_lor_sum hdd _

end Movegen

namespace Movegen

theorem unionIf_neg {c : Prop} [Decidable c] (h : ¬ c) (b x : Bitboard) :
    unionIf c b x = b := by
  unfold unionIf
  exact if_neg h

theorem unionIf_pos' {c : Prop} [Decidable c] (h : c) (b x : Bitboard) :
    unionIf c b x = b ||| x := by
  unfold unionIf
  exact if_pos h

theorem kingDestBB_CQN (V : Variant) (us : Color) (pos : Position)
    (hdisj : pos.byColor .WHITE &&& pos.byColor .BLACK = 0)
    (hbW : pos.byColor .WHITE < 2 ^ 64) (hbB : pos.byColor .BLACK < 2 ^ 64) :
    kingDestBB V us .NON_EVASIONS pos (compl (pos.piecesC us)) =
      kingDestBB V us .CAPTURES pos (pos.piecesC us.opp) |||
        kingDestBB V us .QUIETS pos (compl pos.pieces) := by
  have hpl : pos.pieces < 2 ^ 64 := Nat.or_lt_two_pow hbW hbB
  have hA : ∀ (A : Bitboard) (j : Nat),
      (A &&& compl (pos.piecesC us)).testBit j = true ↔
        (A &&& pos.piecesC us.opp).testBit j = true ∨
          (A &&& compl pos.pieces).testBit j = true := by
    intro A j
    simp only [testBit_land_iff]
    have := targets_split us hdisj hbW hbB j
    tauto
  apply testBit_ext'
  intro i
  rw [testBit_lor_iff]
  have hTS := targets_split us hdisj hbW hbB i
  have hN64 : (compl pos.pieces).testBit i = true → i < 64 :=
    fun hx => ((testBit_compl_iff hpl).mp hx).1
  by_cases hrel : V = .RELAY
  · have hnr : V ≠ .RACE := fun hx => absurd (hx.symm.trans hrel) (by decide)
    unfold kingDestBB
    dsimp only
    rw [if_pos hrel, if_pos hrel, if_pos hrel]
    rw [if_neg (show ¬ (V = .RACE ∧ GenType.NON_EVASIONS = .QUIETS) from fun hc => hnr hc.1),
      if_neg (show ¬ (V = .RACE ∧ GenType.CAPTURES = .QUIETS) from fun hc => hnr hc.1),
      if_neg (show ¬ (V = .RACE ∧ GenType.QUIETS = .QUIETS) from fun hc => hnr hc.1)]
    rw [unionIf_neg (show ¬ (V = .RACE ∧ GenType.NON_EVASIONS = .CAPTURES) from
        fun hc => hnr hc.1) _ _,
      unionIf_neg (show ¬ (V = .RACE ∧ GenType.CAPTURES = .CAPTURES) from
        fun hc => hnr hc.1) _ _,
      unionIf_neg (show ¬ (V = .RACE ∧ GenType.QUIETS = .CAPTURES) from
        fun hc => hnr hc.1) _ _]
    exact unionIf_split (unionIf_split (unionIf_split (hA _) (hA _)) (hA _)) (hA _) i
  · by_cases hR : V = .RACE
    · unfold kingDestBB
      dsimp only
      rw [if_neg hrel, if_neg hrel, if_neg hrel]
      rw [if_neg (show ¬ (V = .RACE ∧ GenType.NON_EVASIONS = .QUIETS) from
          fun hc => absurd hc.2 (by decide)),
        if_neg (show ¬ (V = .RACE ∧ GenType.CAPTURES = .QUIETS) from
          fun hc => absurd hc.2 (by decide)),
        if_pos (show V = .RACE ∧ GenType.QUIETS = .QUIETS from ⟨hR, rfl⟩)]
      rw [unionIf_neg (show ¬ (V = .RACE ∧ GenType.NON_EVASIONS = .CAPTURES) from
          fun hc => absurd hc.2 (by decide)) _ _,
        unionIf_pos' (show V = .RACE ∧ GenType.CAPTURES = .CAPTURES from ⟨hR, rfl⟩) _ _,
        unionIf_neg (show ¬ (V = .RACE ∧ GenType.QUIETS = .CAPTURES) from
          fun hc => absurd hc.2 (by decide)) _ _]
      simp only [testBit_land_iff, testBit_lor_iff]
      constructor
      · rintro ⟨hak, hnw⟩
        rcases hTS.mp hnw with hE | hNO
        · exact Or.inl (Or.inl ⟨hak, hE⟩)
        · by_cases hcone : (passed_pawn_mask .WHITE (pos.kingSq us)).testBit i = true
          · exact Or.inl (Or.inr ⟨⟨hak, hcone⟩, hNO⟩)
          · exact Or.inr ⟨⟨hak, hNO⟩, (testBit_compl_lt (hN64 hNO)).mpr hcone⟩
      · rintro ((⟨hak, hE⟩ | ⟨⟨hak, hcone⟩, hNO⟩) | ⟨⟨hak, hNO⟩, hcc⟩)
        · exact ⟨hak, hTS.mpr (Or.inl hE)⟩
        · exact ⟨hak, hTS.mpr (Or.inr hNO)⟩
        · exact ⟨hak, hTS.mpr (Or.inr hNO)⟩
    · rw [kingDestBB_plain hR hrel, kingDestBB_plain hR hrel, kingDestBB_plain hR hrel]
      simp only [testBit_land_iff]
      tauto

theorem kingDestBB_CQ_disj (V : Variant) (us : Color) (pos : Position)
    (hdisj : pos.byColor .WHITE &&& pos.byColor .BLACK = 0)
    (hbW : pos.byColor .WHITE < 2 ^ 64) (hbB : pos.byColor .BLACK < 2 ^ 64) :
    kingDestBB V us .CAPTURES pos (pos.piecesC us.opp) &&&
      kingDestBB V us .QUIETS pos (compl pos.pieces) = 0 := by
  have hpl : pos.pieces < 2 ^ 64 := Nat.or_lt_two_pow hbW hbB
  apply land_eq_zero_iff.mpr
  intro i hi
  have hDJ : ¬ ((pos.piecesC us.opp).testBit i = true ∧
      (compl pos.pieces).testBit i = true) :=
    fun hc => land_eq_zero_iff.mp (targets_disj us hbW hbB) i hc
  have hN64 : (compl pos.pieces).testBit i = true → i < 64 :=
    fun hx => ((testBit_compl_iff hpl).mp hx).1
  obtain ⟨h1, h2⟩ := hi
  by_cases hrel : V = .RELAY
  · have hnr : V ≠ .RACE := fun hx => absurd (hx.symm.trans hrel) (by decide)
    rw [kingDestBB] at h1 h2
    dsimp only at h1 h2
    rw [if_pos hrel] at h1
    rw [if_pos hrel] at h2
    rw [if_neg (show ¬ (V = .RACE ∧ GenType.CAPTURES = .QUIETS) from fun hc => hnr hc.1)] at h1
    rw [if_neg (show ¬ (V = .RACE ∧ GenType.QUIETS = .QUIETS) from fun hc => hnr hc.1)] at h2
    rw [unionIf_neg (show ¬ (V = .RACE ∧ GenType.CAPTURES = .CAPTURES) from
      fun hc => hnr hc.1) _ _] at h1
    rw [unionIf_neg (show ¬ (V = .RACE ∧ GenType.QUIETS = .CAPTURES) from
      fun hc => hnr hc.1) _ _] at h2
    have hs1 := unionIf_sub (unionIf_sub (unionIf_sub land_sub_right land_sub_right)
      land_sub_right) land_sub_right i h1
    have hs2 := unionIf_sub (unionIf_sub (unionIf_sub land_sub_right land_sub_right)
      land_sub_right) land_sub_right i h2
    exact hDJ ⟨hs1, hs2⟩
  · by_cases hR : V = .RACE
    · rw [kingDestBB] at h1 h2
      dsimp only at h1 h2
      rw [if_neg hrel] at h1
      rw [if_neg hrel] at h2
      rw [if_neg (show ¬ (V = .RACE ∧ GenType.CAPTURES = .QUIETS) from
        fun hc => absurd hc.2 (by decide))] at h1
      rw [if_pos (show V = .RACE ∧ GenType.QUIETS = .QUIETS from ⟨hR, rfl⟩)] at h2
      rw [unionIf_pos' (show V = .RACE ∧ GenType.CAPTURES = .CAPTURES from ⟨hR, rfl⟩) _ _] at h1
      rw [unionIf_neg (show ¬ (V = .RACE ∧ GenType.QUIETS = .CAPTURES) from
        fun hc => absurd hc.2 (by decide)) _ _] at h2
      rcases testBit_lor_iff.mp h1 with ha | ha
      · exact hDJ ⟨(testBit_land_iff.mp ha).2,
          (testBit_land_iff.mp (testBit_land_iff.mp h2).1).2⟩
      · have hcone := (testBit_land_iff.mp (testBit_land_iff.mp ha).1).2
        have hnocc := (testBit_land_iff.mp (testBit_land_iff.mp h2).1).2
        have hcc := (testBit_land_iff.mp h2).2
        exact (testBit_compl_lt (hN64 hnocc)).mp hcc hcone
    · rw [kingDestBB_plain hR hrel] at h1
      rw [kingDestBB_plain hR hrel] at h2
      exact hDJ ⟨(testBit_land_iff.mp h1).2, (testBit_land_iff.mp h2).2⟩

end Movegen

namespace Movegen

theorem kingMovesList_CQN_sum (V : Variant) (us : Color) (pos : Position) (hVA : V ≠ .ANTI)
    (hdisj : pos.byColor .WHITE &&& pos.byColor .BLACK = 0)
    (hbW : pos.byColor .WHITE < 2 ^ 64) (hbB : pos.byColor .BLACK < 2 ^ 64) :
    (↑(kingMovesList V us .NON_EVASIONS pos (compl (pos.piecesC us))) : Multiset Move) =
      ↑(kingMovesList V us .CAPTURES pos (pos.piecesC us.opp)) +
        ↑(kingMovesList V us .QUIETS pos (compl pos.pieces)) := by
  unfold kingMovesList
  rw [if_neg hVA, if_neg hVA, if_neg hVA]
  rw [if_pos (show GenType.NON_EVASIONS ≠ .QUIET_CHECKS ∧ GenType.NON_EVASIONS ≠ .EVASIONS
      from ⟨by decide, by decide⟩),
    if_pos (show GenType.CAPTURES ≠ .QUIET_CHECKS ∧ GenType.CAPTURES ≠ .EVASIONS
      from ⟨by decide, by decide⟩),
    if_pos (show GenType.QUIETS ≠ .QUIET_CHECKS ∧ GenType.QUIETS ≠ .EVASIONS
      from ⟨by decide, by decide⟩)]
  rw [kingDestBB_CQN V us pos hdisj hbW hbB]
  exact map_bits_lor_sum (kingDestBB_CQ_disj V us pos hdisj hbW hbB) _

theorem pawnPushEmpty_quiets {V : Variant} {us : Color} {pos : Position} {t : Bitboard}
    (hVA : V ≠ .ANTI) : pawnPushEmpty V us .QUIETS pos t = t := by
  unfold pawnPushEmpty
  dsimp only
  rw [if_neg hVA]
  rfl

theorem pawnPushEmpty_nonev {V : Variant} {us : Color} {pos : Position} {t : Bitboard}
    (hVA : V ≠ .ANTI) : pawnPushEmpty V us .NON_EVASIONS pos t = compl pos.pieces := by
  unfold pawnPushEmpty
  dsimp only
  rw [if_neg hVA]
  rfl

theorem pawnPushB1_QN (V : Variant) (us : Color) (pos : Position)
    (hVA : V ≠ .ANTI) (hVL : V ≠ .LOSERS) :
    pawnPushB1 V us .QUIETS pos (compl pos.pieces) =
      pawnPushB1 V us .NON_EVASIONS pos (compl (pos.piecesC us)) := by
  have h0 : pawnPushB1 V us .QUIETS pos (compl pos.pieces) =
      if V = .LOSERS then
        (shiftBB (pawnUp us) (pawnsNotOn7bb pos us) &&&
          pawnPushEmpty V us .QUIETS pos (compl pos.pieces)) &&& compl pos.pieces
      else shiftBB (pawnUp us) (pawnsNotOn7bb pos us) &&&
        pawnPushEmpty V us .QUIETS pos (compl pos.pieces) := rfl
  have h1 : pawnPushB1 V us .NON_EVASIONS pos (compl (pos.piecesC us)) =
      if V = .LOSERS then
        (shiftBB (pawnUp us) (pawnsNotOn7bb pos us) &&&
          pawnPushEmpty V us .NON_EVASIONS pos (compl (pos.piecesC us))) &&&
            compl (pos.piecesC us)
      else shiftBB (pawnUp us) (pawnsNotOn7bb pos us) &&&
        pawnPushEmpty V us .NON_EVASIONS pos (compl (pos.piecesC us)) := rfl
  rw [h0, h1, if_neg hVL, if_neg hVL, pawnPushEmpty_quiets hVA, pawnPushEmpty_nonev hVA]

theorem pawnPushB2_QN (V : Variant) (us : Color) (pos : Position)
    (hVA : V ≠ .ANTI) (hVL : V ≠ .LOSERS) :
    pawnPushB2 V us .QUIETS pos (compl pos.pieces) =
      pawnPushB2 V us .NON_EVASIONS pos (compl (pos.piecesC us)) := by
  have h0 : pawnPushB2 V us .QUIETS pos (compl pos.pieces) =
      if V = .LOSERS then
        (if V = .HORDE then
          shiftBB (pawnUp us) ((shiftBB (pawnUp us) (pawnsNotOn7bb pos us) &&&
            pawnPushEmpty V us .QUIETS pos (compl pos.pieces)) &&&
              (tRank2 us ||| tRank3 us)) &&& pawnPushEmpty V us .QUIETS pos (compl pos.pieces)
         else
          shiftBB (pawnUp us) ((shiftBB (pawnUp us) (pawnsNotOn7bb pos us) &&&
            pawnPushEmpty V us .QUIETS pos (compl pos.pieces)) &&& tRank3 us) &&&
              pawnPushEmpty V us .QUIETS pos (compl pos.pieces)) &&& compl pos.pieces
      else
        if V = .HORDE then
          shiftBB (pawnUp us) ((shiftBB (pawnUp us) (pawnsNotOn7bb pos us) &&&
            pawnPushEmpty V us .QUIETS pos (compl pos.pieces)) &&&
              (tRank2 us ||| tRank3 us)) &&& pawnPushEmpty V us .QUIETS pos (compl pos.pieces)
        else
          shiftBB (pawnUp us) ((shiftBB (pawnUp us) (pawnsNotOn7bb pos us) &&&
            pawnPushEmpty V us .QUIETS pos (compl pos.pieces)) &&& tRank3 us) &&&
              pawnPushEmpty V us .QUIETS pos (compl pos.pieces) := rfl
  have h1 : pawnPushB2 V us .NON_EVASIONS pos (compl (pos.piecesC us)) =
      if V = .LOSERS then
        (if V = .HORDE then
          shiftBB (pawnUp us) ((shiftBB (pawnUp us) (pawnsNotOn7bb pos us) &&&
            pawnPushEmpty V us .NON_EVASIONS pos (compl (pos.piecesC us))) &&&
              (tRank2 us ||| tRank3 us)) &&&
                pawnPushEmpty V us .NON_EVASIONS pos (compl (pos.piecesC us))
         else
          shiftBB (pawnUp us) ((shiftBB (pawnUp us) (pawnsNotOn7bb pos us) &&&
            pawnPushEmpty V us .NON_EVASIONS pos (compl (pos.piecesC us))) &&& tRank3 us) &&&
              pawnPushEmpty V us .NON_EVASIONS pos (compl (pos.piecesC us))) &&&
                compl (pos.piecesC us)
      else
        if V = .HORDE then
          shiftBB (pawnUp us) ((shiftBB (pawnUp us) (pawnsNotOn7bb pos us) &&&
            pawnPushEmpty V us .NON_EVASIONS pos (compl (pos.piecesC us))) &&&
              (tRank2 us ||| tRank3 us)) &&&
                pawnPushEmpty V us .NON_EVASIONS pos (compl (pos.piecesC us))
        else
          shiftBB (pawnUp us) ((shiftBB (pawnUp us) (pawnsNotOn7bb pos us) &&&
            pawnPushEmpty V us .NON_EVASIONS pos (compl (pos.piecesC us))) &&& tRank3 us) &&&
              pawnPushEmpty V us .NON_EVASIONS pos (compl (pos.piecesC us)) := rfl
  rw [h0, h1, if_neg hVL, if_neg hVL, pawnPushEmpty_quiets hVA, pawnPushEmpty_nonev hVA]

theorem pawnPushList_QN (V : Variant) (us : Color) (pos : Position)
    (hVA : V ≠ .ANTI) (hVL : V ≠ .LOSERS) :
    pawnPushList V us .QUIETS pos (compl pos.pieces) =
      pawnPushList V us .NON_EVASIONS pos (compl (pos.piecesC us)) := by
  unfold pawnPushList
  rw [if_pos (show GenType.QUIETS ≠ .CAPTURES from by decide),
    if_pos (show GenType.NON_EVASIONS ≠ .CAPTURES from by decide)]
  rw [pawnPushB1_QN V us pos hVA hVL, pawnPushB2_QN V us pos hVA hVL]

end Movegen

namespace Movegen

theorem make_promotions_CQN {V : Variant} (hVA : V ≠ .ANTI) (D : Direction) (t ksq : Square) :
    make_promotions V .CAPTURES D t ksq ++ make_promotions V .QUIETS D t ksq =
      make_promotions V .NON_EVASIONS D t ksq := by
  unfold make_promotions
  rw [if_neg hVA, if_neg hVA, if_neg hVA]
  rfl

theorem pawnPromoEmpty_captures_plain {V : Variant} {us : Color} {pos : Position}
    {t : Bitboard} (hVAt : V ≠ .ATOMIC) (hVA : V ≠ .ANTI) (hVL : V ≠ .LOSERS) :
    pawnPromoEmpty V us .CAPTURES pos t = compl pos.pieces := by
  have h0 : pawnPromoEmpty V us .CAPTURES pos t =
      (if V = .LOSERS then
        (if V = .ANTI then
          (if GenType.CAPTURES = .CAPTURES ∧ V = .ATOMIC ∧ pos.checkersBB ≠ 0 then
            compl pos.pieces &&& t else compl pos.pieces) &&& t
         else
          (if GenType.CAPTURES = .CAPTURES ∧ V = .ATOMIC ∧ pos.checkersBB ≠ 0 then
            compl pos.pieces &&& t else compl pos.pieces)) &&& t
       else
        if V = .ANTI then
          (if GenType.CAPTURES = .CAPTURES ∧ V = .ATOMIC ∧ pos.checkersBB ≠ 0 then
            compl pos.pieces &&& t else compl pos.pieces) &&& t
        else
          (if GenType.CAPTURES = .CAPTURES ∧ V = .ATOMIC ∧ pos.checkersBB ≠ 0 then
            compl pos.pieces &&& t else compl pos.pieces)) := rfl
  rw [h0, if_neg hVL, if_neg hVA,
    if_neg (show ¬ (GenType.CAPTURES = .CAPTURES ∧ V = .ATOMIC ∧ pos.checkersBB ≠ 0)
      from fun hc => hVAt hc.2.1)]

theorem pawnPromoEmpty_quiets_plain {V : Variant} {us : Color} {pos : Position}
    {t : Bitboard} (hVA : V ≠ .ANTI) (hVL : V ≠ .LOSERS) :
    pawnPromoEmpty V us .QUIETS pos t = t := by
  have h0 : pawnPromoEmpty V us .QUIETS pos t =
      (if V = .LOSERS then
        (if V = .ANTI then pawnPushEmpty V us .QUIETS pos t &&& t
         else pawnPushEmpty V us .QUIETS pos t) &&& t
       else
        if V = .ANTI then pawnPushEmpty V us .QUIETS pos t &&& t
        else pawnPushEmpty V us .QUIETS pos t) := rfl
  rw [h0, if_neg hVL, if_neg hVA, pawnPushEmpty_quiets hVA]

theorem pawnPromoEmpty_nonev_plain {V : Variant} {us : Color} {pos : Position}
    {t : Bitboard} (hVA : V ≠ .ANTI) (hVL : V ≠ .LOSERS) :
    pawnPromoEmpty V us .NON_EVASIONS pos t = compl pos.pieces := by
  have h0 : pawnPromoEmpty V us .NON_EVASIONS pos t =
      (if V = .LOSERS then
        (if V = .ANTI then pawnPushEmpty V us .NON_EVASIONS pos t &&& t
         else pawnPushEmpty V us .NON_EVASIONS pos t) &&& t
       else
        if V = .ANTI then pawnPushEmpty V us .NON_EVASIONS pos t &&& t
        else pawnPushEmpty V us .NON_EVASIONS pos t) := rfl
  rw [h0, if_neg hVL, if_neg hVA, pawnPushEmpty_nonev hVA]

theorem pawnPromoList_CQN_sum (V : Variant) (us : Color) (pos : Position)
    (hVA : V ≠ .ANTI) (hVAt : V ≠ .ATOMIC) (hVL : V ≠ .LOSERS) :
    (↑(pawnPromoList V us .NON_EVASIONS pos (compl (pos.piecesC us))) : Multiset Move) =
      ↑(pawnPromoList V us .CAPTURES pos (pos.piecesC us.opp)) +
        ↑(pawnPromoList V us .QUIETS pos (compl pos.pieces)) := by
  unfold pawnPromoList
  by_cases hp7 : pawnsOn7bb pos us = 0
  · rw [if_neg (fun hc => hc.1 hp7), if_neg (fun hc => hc.1 hp7), if_neg (fun hc => hc.1 hp7)]
    rfl
  · rw [if_pos ⟨hp7, Or.inl (by decide)⟩, if_pos ⟨hp7, Or.inl (by decide)⟩,
      if_pos ⟨hp7, Or.inl (by decide)⟩]
    dsimp only
    rw [show pawnEnemies us .CAPTURES pos (pos.piecesC us.opp) = pos.piecesC us.opp from rfl,
      show pawnEnemies us .QUIETS pos (compl pos.pieces) = pos.piecesC us.opp from rfl,
      show pawnEnemies us .NON_EVASIONS pos (compl (pos.piecesC us)) = pos.piecesC us.opp
        from rfl,
      pawnPromoEmpty_captures_plain hVAt hVA hVL, pawnPromoEmpty_quiets_plain hVA hVL,
      pawnPromoEmpty_nonev_plain hVA hVL]
    simp only [coe_append_sum]
    rw [show (fun t => make_promotions V .NON_EVASIONS (pawnRight us) t (pos.kingSq us.opp)) =
        (fun t => make_promotions V .CAPTURES (pawnRight us) t (pos.kingSq us.opp) ++
          make_promotions V .QUIETS (pawnRight us) t (pos.kingSq us.opp)) from
        funext (fun t => (make_promotions_CQN hVA _ t _).symm),
      show (fun t => make_promotions V .NON_EVASIONS (pawnLeft us) t (pos.kingSq us.opp)) =
        (fun t => make_promotions V .CAPTURES (pawnLeft us) t (pos.kingSq us.opp) ++
          make_promotions V .QUIETS (pawnLeft us) t (pos.kingSq us.opp)) from
        funext (fun t => (make_promotions_CQN hVA _ t _).symm),
      show (fun t => make_promotions V .NON_EVASIONS (pawnUp us) t (pos.kingSq us.opp)) =
        (fun t => make_promotions V .CAPTURES (pawnUp us) t (pos.kingSq us.opp) ++
          make_promotions V .QUIETS (pawnUp us) t (pos.kingSq us.opp)) from
        funext (fun t => (make_promotions_CQN hVA _ t _).symm)]
    rw [flatMap_append_sum, flatMap_append_sum, flatMap_append_sum]
    ac_rfl

theorem pawnCapList_CN (us : Color) (pos : Position) :
    pawnCapList us .CAPTURES pos (pos.piecesC us.opp) =
      pawnCapList us .NON_EVASIONS pos (compl (pos.piecesC us)) := rfl

theorem dropList_captures_nil (V : Variant) (us : Color) (pos : Position) (t : Bitboard) :
    dropList V us .CAPTURES pos t = [] := by
  unfold dropList
  exact if_neg (fun hc => hc.2.1 rfl)

theorem compl_own_xor (us : Color) (pos : Position)
    (hdisj : pos.byColor .WHITE &&& pos.byColor .BLACK = 0)
    (hbW : pos.byColor .WHITE < 2 ^ 64) (hbB : pos.byColor .BLACK < 2 ^ 64) :
    compl (pos.piecesC us) ^^^ pos.piecesC us.opp = compl pos.pieces := by
  apply Nat.eq_of_testBit_eq
  intro i
  have hoccI := @occ_iff pos us i
  simp only [Nat.testBit_xor, testBit_compl]
  cases h1 : (pos.piecesC us).testBit i <;> cases h2 : (pos.piecesC us.opp).testBit i
  · have h3 : pos.pieces.testBit i = false := by
      cases hx : pos.pieces.testBit i
      · rfl
      · rcases hoccI.mp hx with h | h
        · rw [h1] at h
          exact absurd h (by simp)
        · rw [h2] at h
          exact absurd h (by simp)
    rw [h3]
    simp
  · have h3 : pos.pieces.testBit i = true := hoccI.mpr (Or.inr h2)
    rw [h3]
    cases hd : decide (i < 64) <;> simp
  · have h3 : pos.pieces.testBit i = true := hoccI.mpr (Or.inl h1)
    rw [h3]
    cases hd : decide (i < 64) <;> simp
  · exact (own_opp_disj hdisj us h1 h2).elim

theorem dropList_QN (V : Variant) (us : Color) (pos : Position)
    (hdisj : pos.byColor .WHITE &&& pos.byColor .BLACK = 0)
    (hbW : pos.byColor .WHITE < 2 ^ 64) (hbB : pos.byColor .BLACK < 2 ^ 64) :
    dropList V us .QUIETS pos (compl pos.pieces) =
      dropList V us .NON_EVASIONS pos (compl (pos.piecesC us)) := by
  unfold dropList
  by_cases hg : V = .CRAZYHOUSE ∧ 0 < pos.handAll us
  · rw [if_pos (show V = .CRAZYHOUSE ∧ GenType.QUIETS ≠ .CAPTURES ∧ 0 < pos.handAll us
        from ⟨hg.1, by decide, hg.2⟩),
      if_pos (show V = .CRAZYHOUSE ∧ GenType.NON_EVASIONS ≠ .CAPTURES ∧ 0 < pos.handAll us
        from ⟨hg.1, by decide, hg.2⟩)]
    simp only [reduceIte, reduceCtorEq]
    rw [compl_own_xor us pos hdisj hbW hbB]
  · rw [if_neg (fun hc => hg ⟨hc.1, hc.2.2⟩), if_neg (fun hc => hg ⟨hc.1, hc.2.2⟩)]

theorem castleList_QN (V : Variant) (us : Color) (pos : Position) :
    castleList V us .QUIETS pos = castleList V us .NON_EVASIONS pos := by
  unfold castleList
  by_cases hc : pos.canCastleC us = true
  · rw [if_pos (show GenType.QUIETS ≠ .CAPTURES ∧ GenType.QUIETS ≠ .EVASIONS ∧
        pos.canCastleC us = true from ⟨by decide, by decide, hc⟩),
      if_pos (show GenType.NON_EVASIONS ≠ .CAPTURES ∧ GenType.NON_EVASIONS ≠ .EVASIONS ∧
        pos.canCastleC us = true from ⟨by decide, by decide, hc⟩)]
    rfl
  · rw [if_neg (fun hx => hc hx.2.2), if_neg (fun hx => hc hx.2.2)]

end Movegen

namespace Movegen

theorem generate_all_CQN (V : Variant) (us : Color) (pos : Position)
    (hVA : V ≠ .ANTI) (hVAt : V ≠ .ATOMIC) (hVL : V ≠ .LOSERS)
    (hdisj : pos.byColor .WHITE &&& pos.byColor .BLACK = 0)
    (hbW : pos.byColor .WHITE < 2 ^ 64) (hbB : pos.byColor .BLACK < 2 ^ 64) :
    (↑(generate_all V us .NON_EVASIONS pos (compl (pos.piecesC us))) : Multiset Move) =
      ↑(generate_all V us .CAPTURES pos (pos.piecesC us.opp)) +
        ↑(generate_all V us .QUIETS pos (compl pos.pieces)) := by
  have ht := @targets_split pos us hdisj hbW hbB
  have htd := @targets_disj pos us hbW hbB
  unfold generate_all generate_pawn_moves
  rw [if_neg (fun hc => hVA hc.1), if_neg (fun hc => hVL hc.1),
    if_neg (fun hc => hVA hc.1), if_neg (fun hc => hVL hc.1),
    if_neg (fun hc => hVA hc.1), if_neg (fun hc => hVL hc.1)]
  rw [pawnPushList_captures_nil, pawnPushList_QN V us pos hVA hVL,
    (pawnCapList_quiet us pos (compl pos.pieces)).1, pawnCapList_CN,
    castleList_captures, castleList_QN,
    dropList_captures_nil, dropList_QN V us pos hdisj hbW hbB]
  simp only [coe_append_sum, Multiset.coe_nil, add_zero, zero_add]
  rw [pawnPromoList_CQN_sum V us pos hVA hVAt hVL,
    kingMovesList_CQN_sum V us pos hVA hdisj hbW hbB,
    show decide (GenType.NON_EVASIONS = GenType.QUIET_CHECKS) = false from rfl,
    show decide (GenType.CAPTURES = GenType.QUIET_CHECKS) = false from rfl,
    show decide (GenType.QUIETS = GenType.QUIET_CHECKS) = false from rfl,
    generate_moves_CQN_sum V .KNIGHT pos us ht htd,
    generate_moves_CQN_sum V .BISHOP pos us ht htd,
    generate_moves_CQN_sum V .ROOK pos us ht htd,
    generate_moves_CQN_sum V .QUEEN pos us ht htd]
  ac_rfl

theorem generateMain_CQN (pos : Position)
    (hvA : pos.variant ≠ .ANTI) (hvAt : pos.variant ≠ .ATOMIC) (hvL : pos.variant ≠ .LOSERS)
    (hdisj : pos.byColor .WHITE &&& pos.byColor .BLACK = 0)
    (hbW : pos.byColor .WHITE < 2 ^ 64) (hbB : pos.byColor .BLACK < 2 ^ 64) :
    (↑(generateMain .NON_EVASIONS pos) : Multiset Move) =
      ↑(generateMain .CAPTURES pos) + ↑(generateMain .QUIETS pos) := by
  cases hvv : pos.variant with
  | ANTI => exact absurd hvv hvA
  | ATOMIC => exact absurd hvv hvAt
  | LOSERS => exact absurd hvv hvL
  | CHESS =>
      simp only [generateMain, hvv, reduceIte, reduceCtorEq]
      exact generate_all_CQN .CHESS pos.sideToMove pos (by decide) (by decide) (by decide)
        hdisj hbW hbB
  | CRAZYHOUSE =>
      simp only [generateMain, hvv, reduceIte, reduceCtorEq]
      exact generate_all_CQN .CRAZYHOUSE pos.sideToMove pos (by decide) (by decide) (by decide)
        hdisj hbW hbB
  | HORDE =>
      simp only [generateMain, hvv, reduceIte, reduceCtorEq]
      exact generate_all_CQN .HORDE pos.sideToMove pos (by decide) (by decide) (by decide)
        hdisj hbW hbB
  | RACE =>
      simp only [generateMain, hvv, reduceIte, reduceCtorEq]
      exact generate_all_CQN .RACE pos.sideToMove pos (by decide) (by decide) (by decide)
        hdisj hbW hbB
  | RELAY =>
      simp only [generateMain, hvv, reduceIte, reduceCtorEq]
      exact generate_all_CQN .RELAY pos.sideToMove pos (by decide) (by decide) (by decide)
        hdisj hbW hbB

end Movegen

namespace Movegen

def atPos : Position :=
  mkPos .ATOMIC .WHITE [(6, .WHITE, .KING), (13, .BLACK, .KNIGHT), (56, .BLACK, .KING)]
    SQ_NONE noRights false false noHand

def c2Pos : Position :=
  mkPos .CHESS .WHITE [(4, .WHITE, .KING), (0, .WHITE, .ROOK), (60, .BLACK, .KING)]
    SQ_NONE noRights false false noHand

/-- Claim C2 as stated fails: in the Atomic position `atPos` (white king
g1, black knight f2, black king a8, White to move, no check), the move
Kg1xf2 appears in `generate<NON_EVASIONS>` but in neither
`generate<CAPTURES>` (whose Atomic target excludes squares adjacent to the
own king, movegen.cpp:484-485) nor `generate<QUIETS>`, so the multiset
partition breaks. -/
theorem C2_counterexample :
    atPos.checkersBB = 0 ∧
      ¬ ((↑(generate .NON_EVASIONS atPos) : Multiset Move) =
        ↑(generate .CAPTURES atPos) + ↑(generate .QUIETS atPos)) :=
  ⟨by decide, by decide⟩

/-- Claim C2, amended: outside the Anti, Atomic and Losers variants
(whose target overrides break the split), for every position with
`checkers()` empty and a well-formed Position contract (colour bitboards
disjoint and 64-bit, piece-type bitboards pairwise disjoint, the king
square clean of other own piece types, distinct castling rook squares),
`generate<NON_EVASIONS>` equals `generate<CAPTURES>` plus
`generate<QUIETS>` as a multiset of moves, and the two lists share no
move. -/
theorem C2_partition_amended (pos : Position)
    (hvA : pos.variant ≠ .ANTI) (hvAt : pos.variant ≠ .ATOMIC) (hvL : pos.variant ≠ .LOSERS)
    (hchk0 : pos.checkersBB = 0)
    (hTypeDisj : ∀ pt1 pt2 : PieceType, pt1 ≠ pt2 → pos.byType pt1 &&& pos.byType pt2 = 0)
    (hKingClean : ∀ pt : PieceType, pt ≠ .KING →
      (pos.piecesCT pos.sideToMove pt).testBit (pos.kingSq pos.sideToMove) = false)
    (hRook : pos.castlingRookSq (mkCastlingRight pos.sideToMove true) ≠
      pos.castlingRookSq (mkCastlingRight pos.sideToMove false))
    (hdisj : pos.byColor .WHITE &&& pos.byColor .BLACK = 0)
    (hbW : pos.byColor .WHITE < 2 ^ 64) (hbB : pos.byColor .BLACK < 2 ^ 64) :
    (↑(generate .NON_EVASIONS pos) : Multiset Move) =
        ↑(generate .CAPTURES pos) + ↑(generate .QUIETS pos) ∧
      List.Disjoint (generate .CAPTURES pos) (generate .QUIETS pos) := by
  have hmeq : (↑(generateMain .NON_EVASIONS pos) : Multiset Move) =
      ↑(generateMain .CAPTURES pos) + ↑(generateMain .QUIETS pos) :=
    generateMain_CQN pos hvA hvAt hvL hdisj hbW hbB
  have hN : (generateMain .NON_EVASIONS pos).Nodup :=
    generateMain_nodup _ pos hTypeDisj hKingClean hRook
  have hperm : List.Perm (generateMain .NON_EVASIONS pos)
      (generateMain .CAPTURES pos ++ generateMain .QUIETS pos) :=
    Multiset.coe_eq_coe.mp (hmeq.trans (coe_append_sum _ _).symm)
  have hnd : (generateMain .CAPTURES pos ++ generateMain .QUIETS pos).Nodup :=
    hperm.nodup_iff.mp hN
  exact ⟨hmeq, (List.nodup_append.mp hnd).2.2⟩

theorem C2_partition_amended_witness :
    (↑(generate .NON_EVASIONS c2Pos) : Multiset Move) =
        ↑(generate .CAPTURES c2Pos) + ↑(generate .QUIETS c2Pos) ∧
      List.Disjoint (generate .CAPTURES c2Pos) (generate .QUIETS c2Pos) :=
  C2_partition_amended c2Pos (by decide) (by decide) (by decide) (by decide)
    (by intro pt1 pt2 hne; cases pt1 <;> cases pt2 <;> first | exact absurd rfl hne | decide)
    (by intro pt hpt; cases pt <;> first | exact absurd rfl hpt | decide)
    (by decide) (by decide) (by decide) (by decide)

end Movegen
